import Mathlib

/-!
# i18n: translator factory, fallback chains, translation and pluralisation

A shallow embedding of `src/i18n.go`.

Modelling conventions.

* Go strings are Lean `String`s; the functions of Go's `strings` package that the
  source calls (`Index`, `Replace`, `Split`, `Join`) are written out on character
  lists.
* A `[]error` is a `List translatorError`; the `nil` slice is `[]` (every slice the
  source builds is either `nil` or has at least one element).
* `*Translator` is an address into a heap of `Translator` records (`Nat` index,
  `Option Nat` for a possibly-nil pointer).  `new(Translator)` appends to the heap.
* A run-time panic (nil dereference, index out of range) is the result `none`.
* `Source` is an interface; it is modelled by a pair of functions.
* `map[string]string` is iterated in an unspecified order; `substitute` takes the
  pairs in the order of that iteration.
-/

namespace I18n

/-! ## The `strings` package -/

/-- Worker of `strings.Index`: position of the first occurrence of `sub` in `s`,
counted from `i`. -/
def indexFrom (sub : List Char) : List Char → Nat → Option Nat
  | [], i => if sub.isPrefixOf [] then some i else none
  | c :: cs, i => if sub.isPrefixOf (c :: cs) then some i else indexFrom sub cs (i + 1)

/-- Go `strings.Index(s, substr)`: the position of the first occurrence, or `-1`.
Positions are counted in characters; the source only compares the result with `-1`. -/
def Index (s substr : String) : Int :=
  match indexFrom substr.data s.data 0 with
  | some i => (i : Int)
  | none => -1

/-- Worker of `strings.Replace` for a non-empty `old`: `skip` characters of a match
that has just been replaced are still to be dropped. -/
def replaceFrom (old new : List Char) : Nat → List Char → List Char
  | _, [] => []
  | skip + 1, _ :: cs => replaceFrom old new skip cs
  | 0, c :: cs =>
    if old.isPrefixOf (c :: cs) then new ++ replaceFrom old new (old.length - 1) cs
    else c :: replaceFrom old new 0 cs

/-- Go `strings.Replace(s, old, new, -1)`: every non-overlapping occurrence of `old`,
from the left, is replaced by `new`.  For an empty `old`, `new` is inserted before
every character and at the end. -/
def Replace (s old new : String) : String :=
  if old.data = [] then
    ⟨(s.data.map fun c => new.data ++ [c]).flatten ++ new.data⟩
  else ⟨replaceFrom old.data new.data 0 s.data⟩

/-- Worker of `strings.Split` for a non-empty separator. -/
def splitFrom (sep : List Char) : Nat → List Char → List (List Char)
  | _, [] => [[]]
  | skip + 1, _ :: cs => splitFrom sep skip cs
  | 0, c :: cs =>
    if sep.isPrefixOf (c :: cs) then [] :: splitFrom sep (sep.length - 1) cs
    else
      match splitFrom sep 0 cs with
      | p :: ps => (c :: p) :: ps
      | [] => [[c]]

/-- Go `strings.Split(s, sep)`: the pieces of `s` between the occurrences of `sep`
(always at least one piece).  For an empty `sep` the string is cut into characters. -/
def Split (s sep : String) : List String :=
  if sep.data = [] then s.data.map fun c => ⟨[c]⟩
  else (splitFrom sep.data 0 s.data).map fun p => ⟨p⟩

/-- Go `strings.Join(elems, sep)`. -/
def Join : List String → String → String
  | [], _ => ""
  | [a], _ => a
  | a :: b :: rest, sep => a ++ sep ++ Join (b :: rest) sep

/-! ## Data model -/

/-- The sentinel locale code under which the shared rules are stored. -/
def COMMON_DATA : String := "root"

/-- The interface `Source`: raw rule bytes for a locale code, and the message of a
key in a locale, each with a found flag. -/
structure Source where
  GetRules : String → List Nat × Bool
  GetMessages : String → String → String × Bool

/-- The struct `translatorError`: an optional reference to a Translator (an address
into the heap) and a message.  It is the element type of every `[]error`. -/
structure translatorError where
  translator : Option Nat
  message : String
  deriving DecidableEq, Repr

/-- Modelled from the spec: the type `TranslatorRules` is declared outside the
sources at hand.  A rule set holds a plural-selection function (a quantity to a
form index; `none` is the nil function of a zero-valued struct) and a
text-direction value.  `Q` is the type of quantities (`float64` in the source, which
only ever hands the quantity to the plural-selection function). -/
structure TranslatorRules (Q : Type) where
  PluralRuleFunc : Option (Q → Int)
  Direction : String

/-- Modelled from the spec: the method `(*TranslatorRules).load(data, _, _)` is
declared outside the sources at hand; it merges raw rule data into a rule set and
reports errors.  It is a parameter of the embedding. -/
abbrev Loader (Q : Type) : Type :=
  TranslatorRules Q → List Nat → Bool → Bool → TranslatorRules Q × List translatorError

/-- The struct `Translator`.  `fallback` is a possibly-nil pointer. -/
structure Translator (Q : Type) where
  messages : String → String → String × Bool
  locale : String
  rules : TranslatorRules Q
  fallback : Option Nat

/-- The struct `TranslatorFactory`.  The map `translators` is a finite partial
function from locale codes to Translator pointers. -/
structure TranslatorFactory where
  source : Source
  translators : String → Option Nat
  fallback : Option Nat

/-- The factory together with the heap of Translators it has allocated; the
address of a Translator is its position in `heap`. -/
structure Store (Q : Type) where
  heap : List (Translator Q)
  f : TranslatorFactory

/-- The method `translatorError.Error`, reading the locale of the referenced
Translator from the heap. -/
def translatorError.Error {Q : Type} (heap : List (Translator Q)) (e : translatorError) :
    Option String :=
  match e.translator with
  | some t =>
    match heap[t]? with
    | some tr => some ("translator error (locale: " ++ tr.locale ++ ") - " ++ e.message)
    | none => none
  | none => some ("translator error - " ++ e.message)

/-! ## The factory -/

/-- The method `TranslatorFactory.LocaleExists`. -/
def LocaleExists (f : TranslatorFactory) (localeCode : String) : Bool :=
  (f.source.GetRules localeCode).2

/-- The `for len(parts) > 1` loop of `getFallback`.  The counter is
`len(parts) - 1` for the current slice, which is `parts.take (counter + 1)`;
`GetTranslator` is the method the loop body calls. -/
def getFallbackLoop {Q : Type}
    (GetTranslator : Store Q → String → Option (Store Q × Nat × List translatorError))
    (separator : String) (parts : List String) (s : Store Q) (fallback : Option Nat) :
    Nat → Option (Store Q × Option Nat)
  | 0 => some (s, fallback)
  | n + 1 =>
    let fb := Join (parts.take (n + 1)) separator
    if LocaleExists s.f fb then
      match GetTranslator s fb with
      | some (s', t, _) => some (s', some t)
      | none => none
    else getFallbackLoop GetTranslator separator parts s fallback n

/-- The method `TranslatorFactory.getFallback`, returning the store after the calls
it makes and the fallback pointer. -/
def getFallback {Q : Type}
    (GetTranslator : Store Q → String → Option (Store Q × Nat × List translatorError))
    (s : Store Q) (localeCode : String) : Option (Store Q × Option Nat) :=
  let continue_ : Option (Store Q × Option Nat) :=
    let separator := "-"
    let fallback := s.f.fallback
    let parts := Split localeCode separator
    getFallbackLoop GetTranslator separator parts s fallback (parts.length - 1)
  match s.f.fallback with
  | none => continue_
  | some g =>
    match s.heap[g]? with
    | none => none
    | some gt => if localeCode = gt.locale then some (s, none) else continue_

/-- The method `TranslatorFactory.GetTranslator`; `fuel` bounds the depth of the
recursion through `getFallback`. -/
def GetTranslatorFuel {Q : Type} (load : Loader Q) :
    Nat → Store Q → String → Option (Store Q × Nat × List translatorError)
  | 0, _, _ => none
  | fuel + 1, s, localeCode =>
    match getFallback (GetTranslatorFuel load fuel) s localeCode with
    | none => none
    | some (s, fallback) =>
      match s.f.translators localeCode with
      | some t => some (s, t, [])
      | none =>
        let rules : TranslatorRules Q := ⟨none, ""⟩
        let (data, ok) := s.f.source.GetRules COMMON_DATA
        let errors : List translatorError :=
          if !ok then [⟨none, "could not find root (COMMON_DATA)"⟩] else []
        let (rules, errs) := load rules data false false
        let errors := errors ++ errs
        let (data, ok) := s.f.source.GetRules localeCode
        let errors :=
          if !ok then
            errors ++ [⟨none, "could not find rules and messages for locale " ++ localeCode⟩]
          else errors
        let (rules, errs) := load rules data true true
        let errors := errors ++ errs
        let t := s.heap.length
        let tr : Translator Q :=
          { messages := s.f.source.GetMessages, locale := localeCode, rules := rules,
            fallback := fallback }
        some ({ heap := s.heap ++ [tr],
                f := { s.f with
                  translators := fun k => if k = localeCode then some t else s.f.translators k } },
              t, errors)

/-- The method `TranslatorFactory.GetTranslator`.  Every recursive call is on a
strictly shorter locale code, so `len(localeCode) + 1` levels suffice
(`GetTranslator_spec`). -/
def GetTranslator {Q : Type} (load : Loader Q) (s : Store Q) (localeCode : String) :
    Option (Store Q × Nat × List translatorError) :=
  GetTranslatorFuel load (localeCode.length + 1) s localeCode

/-- The function `NewTranslatorFactory`, starting from an empty heap. -/
def NewTranslatorFactory {Q : Type} (load : Loader Q) (source : Source)
    (fallbackLocale : String) : Option (Store Q × List translatorError) :=
  let s : Store Q := { heap := [], f := { source := source, translators := fun _ => none,
                                          fallback := none } }
  if fallbackLocale ≠ "" then
    match GetTranslator load s fallbackLocale with
    | some (s, t, errs) => some ({ s with f := { s.f with fallback := some t } }, errs)
    | none => none
  else some (s, [])

/-- The store after `NewTranslatorFactory(source, fallbackLocale)` followed by a
`GetTranslator` call for each code of `calls`, in order. -/
def callAll {Q : Type} (load : Loader Q) : Store Q → List String → Option (Store Q)
  | s, [] => some s
  | s, c :: cs =>
    match GetTranslator load s c with
    | some (s', _, _) => callAll load s' cs
    | none => none

/-- The store of a factory built by `NewTranslatorFactory` and then used for the
`GetTranslator` calls `calls`. -/
def factoryAfter {Q : Type} (load : Loader Q) (source : Source) (fallbackLocale : String)
    (calls : List String) : Option (Store Q) :=
  match NewTranslatorFactory load source fallbackLocale with
  | some (s, _) => callAll load s calls
  | none => none

/-! ## The Translator -/

/-- The method `Translator.substitute`; `t` is the receiver's address and
`substitutions` lists the pairs of the map in the order of the `range` iteration. -/
def substitute (t : Nat) (str : String) (substitutions : List (String × String)) :
    String × List translatorError :=
  substitutions.foldl
    (fun (acc : String × List translatorError) (p : String × String) =>
      let errors :=
        if Index str ("\x7b" ++ p.1 ++ "\x7d") = -1 then
          acc.2 ++ [⟨some t, "substitution not found: " ++ str ++ ", " ++ p.2⟩]
        else acc.2
      (Replace acc.1 ("\x7b" ++ p.1 ++ "\x7d") p.2, errors))
    (str, [])

/-- The method `Translator.Translate` on the Translator at address `t`; `fuel`
bounds the number of Translators visited along the fallback chain. -/
def Translate {Q : Type} (heap : List (Translator Q)) :
    Nat → Nat → String → List (String × String) → Option (String × List translatorError)
  | 0, _, _, _ => none
  | fuel + 1, t, key, substitutions =>
    match heap[t]? with
    | none => none
    | some tr =>
      let (message, exists_) := tr.messages key tr.locale
      if exists_ then some (substitute t message substitutions)
      else
        let notFound : Option (String × List translatorError) :=
          some ("", [⟨some t, "key not found: " ++ key⟩])
        match tr.fallback with
        | some fb => if fb ≠ t then Translate heap fuel fb key substitutions else notFound
        | none => notFound

/-- The method `Translator.Pluralize` on the Translator at address `t`. -/
def Pluralize {Q : Type} (heap : List (Translator Q)) :
    Nat → Nat → String → Q → String → Option (String × List translatorError)
  | 0, _, _, _, _ => none
  | fuel + 1, t, key, number, numberStr =>
    match heap[t]? with
    | none => none
    | some tr =>
      let (message, exists_) := tr.messages key tr.locale
      if !exists_ then
        let notFound : Option (String × List translatorError) :=
          some ("", [⟨some t, "key not found: " ++ key⟩])
        match tr.fallback with
        | some fb => if fb ≠ t then Pluralize heap fuel fb key number numberStr else notFound
        | none => notFound
      else
        match tr.rules.PluralRuleFunc with
        | none => none
        | some rule =>
          let form : Int := rule number
          let parts := Split message "|"
          let errors : List translatorError :=
            if form > (parts.length : Int) - 1 then
              [⟨some t, "too few plural variations: " ++ key⟩]
            else []
          let form : Int := if form > (parts.length : Int) - 1 then (parts.length : Int) - 1 else form
          if form < 0 then none
          else
            match parts[form.toNat]? with
            | none => none
            | some part =>
              let (translation, errs) := substitute t part [("n", numberStr)]
              some (translation, errors ++ errs)

/-- The method `Translator.Tr`. -/
def Tr {Q : Type} (heap : List (Translator Q)) (fuel t : Nat) (key : String)
    (substitutions : List (String × String)) : Option String :=
  match Translate heap fuel t key substitutions with
  | some (translation, errors) => if errors ≠ [] then some key else some translation
  | none => none

/-- The method `Translator.T`. -/
def T {Q : Type} (heap : List (Translator Q)) (fuel t : Nat) (key : String) : Option String :=
  Tr heap fuel t key []

/-- The method `Translator.P`. -/
def P {Q : Type} (heap : List (Translator Q)) (fuel t : Nat) (key : String) (number : Q)
    (numberStr : String) : Option String :=
  match Pluralize heap fuel t key number numberStr with
  | some (translation, errors) => if errors ≠ [] then some key else some translation
  | none => none

/-! ## Vocabulary of the statements -/

/-- The Translator reached from address `t` by following `fallback` `n` times. -/
def nthFallback {Q : Type} (heap : List (Translator Q)) : Nat → Nat → Option Nat
  | t, 0 => some t
  | t, n + 1 =>
    match heap[t]? with
    | some tr =>
      match tr.fallback with
      | some fb => nthFallback heap fb n
      | none => none
    | none => none

/-- The proper hyphen-prefixes of a locale code, longest first: the codes obtained
by dropping trailing hyphen-separated parts one at a time. -/
def properPrefixes (localeCode : String) : List String :=
  let parts := Split localeCode "-"
  (List.range (parts.length - 1)).reverse.map fun n => Join (parts.take (n + 1)) "-"

/-- The fallback the source computes for a locale code that is not the code of the
global fallback: the Translator cached (in `s'`) under the longest proper
hyphen-prefix for which the source has rule data, else the global fallback of `s`. -/
def expectedFallback {Q : Type} (s s' : Store Q) (localeCode : String) : Option Nat :=
  match (properPrefixes localeCode).find? (LocaleExists s.f) with
  | some p => s'.f.translators p
  | none => s.f.fallback

/-- Well-formedness of a store: the global fallback is an allocated Translator
cached under its own locale code, every cached pointer is allocated and carries
the code it is cached under, a fallback pointer is older than its owner, and every
Translator looks messages up in the source and is cached under its locale code. -/
structure Inv {Q : Type} (s : Store Q) : Prop where
  global : ∀ g, s.f.fallback = some g →
    ∃ gt : Translator Q, s.heap[g]? = some gt ∧ s.f.translators gt.locale = some g
  cache : ∀ k p, s.f.translators k = some p →
    ∃ tr : Translator Q, s.heap[p]? = some tr ∧ tr.locale = k
  older : ∀ (p : Nat) (tr : Translator Q) (q : Nat), s.heap[p]? = some tr →
    tr.fallback = some q → q < p
  entry : ∀ (p : Nat) (tr : Translator Q), s.heap[p]? = some tr →
    tr.messages = s.f.source.GetMessages ∧ s.f.translators tr.locale = some p

/-- How a store evolves under calls of `GetTranslator`: source and global fallback
stay, the heap and the cache only grow, new cache entries point to new Translators
of the right locale, and the fallback of a new Translator is the global fallback or
an older Translator for a proper hyphen-prefix of its locale code. -/
structure Step {Q : Type} (s s' : Store Q) : Prop where
  source : s'.f.source = s.f.source
  fallback : s'.f.fallback = s.f.fallback
  heap : ∃ ext, s'.heap = s.heap ++ ext
  mono : ∀ k p, s.f.translators k = some p → s'.f.translators k = some p
  fresh : ∀ k p, s'.f.translators k = some p →
    s.f.translators k = some p ∨
      (s.heap.length ≤ p ∧ ∃ tr : Translator Q, s'.heap[p]? = some tr ∧ tr.locale = k)
  newFallback : ∀ (p : Nat) (tr : Translator Q), s.heap.length ≤ p → s'.heap[p]? = some tr →
    tr.fallback = s.f.fallback ∨
      ∃ q, tr.fallback = some q ∧ q < p ∧
        ∃ qt : Translator Q, s'.heap[q]? = some qt ∧ qt.locale ∈ properPrefixes tr.locale
  newEntry : ∀ (p : Nat) (tr : Translator Q), s.heap.length ≤ p → s'.heap[p]? = some tr →
    tr.messages = s.f.source.GetMessages ∧ s'.f.translators tr.locale = some p

/-- The effect of one `GetTranslator(localeCode)` call from `s`, returning the
Translator `t` and the errors `e` in the store `s'`. -/
structure GTSpec {Q : Type} (s : Store Q) (localeCode : String) (s' : Store Q) (t : Nat)
    (e : List translatorError) : Prop where
  step : Step s s'
  cached : s'.f.translators localeCode = some t
  bound : ∀ k, s.f.translators k = none → s'.f.translators k ≠ none →
    k.length ≤ localeCode.length
  hit : ∀ t0, s.f.translators localeCode = some t0 → t = t0 ∧ e = []
  created : s.f.translators localeCode = none →
    ∃ tr : Translator Q, s'.heap[t]? = some tr ∧ tr.locale = localeCode ∧
      tr.messages = s.f.source.GetMessages ∧
      tr.fallback = expectedFallback s s' localeCode ∧
      ∀ p, (properPrefixes localeCode).find? (LocaleExists s.f) = some p →
        ∃ q, s'.f.translators p = some q
  alone : s.f.translators localeCode = none →
    (properPrefixes localeCode).find? (LocaleExists s.f) = none →
    s'.heap.length = s.heap.length + 1 ∧ t = s.heap.length

/-- The code is not the locale of the global fallback. -/
def notGlobal {Q : Type} (s : Store Q) (localeCode : String) : Prop :=
  ∀ (g : Nat) (gt : Translator Q), s.f.fallback = some g → s.heap[g]? = some gt →
    localeCode ≠ gt.locale

/-- The three ways `getFallback(localeCode)` returns. -/
inductive FBSpec {Q : Type} (s : Store Q) (localeCode : String) (s1 : Store Q)
    (fbp : Option Nat) : Prop
  | isGlobal (g : Nat) (gt : Translator Q) (h1 : s.f.fallback = some g)
      (h2 : s.heap[g]? = some gt) (h3 : localeCode = gt.locale) (h4 : s1 = s)
      (h5 : fbp = none) : FBSpec s localeCode s1 fbp
  | default (h1 : notGlobal s localeCode)
      (h2 : (properPrefixes localeCode).find? (LocaleExists s.f) = none) (h4 : s1 = s)
      (h5 : fbp = s.f.fallback) : FBSpec s localeCode s1 fbp
  | shorter (p : String) (t : Nat) (e : List translatorError) (h1 : notGlobal s localeCode)
      (h2 : (properPrefixes localeCode).find? (LocaleExists s.f) = some p)
      (h3 : GTSpec s p s1 t e) (h5 : fbp = some t) : FBSpec s localeCode s1 fbp

/-- The Translators other than the global fallback `g` (of locale `G`) carry another
locale code and fall back to `g` or to an older Translator for a proper hyphen-prefix
of their own code. -/
def LocalG {Q : Type} (s : Store Q) (g : Nat) (G : String) : Prop :=
  ∀ (p : Nat) (tr : Translator Q), s.heap[p]? = some tr →
    p = g ∨ (tr.locale ≠ G ∧ (tr.fallback = some g ∨
      ∃ q, ∃ qt : Translator Q, tr.fallback = some q ∧ q < p ∧ s.heap[q]? = some qt ∧
        qt.locale ∈ properPrefixes tr.locale))

/-! ## Example data -/

/-- A source with rule data for `root`, `en` and `en-US` only; the messages
`greeting` and `item_count` exist in `en`, the message `colour` only in `en-US`. -/
def exampleSource : Source where
  GetRules := fun locale => ([], decide (locale = "root" ∨ locale = "en" ∨ locale = "en-US"))
  GetMessages := fun key locale =>
    if key = "greeting" ∧ locale = "en" then ("Hello \x7bname\x7d", true)
    else if key = "item_count" ∧ locale = "en" then ("\x7bn\x7d item|\x7bn\x7d items", true)
    else if key = "colour" ∧ locale = "en-US" then ("color", true)
    else ("", false)

/-- A loader whose rule sets select form 0 for the quantity 1 and form 1 otherwise. -/
def exampleLoad : Loader Int := fun rules _ _ _ =>
  ({ rules with PluralRuleFunc := some fun n => if n = 1 then 0 else 1 }, [])

/-- The store of the example factory with global fallback `fallbackLocale` after the
calls `calls`. -/
def exampleStore (fallbackLocale : String) (calls : List String) : Store Int :=
  (factoryAfter exampleLoad exampleSource fallbackLocale calls).getD
    ⟨[], ⟨exampleSource, fun _ => none, none⟩⟩

/-- A loader whose rule sets select the form `k` for every quantity. -/
def constantLoad (k : Int) : Loader Int := fun rules _ _ _ =>
  ({ rules with PluralRuleFunc := some fun _ => k }, [])

/-- The store of the factory over the example source with global fallback `en` whose
plural rule function is constantly `k`. -/
def constantStore (k : Int) : Store Int :=
  (factoryAfter (constantLoad k) exampleSource "en" []).getD
    ⟨[], ⟨exampleSource, fun _ => none, none⟩⟩

/-! ## The postcondition of `substitute` as the specification words it -/

/-- The literal placeholder of a substitution name. -/
def placeholder (name : String) : String := "\x7b" ++ name ++ "\x7d"

/-- The literal text `sub` occurs in `s`. -/
def occursIn (sub s : String) : Bool := decide (sub.data <:+: s.data)

/-- The result the specification gives for `substitute`: the template with, for each
pair in the order of iteration, all occurrences of its placeholder replaced by its
value; and one `substitution not found` error for each pair whose placeholder does not
occur in the original template. -/
def substituteSpec (t : Nat) (template : String) (pairs : List (String × String)) :
    String × List translatorError :=
  (pairs.foldl (fun acc p => Replace acc (placeholder p.1) p.2) template,
   (pairs.filter fun p => !occursIn (placeholder p.1) template).map fun p =>
     ⟨some t, "substitution not found: " ++ template ++ ", " ++ p.2⟩)

/-- The messages of the hand-built Translators below: `item_count`, `cart` and
`greeting` exist in `en` only. -/
def handMessages : String → String → String × Bool := fun key locale =>
  if key = "item_count" ∧ locale = "en" then ("\x7bn\x7d item|\x7bn\x7d items", true)
  else if key = "cart" ∧ locale = "en" then ("one item|\x7bn\x7d items", true)
  else if key = "greeting" ∧ locale = "en" then ("Hello \x7bname\x7d", true)
  else ("", false)

/-- Two Translators with different plural rule functions: `en` at address 0 (form 0
for the quantity 1, else form 1), and `en-US` at address 1 (always form 0), which falls
back to `en`. -/
def handHeap : List (Translator Int) :=
  [ { messages := handMessages, locale := "en",
      rules := ⟨some fun n => if n = 1 then 0 else 1, "ltr"⟩, fallback := none },
    { messages := handMessages, locale := "en-US",
      rules := ⟨some fun _ => 0, "ltr"⟩, fallback := some 0 } ]

/-- The error list `GetTranslator(localeCode)` builds itself between the cache lookup
and the allocation of the Translator: the missing-root error, the errors of loading the
root rules, the missing-locale error, the errors of loading the rules of the locale. -/
def creationErrors {Q : Type} (load : Loader Q) (source : Source) (localeCode : String) :
    List translatorError :=
  let rules : TranslatorRules Q := ⟨none, ""⟩
  let (data, ok) := source.GetRules COMMON_DATA
  let errors : List translatorError :=
    if !ok then [⟨none, "could not find root (COMMON_DATA)"⟩] else []
  let (rules, errs) := load rules data false false
  let errors := errors ++ errs
  let (data, ok) := source.GetRules localeCode
  let errors :=
    if !ok then
      errors ++ [⟨none, "could not find rules and messages for locale " ++ localeCode⟩]
    else errors
  let (_, errs) := load rules data true true
  errors ++ errs

/-- A fresh factory without global fallback: no Translator allocated, empty cache. -/
def emptyStore {Q : Type} (source : Source) : Store Q :=
  { heap := [], f := { source := source, translators := fun _ => none, fallback := none } }

/-! ## The factory with a log of what a call does -/

/-- What a call of `GetTranslator` does, in the order in which it does it: a query
`f.source.GetRules(code)` (made directly, or through `LocaleExists`), the entry into
`GetTranslator(code)`, an error appended to the error list of the call that is running,
and the allocation `new(Translator)` for a code. -/
inductive Event where
  | rulesQuery (localeCode : String)
  | call (localeCode : String)
  | recorded (e : translatorError)
  | allocated (localeCode : String)
  deriving DecidableEq, Repr

/-- The loop of `getFallback` as in `getFallbackLoop`, with the log of the events. -/
def getFallbackLoopTrace {Q : Type}
    (GetTranslator : Store Q → String →
      Option ((Store Q × Nat × List translatorError) × List Event))
    (separator : String) (parts : List String) (s : Store Q) (fallback : Option Nat) :
    Nat → Option ((Store Q × Option Nat) × List Event)
  | 0 => some ((s, fallback), [])
  | n + 1 =>
    let fb := Join (parts.take (n + 1)) separator
    if LocaleExists s.f fb then
      match GetTranslator s fb with
      | some ((s', t, _), events) => some ((s', some t), Event.rulesQuery fb :: events)
      | none => none
    else
      match getFallbackLoopTrace GetTranslator separator parts s fallback n with
      | some (r, events) => some (r, Event.rulesQuery fb :: events)
      | none => none

/-- The method `TranslatorFactory.getFallback` as in `getFallback`, with the log of
the events. -/
def getFallbackTrace {Q : Type}
    (GetTranslator : Store Q → String →
      Option ((Store Q × Nat × List translatorError) × List Event))
    (s : Store Q) (localeCode : String) : Option ((Store Q × Option Nat) × List Event) :=
  let continue_ : Option ((Store Q × Option Nat) × List Event) :=
    let separator := "-"
    let fallback := s.f.fallback
    let parts := Split localeCode separator
    getFallbackLoopTrace GetTranslator separator parts s fallback (parts.length - 1)
  match s.f.fallback with
  | none => continue_
  | some g =>
    match s.heap[g]? with
    | none => none
    | some gt => if localeCode = gt.locale then some ((s, none), []) else continue_

/-- The method `TranslatorFactory.GetTranslator` as in `GetTranslatorFuel`, with the
log of the events of the call, those of the calls it makes included. -/
def GetTranslatorTraceFuel {Q : Type} (load : Loader Q) :
    Nat → Store Q → String → Option ((Store Q × Nat × List translatorError) × List Event)
  | 0, _, _ => none
  | fuel + 1, s, localeCode =>
    match getFallbackTrace (GetTranslatorTraceFuel load fuel) s localeCode with
    | none => none
    | some ((s, fallback), events) =>
      match s.f.translators localeCode with
      | some t => some ((s, t, []), Event.call localeCode :: events)
      | none =>
        let rules : TranslatorRules Q := ⟨none, ""⟩
        let (data, ok) := s.f.source.GetRules COMMON_DATA
        let events := events ++ [Event.rulesQuery COMMON_DATA]
        let errors : List translatorError :=
          if !ok then [⟨none, "could not find root (COMMON_DATA)"⟩] else []
        let events := events ++ errors.map Event.recorded
        let (rules, errs) := load rules data false false
        let errors := errors ++ errs
        let events := events ++ errs.map Event.recorded
        let (data, ok) := s.f.source.GetRules localeCode
        let events := events ++ [Event.rulesQuery localeCode]
        let missing : List translatorError :=
          if !ok then [⟨none, "could not find rules and messages for locale " ++ localeCode⟩]
          else []
        let errors :=
          if !ok then
            errors ++ [⟨none, "could not find rules and messages for locale " ++ localeCode⟩]
          else errors
        let events := events ++ missing.map Event.recorded
        let (rules, errs) := load rules data true true
        let errors := errors ++ errs
        let events := events ++ errs.map Event.recorded
        let t := s.heap.length
        let tr : Translator Q :=
          { messages := s.f.source.GetMessages, locale := localeCode, rules := rules,
            fallback := fallback }
        some (({ heap := s.heap ++ [tr],
                 f := { s.f with
                   translators := fun k =>
                     if k = localeCode then some t else s.f.translators k } },
               t, errors),
              Event.call localeCode :: (events ++ [Event.allocated localeCode]))

/-- The method `TranslatorFactory.GetTranslator` with the log of the events. -/
def GetTranslatorTrace {Q : Type} (load : Loader Q) (s : Store Q) (localeCode : String) :
    Option ((Store Q × Nat × List translatorError) × List Event) :=
  GetTranslatorTraceFuel load (localeCode.length + 1) s localeCode

/-- The errors recorded in a log, in order. -/
def recordedErrors (events : List Event) : List translatorError :=
  events.filterMap fun e =>
    match e with
    | Event.recorded err => some err
    | _ => none

/-- The codes for which a log allocates a Translator, in order. -/
def allocatedCodes (events : List Event) : List String :=
  events.filterMap fun e =>
    match e with
    | Event.allocated c => some c
    | _ => none

/-- Every cached code's first proper hyphen-prefix with rule data is cached too. -/
def Closed {Q : Type} (s : Store Q) : Prop :=
  ∀ k p, s.f.translators k ≠ none →
    (properPrefixes k).find? (LocaleExists s.f) = some p → s.f.translators p ≠ none

/-- A source without root rules, with rule data for `en` (one byte) and `en-US`
(empty), and no message. -/
def brokenSource : Source where
  GetRules := fun locale =>
    (if locale = "en" then [1] else [], decide (locale = "en" ∨ locale = "en-US"))
  GetMessages := fun _ _ => ("", false)

/-- A loader that reports an error for rule data that is not empty. -/
def strictLoad : Loader Int := fun rules data _ _ =>
  ({ rules with PluralRuleFunc := some fun n => if n = 1 then 0 else 1 },
   if data = [] then [] else [⟨none, "invalid rule data"⟩])

/-- A source with rule data for `root` and `en`; in `en` the message `ratio` repeats
the placeholder of `n` in each variant and the message `tail` ends in an empty
variant. -/
def pluralSource : Source where
  GetRules := fun locale => ([], decide (locale = "root" ∨ locale = "en"))
  GetMessages := fun key locale =>
    if key = "ratio" ∧ locale = "en" then
      ("\x7bn\x7d of \x7bn\x7d item|\x7bn\x7d of \x7bn\x7d items", true)
    else if key = "tail" ∧ locale = "en" then ("a|", true)
    else ("", false)

/-- The store of the factory over `pluralSource` with global fallback `en` whose plural
rule function is constantly `k`. -/
def pluralStore (k : Int) : Store Int :=
  (factoryAfter (constantLoad k) pluralSource "en" []).getD
    ⟨[], ⟨pluralSource, fun _ => none, none⟩⟩

/-! ## Lemmas on the string functions -/

theorem splitFrom_ne_nil (sep : List Char) (k : Nat) (s : List Char) :
    splitFrom sep k s ≠ [] := by
  induction s generalizing k with
  | nil => cases k <;> simp [splitFrom]
  | cons c cs ih =>
    cases k with
    | succ k => simpa [splitFrom] using ih k
    | zero =>
      simp only [splitFrom]
      split
      · simp
      · split <;> simp

theorem Join_cons_data (a : String) (l : List String) (sep : String) :
    (Join (a :: l) sep).data
      = a.data ++ (if l = [] then [] else sep.data ++ (Join l sep).data) := by
  cases l with
  | nil => simp [Join]
  | cons b rest => simp [Join, String.data_append]

theorem Join_splitFrom (c : Char) (s : List Char) :
    (Join ((splitFrom [c] 0 s).map fun p => (⟨p⟩ : String)) ⟨[c]⟩).data = s := by
  induction s with
  | nil => simp [splitFrom, Join]
  | cons d cs ih =>
    simp only [splitFrom]
    split
    · rename_i h
      have hd : c = d := by simpa [List.isPrefixOf] using h
      subst hd
      rw [List.map_cons, Join_cons_data]
      simp [splitFrom_ne_nil, ih]
    · split
      · rename_i p ps hp
        rw [hp, List.map_cons, Join_cons_data] at ih
        rw [List.map_cons, Join_cons_data]
        simp only [List.cons_append]
        exact congrArg (d :: ·) ih
      · rename_i hp
        exact absurd hp (splitFrom_ne_nil _ _ _)

/-- Joining the pieces of a split on `-` gives the string back. -/
theorem Join_Split_hyphen (s : String) : Join (Split s "-") "-" = s := by
  have h := Join_splitFrom '-' s.data
  have : (Split s "-") = (splitFrom ['-'] 0 s.data).map fun p => (⟨p⟩ : String) := by
    simp [Split]
  rw [this]
  exact String.ext h

theorem Join_take_length (sep : String) (ps : List String) (k : Nat) (hk0 : 0 < k)
    (hk : k < ps.length) :
    (Join (ps.take k) sep).data.length + sep.data.length ≤ (Join ps sep).data.length := by
  induction ps generalizing k with
  | nil => simp at hk
  | cons a l ih =>
    obtain ⟨k, rfl⟩ : ∃ j, k = j + 1 := ⟨k - 1, by omega⟩
    have hk' : k < l.length := by simpa using hk
    have hl : l ≠ [] := by intro h; simp [h] at hk'
    rw [List.take_succ_cons, Join_cons_data, Join_cons_data, if_neg hl]
    by_cases h0 : k = 0
    · subst h0
      simp only [List.take_zero, if_true, List.append_nil, List.length_append]
      omega
    · have := ih k (by omega) hk'
      have hne : List.take k l ≠ [] := by
        simp [List.take_eq_nil_iff, h0, hl]
      rw [if_neg hne]
      simp only [List.length_append]
      omega

/-- Every proper hyphen-prefix of a locale code is strictly shorter than the code. -/
theorem properPrefixes_length (localeCode fb : String) (h : fb ∈ properPrefixes localeCode) :
    fb.length < localeCode.length := by
  simp only [properPrefixes, List.mem_map, List.mem_reverse, List.mem_range] at h
  obtain ⟨n, hn, rfl⟩ := h
  have h1 := Join_take_length "-" (Split localeCode "-") (n + 1) (by omega) (by omega)
  rw [Join_Split_hyphen] at h1
  have h2 : ("-" : String).data.length = 1 := by decide
  simp only [String.length]
  omega

/-! ## The factory: one call -/

theorem getFallbackLoop_eq {Q : Type}
    (rec : Store Q → String → Option (Store Q × Nat × List translatorError))
    (sep : String) (parts : List String) (s : Store Q) (fallback : Option Nat) (n : Nat) :
    getFallbackLoop rec sep parts s fallback n =
      match ((List.range n).reverse.map fun i => Join (parts.take (i + 1)) sep).find?
          (LocaleExists s.f) with
      | none => some (s, fallback)
      | some fb =>
        match rec s fb with
        | some (s', t, _) => some (s', some t)
        | none => none := by
  induction n with
  | zero => simp [getFallbackLoop]
  | succ n ih =>
    rw [getFallbackLoop, List.range_succ, List.reverse_append, List.reverse_singleton,
      List.singleton_append, List.map_cons, List.find?_cons]
    by_cases h : LocaleExists s.f (Join (List.take (n + 1) parts) sep) = true
    · simp only [h, if_true]
    · simp only [h, if_false, Bool.false_eq_true]
      rw [ih]

theorem Step.refl {Q : Type} (s : Store Q) : Step s s where
  source := rfl
  fallback := rfl
  heap := ⟨[], by simp⟩
  mono := fun _ _ h => h
  fresh := fun _ _ h => Or.inl h
  newFallback := fun p tr hp h => by
    have := (List.getElem?_eq_some_iff.mp h).1
    omega
  newEntry := fun p tr hp h => by
    have := (List.getElem?_eq_some_iff.mp h).1
    omega

theorem Step.heap_get {Q : Type} {s s' : Store Q} (h : Step s s') (p : Nat) (tr : Translator Q)
    (hp : s.heap[p]? = some tr) : s'.heap[p]? = some tr := by
  obtain ⟨ext, he⟩ := h.heap
  rw [he, List.getElem?_append_left (List.getElem?_eq_some_iff.mp hp).1]
  exact hp

theorem Step.heap_length {Q : Type} {s s' : Store Q} (h : Step s s') :
    s.heap.length ≤ s'.heap.length := by
  obtain ⟨ext, he⟩ := h.heap
  simp [he]

theorem Step.heap_get_old {Q : Type} {s s' : Store Q} (h : Step s s') (p : Nat)
    (hp : p < s.heap.length) : s'.heap[p]? = s.heap[p]? := by
  obtain ⟨ext, he⟩ := h.heap
  rw [he, List.getElem?_append_left hp]

theorem Step.trans {Q : Type} {s s1 s2 : Store Q} (h1 : Step s s1) (h2 : Step s1 s2) :
    Step s s2 where
  source := h2.source.trans h1.source
  fallback := h2.fallback.trans h1.fallback
  heap := by
    obtain ⟨e1, he1⟩ := h1.heap
    obtain ⟨e2, he2⟩ := h2.heap
    exact ⟨e1 ++ e2, by rw [he2, he1, List.append_assoc]⟩
  mono := fun k p h => h2.mono k p (h1.mono k p h)
  fresh := fun k p h => by
    rcases h2.fresh k p h with h' | ⟨hp, tr, htr, hl⟩
    · rcases h1.fresh k p h' with h'' | ⟨hp, tr, htr, hl⟩
      · exact Or.inl h''
      · exact Or.inr ⟨hp, tr, h2.heap_get p tr htr, hl⟩
    · exact Or.inr ⟨le_trans h1.heap_length hp, tr, htr, hl⟩
  newFallback := fun p tr hp h => by
    by_cases hlt : p < s1.heap.length
    · rw [h2.heap_get_old p hlt] at h
      rcases h1.newFallback p tr hp h with h' | ⟨q, h3, h4, qt, h5, h6⟩
      · exact Or.inl h'
      · exact Or.inr ⟨q, h3, h4, qt, h2.heap_get q qt h5, h6⟩
    · have := h2.newFallback p tr (by omega) h
      rwa [h1.fallback] at this
  newEntry := fun p tr hp h => by
    by_cases hlt : p < s1.heap.length
    · rw [h2.heap_get_old p hlt] at h
      obtain ⟨h3, h4⟩ := h1.newEntry p tr hp h
      exact ⟨h3, h2.mono _ _ h4⟩
    · have := h2.newEntry p tr (by omega) h
      rwa [h1.source] at this

/-- Well-formedness is kept along `Step`. -/
theorem Inv.step {Q : Type} {s s' : Store Q} (hi : Inv s) (h : Step s s') : Inv s' where
  global := fun g hg => by
    rw [h.fallback] at hg
    obtain ⟨gt, h1, h2⟩ := hi.global g hg
    exact ⟨gt, h.heap_get g gt h1, h.mono _ _ h2⟩
  cache := fun k p hk => by
    rcases h.fresh k p hk with h' | ⟨_, tr, htr, hl⟩
    · obtain ⟨tr, h1, h2⟩ := hi.cache k p h'
      exact ⟨tr, h.heap_get p tr h1, h2⟩
    · exact ⟨tr, htr, hl⟩
  older := fun p tr q hp hq => by
    by_cases hlt : p < s.heap.length
    · rw [h.heap_get_old p hlt] at hp
      exact hi.older p tr q hp hq
    · rcases h.newFallback p tr (by omega) hp with h' | ⟨q', h1, h2, _⟩
      · rw [hq] at h'
        obtain ⟨gt, h1, _⟩ := hi.global q h'.symm
        have := (List.getElem?_eq_some_iff.mp h1).1
        omega
      · rw [hq] at h1
        cases h1
        exact h2
  entry := fun p tr hp => by
    by_cases hlt : p < s.heap.length
    · rw [h.heap_get_old p hlt] at hp
      obtain ⟨h1, h2⟩ := hi.entry p tr hp
      exact ⟨by rw [h.source]; exact h1, h.mono _ _ h2⟩
    · have := h.newEntry p tr (by omega) hp
      rwa [← h.source] at this

theorem getFallback_spec {Q : Type}
    (rec : Store Q → String → Option (Store Q × Nat × List translatorError))
    (s : Store Q) (localeCode : String) (hinv : Inv s)
    (hrec : ∀ fb : String, fb.length < localeCode.length →
      ∃ s1 t e, rec s fb = some (s1, t, e) ∧ GTSpec s fb s1 t e) :
    ∃ s1 fbp, getFallback rec s localeCode = some (s1, fbp) ∧ FBSpec s localeCode s1 fbp := by
  have hcont : notGlobal s localeCode →
      ∃ s1 fbp, getFallbackLoop rec "-" (Split localeCode "-") s s.f.fallback
          ((Split localeCode "-").length - 1) = some (s1, fbp) ∧
        FBSpec s localeCode s1 fbp := by
    intro hng
    rw [getFallbackLoop_eq]
    change ∃ s1 fbp, (match (properPrefixes localeCode).find? (LocaleExists s.f) with
      | none => some (s, s.f.fallback)
      | some fb =>
        match rec s fb with
        | some (s', t, _) => some (s', some t)
        | none => none) = some (s1, fbp) ∧ FBSpec s localeCode s1 fbp
    cases hf : (properPrefixes localeCode).find? (LocaleExists s.f) with
    | none => exact ⟨s, s.f.fallback, rfl, FBSpec.default hng hf rfl rfl⟩
    | some fb =>
      have hmem : fb ∈ properPrefixes localeCode := List.mem_of_find?_eq_some hf
      obtain ⟨s1, t, e, h1, h2⟩ := hrec fb (properPrefixes_length _ _ hmem)
      refine ⟨s1, some t, ?_, FBSpec.shorter fb t e hng hf h2 rfl⟩
      simp only [h1]
  unfold getFallback
  cases hg : s.f.fallback with
  | none =>
    simp only
    have := hcont (fun g gt h _ => by rw [hg] at h; cases h)
    rwa [hg] at this
  | some g =>
    obtain ⟨gt, h1, h2⟩ := hinv.global g hg
    simp only [h1]
    by_cases hl : localeCode = gt.locale
    · rw [if_pos hl]
      exact ⟨s, none, rfl, FBSpec.isGlobal g gt hg h1 hl rfl rfl⟩
    · rw [if_neg hl]
      have := hcont (fun g' gt' h h' => by
        rw [hg] at h; cases h; rw [h1] at h'; cases h'; exact hl)
      rwa [hg] at this

theorem create_step {Q : Type} (s1 : Store Q) (localeCode : String) (tr : Translator Q)
    (hL : s1.f.translators localeCode = none) (hloc : tr.locale = localeCode)
    (hmsg : tr.messages = s1.f.source.GetMessages)
    (hfb : tr.fallback = s1.f.fallback ∨ ∃ q, tr.fallback = some q ∧ q < s1.heap.length ∧
      ∃ qt : Translator Q, s1.heap[q]? = some qt ∧ qt.locale ∈ properPrefixes localeCode) :
    Step s1 { heap := s1.heap ++ [tr],
              f := { s1.f with translators := fun k =>
                if k = localeCode then some s1.heap.length else s1.f.translators k } } where
  source := rfl
  fallback := rfl
  heap := ⟨[tr], rfl⟩
  mono := fun k p h => by
    by_cases hk : k = localeCode
    · subst hk
      simp [hL] at h
    · simpa [hk] using h
  fresh := fun k p h => by
    by_cases hk : k = localeCode
    · simp only [hk, if_true, Option.some.injEq] at h
      subst h
      exact Or.inr ⟨le_refl _, tr, by simp, by rw [hloc, hk]⟩
    · simp only [hk, if_false] at h
      exact Or.inl h
  newFallback := fun p tr' hp h => by
    have hlt := (List.getElem?_eq_some_iff.mp h).1
    simp only [List.length_append, List.length_singleton] at hlt
    have hpe : p = s1.heap.length := by omega
    subst hpe
    simp only [List.getElem?_concat_length, Option.some.injEq] at h
    subst h
    rcases hfb with h | ⟨q, h1, h2, qt, h3, h4⟩
    · exact Or.inl h
    · refine Or.inr ⟨q, h1, h2, qt, ?_, by rw [hloc]; exact h4⟩
      rw [List.getElem?_append_left h2]
      exact h3
  newEntry := fun p tr' hp h => by
    have hlt := (List.getElem?_eq_some_iff.mp h).1
    simp only [List.length_append, List.length_singleton] at hlt
    have hpe : p = s1.heap.length := by omega
    subst hpe
    simp only [List.getElem?_concat_length, Option.some.injEq] at h
    subst h
    exact ⟨hmsg, by simp [hloc]⟩

theorem GetTranslatorFuel_hit {Q : Type} (load : Loader Q) (fuel : Nat) (s s1 : Store Q)
    (localeCode : String) (fbp : Option Nat) (t : Nat)
    (h1 : getFallback (GetTranslatorFuel load fuel) s localeCode = some (s1, fbp))
    (h2 : s1.f.translators localeCode = some t) :
    GetTranslatorFuel load (fuel + 1) s localeCode = some (s1, t, []) := by
  simp only [GetTranslatorFuel, h1, h2]

theorem GetTranslatorFuel_miss {Q : Type} (load : Loader Q) (fuel : Nat) (s s1 : Store Q)
    (localeCode : String) (fbp : Option Nat)
    (h1 : getFallback (GetTranslatorFuel load fuel) s localeCode = some (s1, fbp))
    (h2 : s1.f.translators localeCode = none) :
    ∃ rules e, GetTranslatorFuel load (fuel + 1) s localeCode =
      some ({ heap := s1.heap ++ [{ messages := s1.f.source.GetMessages, locale := localeCode,
                                    rules := rules, fallback := fbp }],
              f := { s1.f with translators := fun k =>
                if k = localeCode then some s1.heap.length else s1.f.translators k } },
            s1.heap.length, e) := by
  simp only [GetTranslatorFuel, h1, h2]
  exact ⟨_, _, rfl⟩

/-- One call of `GetTranslator` returns, and its effect is described by `GTSpec`. -/
theorem GetTranslatorFuel_spec {Q : Type} (load : Loader Q) (fuel : Nat) :
    ∀ (s : Store Q) (localeCode : String), localeCode.length < fuel → Inv s →
      ∃ s' t e, GetTranslatorFuel load fuel s localeCode = some (s', t, e) ∧
        GTSpec s localeCode s' t e := by
  induction fuel with
  | zero => intro s localeCode h; omega
  | succ fuel ih =>
    intro s localeCode hlen hinv
    obtain ⟨s1, fbp, hgf, hfb⟩ := getFallback_spec (GetTranslatorFuel load fuel) s localeCode
      hinv (fun fb hfb => ih s fb (by omega) hinv)
    -- facts about the store after `getFallback`
    have hstep1 : Step s s1 := by
      cases hfb with
      | isGlobal g gt h1 h2 h3 h4 h5 => rw [h4]; exact Step.refl s
      | default h1 h2 h4 h5 => rw [h4]; exact Step.refl s
      | shorter p t e h1 h2 h3 h5 => exact h3.step
    have hinv1 : Inv s1 := hinv.step hstep1
    have hbound1 : ∀ k, s.f.translators k = none → s1.f.translators k ≠ none →
        k.length < localeCode.length := by
      intro k hk hk1
      cases hfb with
      | isGlobal g gt h1 h2 h3 h4 h5 => rw [h4] at hk1; exact absurd hk hk1
      | default h1 h2 h4 h5 => rw [h4] at hk1; exact absurd hk hk1
      | shorter p t e h1 h2 h3 h5 =>
        have := h3.bound k hk hk1
        have := properPrefixes_length _ _ (List.mem_of_find?_eq_some h2)
        omega
    cases hc : s1.f.translators localeCode with
    | some t =>
      refine ⟨s1, t, [], GetTranslatorFuel_hit load fuel s s1 localeCode fbp t hgf hc, ?_⟩
      refine ⟨hstep1, hc, ?_, ?_, ?_, ?_⟩
      · intro k hk hk1
        exact le_of_lt (hbound1 k hk hk1)
      · intro t0 ht0
        have := hstep1.mono _ _ ht0
        rw [hc] at this
        exact ⟨Option.some.inj this, rfl⟩
      · intro hnone
        have := hbound1 localeCode hnone (by rw [hc]; simp)
        omega
      · intro hnone _
        have := hbound1 localeCode hnone (by rw [hc]; simp)
        omega
    | none =>
      obtain ⟨rules, e, hget⟩ := GetTranslatorFuel_miss load fuel s s1 localeCode fbp hgf hc
      have hsnone : s.f.translators localeCode = none := by
        cases h : s.f.translators localeCode with
        | none => rfl
        | some t0 => rw [hstep1.mono _ _ h] at hc; cases hc
      -- the pointer computed by `getFallback`
      have hfbp : fbp = s1.f.fallback ∨ ∃ q, fbp = some q ∧ q < s1.heap.length ∧
          ∃ qt : Translator Q, s1.heap[q]? = some qt ∧
            qt.locale ∈ properPrefixes localeCode := by
        cases hfb with
        | isGlobal g gt h1 h2 h3 h4 h5 =>
          obtain ⟨gt', h6, h7⟩ := hinv.global g h1
          rw [h2] at h6
          cases h6
          rw [← h3, hsnone] at h7
          cases h7
        | default h1 h2 h4 h5 => rw [h4]; exact Or.inl h5
        | shorter p t e h1 h2 h3 h5 =>
          obtain ⟨tr, h6, h7⟩ := hinv1.cache p t h3.cached
          exact Or.inr ⟨t, h5, (List.getElem?_eq_some_iff.mp h6).1, tr, h6,
            by rw [h7]; exact List.mem_of_find?_eq_some h2⟩
      have hstep2 := create_step s1 localeCode
        { messages := s1.f.source.GetMessages, locale := localeCode, rules := rules,
          fallback := fbp } hc rfl rfl hfbp
      refine ⟨_, _, e, hget, ?_⟩
      refine ⟨hstep1.trans hstep2, by simp, ?_, ?_, ?_, ?_⟩
      rotate_left 3
      · intro _ hfind
        cases hfb with
        | isGlobal g gt h1 h2 h3 h4 h5 =>
          obtain ⟨gt', h6, h7⟩ := hinv.global g h1
          rw [h2] at h6
          cases h6
          rw [← h3, hsnone] at h7
          cases h7
        | default h1 h2 h4 h5 => rw [h4]; simp
        | shorter p t e h1 h2 h3 h5 => rw [h2] at hfind; cases hfind
      · intro k hk hk1
        by_cases hkl : k = localeCode
        · rw [hkl]
        · simp only [hkl, if_false] at hk1
          exact le_of_lt (hbound1 k hk hk1)
      · intro t0 ht0
        rw [hsnone] at ht0
        cases ht0
      · intro _
        refine ⟨{ messages := s1.f.source.GetMessages, locale := localeCode, rules := rules,
                  fallback := fbp }, by simp, rfl, by simp only; rw [hstep1.source], ?_, ?_⟩
        · simp only [expectedFallback]
          cases hfb with
          | isGlobal g gt h1 h2 h3 h4 h5 =>
            obtain ⟨gt', h6, h7⟩ := hinv.global g h1
            rw [h2] at h6
            cases h6
            rw [← h3, hsnone] at h7
            cases h7
          | default h1 h2 h4 h5 => rw [h2]; exact h5
          | shorter p t e h1 h2 h3 h5 =>
            rw [h2]
            have hne : p ≠ localeCode := by
              intro h
              have := properPrefixes_length _ _ (List.mem_of_find?_eq_some h2)
              rw [h] at this
              omega
            simp only [hne, if_false]
            rw [h3.cached, h5]
        · intro p hp
          cases hfb with
          | isGlobal g gt h1 h2 h3 h4 h5 =>
            obtain ⟨gt', h6, h7⟩ := hinv.global g h1
            rw [h2] at h6
            cases h6
            rw [← h3, hsnone] at h7
            cases h7
          | default h1 h2 h4 h5 => rw [h2] at hp; cases hp
          | shorter p' t e h1 h2 h3 h5 =>
            rw [h2] at hp
            cases hp
            have hne : p ≠ localeCode := by
              intro h
              have := properPrefixes_length _ _ (List.mem_of_find?_eq_some h2)
              rw [h] at this
              omega
            exact ⟨t, by simp only [hne, if_false]; exact h3.cached⟩

/-! ## The factory: construction and sequences of calls -/

/-- `GetTranslator` returns on every well-formed store. -/
theorem GetTranslator_spec {Q : Type} (load : Loader Q) (s : Store Q) (localeCode : String)
    (hinv : Inv s) :
    ∃ s' t e, GetTranslator load s localeCode = some (s', t, e) ∧
      GTSpec s localeCode s' t e :=
  GetTranslatorFuel_spec load (localeCode.length + 1) s localeCode (Nat.lt_succ_self _) hinv

theorem Inv_empty {Q : Type} (source : Source) :
    Inv ({ heap := [], f := { source := source, translators := fun _ => none,
                              fallback := none } } : Store Q) where
  global := fun g h => by cases h
  cache := fun k p h => by cases h
  older := fun p tr q h => by simp at h
  entry := fun p tr h => by simp at h

/-- `NewTranslatorFactory` returns a well-formed store; with a fallback code the
global fallback is the Translator cached under that code. -/
theorem NewTranslatorFactory_spec {Q : Type} (load : Loader Q) (source : Source)
    (fallbackLocale : String) :
    ∃ s errs, NewTranslatorFactory load source fallbackLocale = some (s, errs) ∧ Inv s ∧
      s.f.source = source ∧
      (fallbackLocale = "" →
        s = { heap := [], f := { source := source, translators := fun _ => none,
                                 fallback := none } } ∧ errs = []) ∧
      (fallbackLocale ≠ "" →
        ∃ s0 g, GetTranslator load
            { heap := [], f := { source := source, translators := fun _ => none,
                                 fallback := none } } fallbackLocale = some (s0, g, errs) ∧
          GTSpec { heap := [], f := { source := source, translators := fun _ => none,
                                      fallback := none } } fallbackLocale s0 g errs ∧
          s = { s0 with f := { s0.f with fallback := some g } }) := by
  by_cases hG : fallbackLocale = ""
  · refine ⟨_, [], by simp [NewTranslatorFactory, hG], Inv_empty source, rfl, ?_, ?_⟩
    · intro _; exact ⟨rfl, rfl⟩
    · intro h; exact absurd hG h
  · obtain ⟨s0, g, e, h1, h2⟩ := GetTranslator_spec load
      ({ heap := [], f := { source := source, translators := fun _ => none,
                            fallback := none } } : Store Q) fallbackLocale (Inv_empty source)
    have hinv0 : Inv s0 := (Inv_empty source).step h2.step
    refine ⟨{ s0 with f := { s0.f with fallback := some g } }, e, ?_, ?_, ?_, ?_, ?_⟩
    · simp only [NewTranslatorFactory, hG, ne_eq, not_false_eq_true, if_true, h1]
    · refine ⟨?_, hinv0.cache, hinv0.older, hinv0.entry⟩
      intro g' hg'
      simp only [Option.some.injEq] at hg'
      subst hg'
      obtain ⟨tr, h3, h4⟩ := hinv0.cache _ _ h2.cached
      exact ⟨tr, h3, by rw [h4]; exact h2.cached⟩
    · exact h2.step.source
    · intro h; exact absurd h hG
    · intro _; exact ⟨s0, g, h1, h2, rfl⟩

/-- A sequence of `GetTranslator` calls returns, and the store evolves by `Step`. -/
theorem callAll_spec {Q : Type} (load : Loader Q) (calls : List String) :
    ∀ s : Store Q, Inv s → ∃ s', callAll load s calls = some s' ∧ Step s s' ∧ Inv s' := by
  induction calls with
  | nil => intro s hinv; exact ⟨s, rfl, Step.refl s, hinv⟩
  | cons c cs ih =>
    intro s hinv
    obtain ⟨s1, t, e, h1, h2⟩ := GetTranslator_spec load s c hinv
    obtain ⟨s2, h3, h4, h5⟩ := ih s1 (hinv.step h2.step)
    exact ⟨s2, by simp only [callAll, h1, h3], h2.step.trans h4, h5⟩

/-- Every store of a factory in use is well-formed. -/
theorem factoryAfter_spec {Q : Type} (load : Loader Q) (source : Source)
    (fallbackLocale : String) (calls : List String) :
    ∃ s0 errs s, NewTranslatorFactory load source fallbackLocale = some (s0, errs) ∧
      factoryAfter load source fallbackLocale calls = some s ∧ Step s0 s ∧ Inv s0 ∧ Inv s := by
  obtain ⟨s0, errs, h1, h2, _⟩ := NewTranslatorFactory_spec load source fallbackLocale
  obtain ⟨s, h3, h4, h5⟩ := callAll_spec load calls s0 h2
  exact ⟨s0, errs, s, h1, by simp only [factoryAfter, h1, h3], h4, h2, h5⟩

theorem factoryAfter_Inv {Q : Type} (load : Loader Q) (source : Source)
    (fallbackLocale : String) (calls : List String) (s : Store Q)
    (hs : factoryAfter load source fallbackLocale calls = some s) : Inv s := by
  obtain ⟨s0, errs, s', _, h2, _, _, h5⟩ := factoryAfter_spec load source fallbackLocale calls
  rw [h2] at hs
  cases hs
  exact h5

/-! ## Fallback chains -/

theorem nthFallback_succ {Q : Type} (heap : List (Translator Q)) (t n : Nat)
    (tr : Translator Q) (ht : heap[t]? = some tr) :
    nthFallback heap t (n + 1) = tr.fallback.bind fun fb => nthFallback heap fb n := by
  simp only [nthFallback, ht]
  cases tr.fallback <;> rfl

theorem nthFallback_succ_none {Q : Type} (heap : List (Translator Q)) (t n : Nat)
    (ht : heap[t]? = none) : nthFallback heap t (n + 1) = none := by
  simp only [nthFallback, ht]

theorem nthFallback_add {Q : Type} (heap : List (Translator Q)) (i k : Nat) :
    ∀ t, nthFallback heap t (i + k) =
      (nthFallback heap t i).bind fun v => nthFallback heap v k := by
  induction i with
  | zero => intro t; simp [nthFallback]
  | succ i ih =>
    intro t
    rw [Nat.succ_add]
    cases ht : heap[t]? with
    | none => rw [nthFallback_succ_none _ _ _ ht, nthFallback_succ_none _ _ _ ht]; rfl
    | some tr =>
      rw [nthFallback_succ _ _ _ tr ht, nthFallback_succ _ _ _ tr ht]
      cases tr.fallback with
      | none => rfl
      | some fb => exact ih fb

/-- Along a chain in a store whose fallback pointers are older than their owners,
the addresses strictly decrease. -/
theorem nthFallback_older {Q : Type} (heap : List (Translator Q))
    (hold : ∀ (p : Nat) (tr : Translator Q) (q : Nat), heap[p]? = some tr →
      tr.fallback = some q → q < p) (k : Nat) :
    ∀ t v, nthFallback heap t k = some v → v + k ≤ t := by
  induction k with
  | zero => intro t v h; simp only [nthFallback, Option.some.injEq] at h; omega
  | succ k ih =>
    intro t v h
    cases ht : heap[t]? with
    | none => rw [nthFallback_succ_none _ _ _ ht] at h; cases h
    | some tr =>
      rw [nthFallback_succ _ _ _ tr ht] at h
      cases hf : tr.fallback with
      | none => rw [hf] at h; cases h
      | some fb =>
        rw [hf] at h
        have := ih fb v h
        have := hold t tr fb ht hf
        omega

/-- In such a store every chain ends, at a Translator without fallback. -/
theorem chain_ends {Q : Type} (heap : List (Translator Q))
    (hold : ∀ (p : Nat) (tr : Translator Q) (q : Nat), heap[p]? = some tr →
      tr.fallback = some q → q < p) :
    ∀ t, t < heap.length →
      ∃ n last, ∃ lt : Translator Q, nthFallback heap t n = some last ∧
        heap[last]? = some lt ∧ lt.fallback = none := by
  intro t
  induction t using Nat.strong_induction_on with
  | _ t ih =>
    intro ht
    cases hf : (heap[t]).fallback with
    | none => exact ⟨0, t, heap[t], rfl, List.getElem?_eq_getElem ht, hf⟩
    | some fb =>
      have hlt := hold t _ fb (List.getElem?_eq_getElem ht) hf
      obtain ⟨n, last, lt, h1, h2, h3⟩ := ih fb hlt (by omega)
      refine ⟨n + 1, last, lt, ?_, h2, h3⟩
      rw [nthFallback_succ _ _ _ _ (List.getElem?_eq_getElem ht), hf]
      exact h1

theorem chain_distinct {Q : Type} (heap : List (Translator Q))
    (hold : ∀ (p : Nat) (tr : Translator Q) (q : Nat), heap[p]? = some tr →
      tr.fallback = some q → q < p) (t n last : Nat)
    (hn : nthFallback heap t n = some last) (i j : Nat) (hij : i < j) (hjn : j ≤ n) :
    nthFallback heap t i ≠ nthFallback heap t j := by
  have hj : nthFallback heap t (j + (n - j)) = some last := by
    rw [Nat.add_sub_cancel' hjn]; exact hn
  rw [nthFallback_add] at hj
  cases hwj : nthFallback heap t j with
  | none => rw [hwj] at hj; cases hj
  | some w =>
    have hi : nthFallback heap t (i + (j - i)) = some w := by
      rw [Nat.add_sub_cancel' (le_of_lt hij)]; exact hwj
    rw [nthFallback_add] at hi
    cases hvi : nthFallback heap t i with
    | none => rw [hvi] at hi; cases hi
    | some v =>
      rw [hvi] at hi
      have := nthFallback_older heap hold (j - i) v w hi
      intro h
      cases h
      omega

/-! ## Claims on the factory -/

/-- C1 (cache stability).  In every store of a factory built by
`NewTranslatorFactory` and used for any sequence of `GetTranslator` calls, a call
`GetTranslator(localeCode)` returns a Translator `t` which is then cached under the
code; after any further calls `between`, `GetTranslator(localeCode)` returns the same
pointer `t` with an empty error list, the Translator record behind it is unchanged,
and none of the calls replaces an entry the cache already had. -/
theorem cache_stability {Q : Type} (load : Loader Q) (source : Source)
    (fallbackLocale : String) (calls : List String) (localeCode : String)
    (between : List String) :
    ∃ s s1 t e s2 s3, ∃ tr : Translator Q,
      factoryAfter load source fallbackLocale calls = some s ∧
      GetTranslator load s localeCode = some (s1, t, e) ∧
      callAll load s1 between = some s2 ∧
      GetTranslator load s2 localeCode = some (s3, t, []) ∧
      s1.f.translators localeCode = some t ∧ s3.f.translators localeCode = some t ∧
      s1.heap[t]? = some tr ∧ tr.locale = localeCode ∧ s3.heap[t]? = some tr ∧
      (∀ k p, s.f.translators k = some p → s1.f.translators k = some p) ∧
      (∀ k p, s1.f.translators k = some p → s2.f.translators k = some p) ∧
      (∀ k p, s2.f.translators k = some p → s3.f.translators k = some p) := by
  obtain ⟨s0, errs, s, _, hs, _, _, hinv⟩ := factoryAfter_spec load source fallbackLocale calls
  obtain ⟨s1, t, e, h1, sp1⟩ := GetTranslator_spec load s localeCode hinv
  have hinv1 := hinv.step sp1.step
  obtain ⟨s2, h2, st2, hinv2⟩ := callAll_spec load between s1 hinv1
  obtain ⟨s3, t', e', h3, sp3⟩ := GetTranslator_spec load s2 localeCode hinv2
  have hc2 : s2.f.translators localeCode = some t := st2.mono _ _ sp1.cached
  obtain ⟨ht, he⟩ := sp3.hit t hc2
  subst ht he
  obtain ⟨tr, h4, h5⟩ := hinv1.cache _ _ sp1.cached
  exact ⟨s, s1, t', e, s2, s3, tr, hs, h1, h2, h3, sp1.cached, sp3.cached, h4, h5,
    sp3.step.heap_get _ _ (st2.heap_get _ _ h4), sp1.step.mono, st2.mono, sp3.step.mono⟩

/-- C3 (acyclic fallback chains).  In every store of a factory built by
`NewTranslatorFactory` and used for any sequence of `GetTranslator` calls, a cached
Translator is not its own fallback, and following `fallback` from it reaches, after
some number `n` of steps, a Translator without fallback, the `n + 1` Translators
visited on the way being pairwise different. -/
theorem fallback_chains_acyclic {Q : Type} (load : Loader Q) (source : Source)
    (fallbackLocale : String) (calls : List String) :
    ∃ s : Store Q, factoryAfter load source fallbackLocale calls = some s ∧
      ∀ k p, s.f.translators k = some p →
        ∃ tr : Translator Q, s.heap[p]? = some tr ∧ tr.fallback ≠ some p ∧
          ∃ n last, ∃ lt : Translator Q, nthFallback s.heap p n = some last ∧
            s.heap[last]? = some lt ∧ lt.fallback = none ∧
            ∀ i j, i < j → j ≤ n → nthFallback s.heap p i ≠ nthFallback s.heap p j := by
  obtain ⟨s0, errs, s, _, hs, _, _, hinv⟩ := factoryAfter_spec load source fallbackLocale calls
  refine ⟨s, hs, ?_⟩
  intro k p hk
  obtain ⟨tr, h1, _⟩ := hinv.cache k p hk
  refine ⟨tr, h1, ?_, ?_⟩
  · intro h
    have := hinv.older p tr p h1 h
    omega
  · obtain ⟨n, last, lt, h2, h3, h4⟩ :=
      chain_ends s.heap hinv.older p (List.getElem?_eq_some_iff.mp h1).1
    exact ⟨n, last, lt, h2, h3, h4, chain_distinct s.heap hinv.older p n last h2⟩

/-! ## Splitting a joined code -/

theorem isPrefixOf_singleton (c d : Char) (cs : List Char) :
    [c].isPrefixOf (d :: cs) = true ↔ c = d := by
  simp [List.isPrefixOf]

theorem splitFrom_no_sep (c : Char) (s : List Char) :
    ∀ p ∈ splitFrom [c] 0 s, c ∉ p := by
  induction s with
  | nil => intro p hp; simp [splitFrom] at hp; simp [hp]
  | cons d cs ih =>
    intro p hp
    simp only [splitFrom] at hp
    split at hp
    · simp only [List.length_singleton, Nat.sub_self, List.mem_cons] at hp
      rcases hp with hp | hp
      · simp [hp]
      · exact ih p hp
    · rename_i hne
      have hcd : c ≠ d := fun h => hne ((isPrefixOf_singleton c d cs).mpr h)
      split at hp
      · rename_i p0 ps h0
        simp only [List.mem_cons] at hp
        rcases hp with hp | hp
        · have := ih p0 (by rw [h0]; simp)
          rw [hp]
          simp [hcd, this]
        · exact ih p (by rw [h0]; simp [hp])
      · rename_i h0
        exact absurd h0 (splitFrom_ne_nil _ _ _)

theorem splitFrom_append (c : Char) (x rest p : List Char) (ps : List (List Char))
    (hx : c ∉ x) (h : splitFrom [c] 0 rest = p :: ps) :
    splitFrom [c] 0 (x ++ rest) = (x ++ p) :: ps := by
  induction x with
  | nil => simpa using h
  | cons d x ih =>
    have hcd : c ≠ d := by intro h'; simp [h'] at hx
    have hx' : c ∉ x := by intro h'; simp [h'] at hx
    have hne : ¬ [c].isPrefixOf (d :: (x ++ rest)) = true :=
      fun h' => hcd ((isPrefixOf_singleton c d _).mp h')
    rw [List.cons_append, splitFrom, if_neg hne, ih hx']
    rfl

theorem splitFrom_Join (c : Char) (ps : List String) (hne : ps ≠ [])
    (hps : ∀ p ∈ ps, c ∉ p.data) :
    splitFrom [c] 0 (Join ps ⟨[c]⟩).data = ps.map fun p => p.data := by
  induction ps with
  | nil => exact absurd rfl hne
  | cons a l ih =>
    rw [Join_cons_data]
    have ha : c ∉ a.data := hps a (by simp)
    by_cases hl : l = []
    · subst hl
      simp only [if_true, List.map_cons, List.map_nil]
      have := splitFrom_append c a.data [] [] [] ha (by simp [splitFrom])
      simpa using this
    · rw [if_neg hl]
      have hrest : splitFrom [c] 0 ([c] ++ (Join l ⟨[c]⟩).data)
          = [] :: l.map fun p => p.data := by
        have hp : [c].isPrefixOf (c :: (Join l ⟨[c]⟩).data) = true :=
          (isPrefixOf_singleton c c _).mpr rfl
        rw [List.singleton_append, splitFrom, if_pos hp]
        simp only [List.length_singleton, Nat.sub_self]
        rw [ih hl (fun p hp => hps p (by simp [hp]))]
      have := splitFrom_append c a.data _ _ _ ha hrest
      simpa using this

/-- Splitting a non-empty initial segment of the parts of a code, joined again, gives
that segment back. -/
theorem Split_Join_take (localeCode : String) (k : Nat) (hk : 0 < k) :
    Split (Join ((Split localeCode "-").take k) "-") "-" = (Split localeCode "-").take k := by
  have hsplit : ∀ s : String,
      Split s "-" = (splitFrom ['-'] 0 s.data).map fun p => (⟨p⟩ : String) := by
    intro s; simp [Split]
  have hnosep : ∀ p ∈ (Split localeCode "-").take k, '-' ∉ p.data := by
    intro p hp
    have hp' := List.mem_of_mem_take hp
    rw [hsplit] at hp'
    simp only [List.mem_map] at hp'
    obtain ⟨q, hq, rfl⟩ := hp'
    exact splitFrom_no_sep '-' _ q hq
  have hne : (Split localeCode "-").take k ≠ [] := by
    rw [Ne, List.take_eq_nil_iff]
    intro h
    rcases h with h | h
    · omega
    · rw [hsplit] at h
      simp only [List.map_eq_nil_iff] at h
      exact splitFrom_ne_nil _ _ _ h
  rw [hsplit (Join _ _)]
  have := splitFrom_Join '-' _ hne hnosep
  rw [show ("-" : String) = ⟨['-']⟩ from rfl, this, List.map_map]
  exact (List.map_congr_left (fun _ _ => rfl)).trans (List.map_id _)

/-- A proper hyphen-prefix of a proper hyphen-prefix of a code is one of the code. -/
theorem properPrefixes_trans (localeCode p q : String) (hp : p ∈ properPrefixes localeCode)
    (hq : q ∈ properPrefixes p) : q ∈ properPrefixes localeCode := by
  simp only [properPrefixes, List.mem_map, List.mem_reverse, List.mem_range] at hp
  obtain ⟨n, hn, rfl⟩ := hp
  simp only [properPrefixes, List.mem_map, List.mem_reverse, List.mem_range] at hq ⊢
  obtain ⟨m, hm, rfl⟩ := hq
  rw [Split_Join_take localeCode (n + 1) (by omega)] at hm ⊢
  rw [List.length_take] at hm
  refine ⟨m, by omega, ?_⟩
  rw [List.take_take]
  congr 2
  omega

/-! ## Facts on the stores of a factory -/

theorem factoryAfter_facts {Q : Type} (load : Loader Q) (source : Source)
    (fallbackLocale : String) (calls : List String) (s : Store Q)
    (hs : factoryAfter load source fallbackLocale calls = some s) :
    Inv s ∧ s.f.source = source ∧ (fallbackLocale = "" → s.f.fallback = none) ∧
      (fallbackLocale ≠ "" → ∃ g, ∃ gt : Translator Q, s.f.fallback = some g ∧
        s.f.translators fallbackLocale = some g ∧ s.heap[g]? = some gt ∧
        gt.locale = fallbackLocale) := by
  obtain ⟨s0, errs, h1, hinv0, hsrc, hE, hN⟩ :=
    NewTranslatorFactory_spec load source fallbackLocale
  obtain ⟨s', h3, hstep, hinv'⟩ := callAll_spec load calls s0 hinv0
  have hs' : factoryAfter load source fallbackLocale calls = some s' := by
    simp only [factoryAfter, h1, h3]
  rw [hs'] at hs
  cases hs
  refine ⟨hinv', hstep.source.trans hsrc, ?_, ?_⟩
  · intro hG
    rw [hstep.fallback, (hE hG).1]
  · intro hG
    obtain ⟨s00, g, _, sp, hs0⟩ := hN hG
    have hfb : s0.f.fallback = some g := by rw [hs0]
    have hc : s0.f.translators fallbackLocale = some g := by rw [hs0]; exact sp.cached
    obtain ⟨gt, h4, h5⟩ := hinv0.cache _ _ hc
    exact ⟨g, gt, by rw [hstep.fallback, hfb], hstep.mono _ _ hc, hstep.heap_get _ _ h4, h5⟩

theorem LocaleExists_eq {Q : Type} (s : Store Q) (source : Source)
    (h : s.f.source = source) : LocaleExists s.f = fun p => (source.GetRules p).2 := by
  funext p
  simp only [LocaleExists, h]

/-- On the code of the global fallback, `GetTranslator` returns the global fallback
and leaves the store as it is. -/
theorem GetTranslator_global {Q : Type} (load : Loader Q) (s : Store Q) (g : Nat)
    (gt : Translator Q) (h1 : s.f.fallback = some g) (h2 : s.heap[g]? = some gt)
    (h3 : s.f.translators gt.locale = some g) :
    GetTranslator load s gt.locale = some (s, g, []) := by
  have hgf : getFallback (GetTranslatorFuel load gt.locale.length) s gt.locale
      = some (s, none) := by
    simp only [getFallback, h1, h2, if_true]
  exact GetTranslatorFuel_hit load _ s s gt.locale none g hgf h3

theorem LocalG_step {Q : Type} {s s' : Store Q} (g : Nat) (G : String) (hstep : Step s s')
    (h1 : s.f.fallback = some g) (h2 : s.f.translators G = some g)
    (h3 : g < s.heap.length) (h : LocalG s g G) : LocalG s' g G := by
  intro p tr hp
  by_cases hlt : p < s.heap.length
  · rw [hstep.heap_get_old p hlt] at hp
    rcases h p tr hp with h' | ⟨h4, h5⟩
    · exact Or.inl h'
    · refine Or.inr ⟨h4, ?_⟩
      rcases h5 with h5 | ⟨q, qt, h5, h6, h7, h8⟩
      · exact Or.inl h5
      · exact Or.inr ⟨q, qt, h5, h6, hstep.heap_get _ _ h7, h8⟩
  · refine Or.inr ⟨?_, ?_⟩
    · intro hl
      have := (hstep.newEntry p tr (by omega) hp).2
      rw [hl, hstep.mono _ _ h2] at this
      cases this
      omega
    · rcases hstep.newFallback p tr (by omega) hp with h4 | ⟨q, h4, h5, qt, h6, h7⟩
      · exact Or.inl (by rw [h4, h1])
      · exact Or.inr ⟨q, qt, h4, h5, h6, h7⟩

/-- Under `LocalG` every Translator reaches the global fallback, through Translators
of other locales whose codes are its own code or proper hyphen-prefixes of it. -/
theorem chain_of_LocalG {Q : Type} (s : Store Q) (g : Nat) (G : String) (h : LocalG s g G) :
    ∀ (p : Nat) (tr : Translator Q), s.heap[p]? = some tr →
      ∃ n, nthFallback s.heap p n = some g ∧
        ∀ i, i < n → ∀ (u : Nat) (ut : Translator Q), nthFallback s.heap p i = some u →
          s.heap[u]? = some ut →
          ut.locale ≠ G ∧ (ut.locale = tr.locale ∨ ut.locale ∈ properPrefixes tr.locale) := by
  intro p
  induction p using Nat.strong_induction_on with
  | _ p ih =>
    intro tr hp
    rcases h p tr hp with h' | ⟨h4, h5⟩
    · exact ⟨0, by rw [h']; rfl, fun i hi => by omega⟩
    · have hzero : ∀ (u : Nat) (ut : Translator Q), nthFallback s.heap p 0 = some u →
          s.heap[u]? = some ut → ut.locale ≠ G ∧
            (ut.locale = tr.locale ∨ ut.locale ∈ properPrefixes tr.locale) := by
        intro u ut hu hut
        simp only [nthFallback, Option.some.injEq] at hu
        subst hu
        rw [hp] at hut
        cases hut
        exact ⟨h4, Or.inl rfl⟩
      rcases h5 with h5 | ⟨q, qt, h5, h6, h7, h8⟩
      · refine ⟨1, by rw [nthFallback_succ _ _ _ tr hp, h5]; rfl, ?_⟩
        intro i hi u ut hu hut
        have hi0 : i = 0 := by omega
        subst hi0
        exact hzero u ut hu hut
      · obtain ⟨n, hn, hbefore⟩ := ih q h6 qt h7
        refine ⟨n + 1, by rw [nthFallback_succ _ _ _ tr hp, h5]; exact hn, ?_⟩
        intro i hi u ut hu hut
        cases i with
        | zero => exact hzero u ut hu hut
        | succ j =>
          rw [nthFallback_succ _ _ _ tr hp, h5] at hu
          obtain ⟨h9, h10⟩ := hbefore j (by omega) u ut hu hut
          refine ⟨h9, Or.inr ?_⟩
          rcases h10 with h10 | h10
          · rw [h10]; exact h8
          · exact properPrefixes_trans _ _ _ h8 h10

/-! ## Translate along a chain -/

theorem Translate_hit {Q : Type} (heap : List (Translator Q)) (fuel t : Nat) (key : String)
    (subs : List (String × String)) (tr : Translator Q) (m : String)
    (ht : heap[t]? = some tr) (hm : tr.messages key tr.locale = (m, true)) :
    Translate heap (fuel + 1) t key subs = some (substitute t m subs) := by
  simp only [Translate, ht, hm, if_true]

theorem Translate_miss {Q : Type} (heap : List (Translator Q)) (fuel t : Nat) (key : String)
    (subs : List (String × String)) (tr : Translator Q) (fb : Nat)
    (ht : heap[t]? = some tr) (hm : (tr.messages key tr.locale).2 = false)
    (hf : tr.fallback = some fb) (hne : fb ≠ t) :
    Translate heap (fuel + 1) t key subs = Translate heap fuel fb key subs := by
  cases hmsg : tr.messages key tr.locale with
  | mk m b =>
    rw [hmsg] at hm
    simp only at hm
    subst hm
    simp only [Translate, ht, hmsg, hf, ne_eq, hne, not_false_eq_true, if_true,
      Bool.false_eq_true, if_false]

theorem Translate_end {Q : Type} (heap : List (Translator Q)) (fuel t : Nat) (key : String)
    (subs : List (String × String)) (tr : Translator Q)
    (ht : heap[t]? = some tr) (hm : (tr.messages key tr.locale).2 = false)
    (hf : tr.fallback = none ∨ tr.fallback = some t) :
    Translate heap (fuel + 1) t key subs
      = some ("", [⟨some t, "key not found: " ++ key⟩]) := by
  cases hmsg : tr.messages key tr.locale with
  | mk m b =>
    rw [hmsg] at hm
    simp only at hm
    subst hm
    rcases hf with hf | hf
    · simp only [Translate, ht, hmsg, hf, Bool.false_eq_true, if_false]
    · simp only [Translate, ht, hmsg, hf, ne_eq, not_true_eq_false, if_false,
        Bool.false_eq_true]

theorem nthFallback_self {Q : Type} (heap : List (Translator Q)) (t : Nat)
    (tr : Translator Q) (ht : heap[t]? = some tr) (hf : tr.fallback = some t) (n : Nat) :
    nthFallback heap t n = some t := by
  induction n with
  | zero => rfl
  | succ n ih => rw [nthFallback_succ _ _ _ tr ht, hf]; exact ih

/-- `Translate` returns the substituted message of the first Translator of the chain
that has the key. -/
theorem Translate_found {Q : Type} (heap : List (Translator Q)) (key : String)
    (subs : List (String × String)) (m : String) (u : Nat) (ut : Translator Q)
    (hut : heap[u]? = some ut) (hm : ut.messages key ut.locale = (m, true)) (n : Nat) :
    ∀ t, nthFallback heap t n = some u →
      (∀ i, i < n → ∀ (v : Nat) (vt : Translator Q), nthFallback heap t i = some v →
        heap[v]? = some vt → (vt.messages key vt.locale).2 = false) →
      ∀ fuel, n < fuel → Translate heap fuel t key subs = some (substitute u m subs) := by
  induction n with
  | zero =>
    intro t ht _ fuel hfuel
    simp only [nthFallback, Option.some.injEq] at ht
    subst ht
    obtain ⟨f, rfl⟩ : ∃ f, fuel = f + 1 := ⟨fuel - 1, by omega⟩
    exact Translate_hit heap f t key subs ut m hut hm
  | succ n ih =>
    intro t ht hbefore fuel hfuel
    obtain ⟨f, rfl⟩ : ∃ f, fuel = f + 1 := ⟨fuel - 1, by omega⟩
    cases htr : heap[t]? with
    | none => rw [nthFallback_succ_none _ _ _ htr] at ht; cases ht
    | some tr =>
      have hmiss : (tr.messages key tr.locale).2 = false := hbefore 0 (by omega) t tr rfl htr
      rw [nthFallback_succ _ _ _ tr htr] at ht
      cases hf : tr.fallback with
      | none => rw [hf] at ht; cases ht
      | some fb =>
        rw [hf] at ht
        by_cases hne : fb = t
        · subst hne
          have hself := nthFallback_self heap fb tr htr hf n
          have hu : fb = u := by
            have : some fb = some u := hself.symm.trans ht
            exact Option.some.inj this
          subst hu
          rw [htr] at hut
          cases hut
          rw [hm] at hmiss
          cases hmiss
        · rw [Translate_miss heap f t key subs tr fb htr hmiss hf hne]
          refine ih fb ht ?_ f (by omega)
          intro i hi v vt hv hvt
          refine hbefore (i + 1) (by omega) v vt ?_ hvt
          rw [nthFallback_succ _ _ _ tr htr, hf]
          exact hv

/-- C2 (immediate fallback selection).  In a store `s` of a factory built by
`NewTranslatorFactory` (and used for any sequence of calls), let `localeCode` be a
code that is not cached; this excludes the code of the global fallback, which is
cached from the construction on.  Then `GetTranslator(localeCode)` creates a Translator
`tr` for the code whose fallback is the Translator cached under the longest proper
hyphen-prefix for which `GetRules` reports found (the first hit of `properPrefixes`,
which lists them longest first); if no proper prefix has rule data, its fallback is the
global fallback of the factory, which is `nil` for the fallback code `""` and the
Translator cached under the fallback code otherwise. -/
theorem immediate_fallback_selection {Q : Type} (load : Loader Q) (source : Source)
    (fallbackLocale : String) (calls : List String) (localeCode : String) (s : Store Q)
    (hs : factoryAfter load source fallbackLocale calls = some s)
    (hL : s.f.translators localeCode = none) :
    ∃ s' t e, ∃ tr : Translator Q,
      GetTranslator load s localeCode = some (s', t, e) ∧
      s'.heap[t]? = some tr ∧ tr.locale = localeCode ∧
      (∀ p, (properPrefixes localeCode).find? (fun p => (source.GetRules p).2) = some p →
        ∃ q, ∃ qt : Translator Q, tr.fallback = some q ∧ s'.f.translators p = some q ∧
          s'.heap[q]? = some qt ∧ qt.locale = p) ∧
      ((properPrefixes localeCode).find? (fun p => (source.GetRules p).2) = none →
        tr.fallback = s.f.fallback ∧ (fallbackLocale = "" → tr.fallback = none) ∧
        (fallbackLocale ≠ "" →
          ∃ g, tr.fallback = some g ∧ s'.f.translators fallbackLocale = some g)) := by
  obtain ⟨hinv, hsrc, hE, hN⟩ := factoryAfter_facts load source fallbackLocale calls s hs
  obtain ⟨s', t, e, hget, sp⟩ := GetTranslator_spec load s localeCode hinv
  obtain ⟨tr, h1, h2, _, h4, h5⟩ := sp.created hL
  have hinv' := hinv.step sp.step
  rw [expectedFallback, LocaleExists_eq s source hsrc] at h4
  rw [LocaleExists_eq s source hsrc] at h5
  refine ⟨s', t, e, tr, hget, h1, h2, ?_, ?_⟩
  · intro p hp
    rw [hp] at h4
    obtain ⟨q, hq⟩ := h5 p hp
    obtain ⟨qt, h6, h7⟩ := hinv'.cache p q hq
    exact ⟨q, qt, h4.trans hq, hq, h6, h7⟩
  · intro hnone
    rw [hnone] at h4
    have h4 : tr.fallback = s.f.fallback := h4
    refine ⟨h4, ?_, ?_⟩
    · intro hG; rw [h4]; exact hE hG
    · intro hG
      obtain ⟨g, gt, h6, h7, _, _⟩ := hN hG
      exact ⟨g, by rw [h4]; exact h6, sp.step.mono _ _ h7⟩

/-- Witness of C2: global fallback `en`, rule data for `en` and `en-US`; the Translator
created for `en-US-x1` falls back to the Translator cached under `en-US`. -/
theorem immediate_fallback_selection_witness :
    ∃ s' t e, ∃ tr : Translator Int,
      GetTranslator exampleLoad (exampleStore "en" []) "en-US-x1" = some (s', t, e) ∧
      s'.heap[t]? = some tr ∧ tr.locale = "en-US-x1" ∧
      ∃ q, ∃ qt : Translator Int, tr.fallback = some q ∧
        s'.f.translators "en-US" = some q ∧ s'.heap[q]? = some qt ∧ qt.locale = "en-US" := by
  obtain ⟨s', t, e, tr, h1, h2, h3, h4, _⟩ :=
    immediate_fallback_selection exampleLoad exampleSource "en" [] "en-US-x1"
      (exampleStore "en" []) rfl rfl
  exact ⟨s', t, e, tr, h1, h2, h3, h4 "en-US" (by decide)⟩

/-- When no proper hyphen-prefix of the fallback code has rule data, construction
allocates the global fallback alone. -/
theorem construction_alone {Q : Type} (load : Loader Q) (source : Source)
    (fallbackLocale : String) (hG : fallbackLocale ≠ "")
    (hpre : ∀ p ∈ properPrefixes fallbackLocale, (source.GetRules p).2 = false) :
    ∃ s0 errs, ∃ gt : Translator Q,
      NewTranslatorFactory load source fallbackLocale = some (s0, errs) ∧ Inv s0 ∧
      s0.f.source = source ∧ s0.f.fallback = some 0 ∧
      s0.f.translators fallbackLocale = some 0 ∧ s0.heap = [gt] ∧
      gt.locale = fallbackLocale ∧ gt.fallback = none := by
  obtain ⟨s0, errs, h1, hinv0, hsrc, _, hN⟩ :=
    NewTranslatorFactory_spec load source fallbackLocale
  obtain ⟨s00, g, _, sp, hs0⟩ := hN hG
  have hfind : (properPrefixes fallbackLocale).find?
      (LocaleExists ({ heap := [], f := { source := source, translators := fun _ => none,
                                          fallback := none } } : Store Q).f) = none := by
    rw [List.find?_eq_none]
    intro p hp
    simp only [LocaleExists, hpre p hp, Bool.false_eq_true, not_false_eq_true]
  obtain ⟨hlen, hg0⟩ := sp.alone rfl hfind
  obtain ⟨tr, h2, h3, _, h4, _⟩ := sp.created rfl
  simp only [expectedFallback, hfind] at h4
  subst hg0
  have hheap : s00.heap = [tr] := by
    simp only [List.length_nil, Nat.zero_add] at hlen
    match hh : s00.heap, hlen, h2 with
    | [a], _, h2' =>
      rw [hh] at h2
      simp only [List.length_nil, List.getElem?_cons_zero, Option.some.injEq] at h2
      rw [h2]
  refine ⟨s0, errs, tr, h1, hinv0, hsrc, by rw [hs0]; rfl, ?_, by rw [hs0]; exact hheap,
    h3, h4⟩
  rw [hs0]
  exact sp.cached

/-- Where the global fallback is terminal.  Let the non-empty fallback code
`fallbackLocale` have no proper hyphen-prefix with rule data (as every code without
hyphen).  In every store of the factory and for every code `localeCode` other than the
fallback code, the chain of the Translator `t` returned by `GetTranslator(localeCode)`
reaches the global fallback `g` after `n + 1` steps; the Translators before it have
locale codes that are `localeCode` or proper hyphen-prefixes of it, never the fallback
code; and `Translate` on `t` finds a key that only the fallback locale has. -/
theorem global_fallback_terminal {Q : Type} (load : Loader Q) (source : Source)
    (fallbackLocale : String) (calls : List String) (localeCode : String) (s : Store Q)
    (hG : fallbackLocale ≠ "")
    (hpre : ∀ p ∈ properPrefixes fallbackLocale, (source.GetRules p).2 = false)
    (hs : factoryAfter load source fallbackLocale calls = some s)
    (hL : localeCode ≠ fallbackLocale) :
    ∃ s' t e g n,
      GetTranslator load s localeCode = some (s', t, e) ∧
      s'.f.fallback = some g ∧ s'.f.translators fallbackLocale = some g ∧
      nthFallback s'.heap t (n + 1) = some g ∧
      (∀ i, i ≤ n → ∀ (u : Nat) (ut : Translator Q), nthFallback s'.heap t i = some u →
        s'.heap[u]? = some ut →
        ut.locale ≠ fallbackLocale ∧
          (ut.locale = localeCode ∨ ut.locale ∈ properPrefixes localeCode)) ∧
      (∀ (key m : String) (subs : List (String × String)),
        source.GetMessages key fallbackLocale = (m, true) →
        (∀ loc, loc ≠ fallbackLocale → (source.GetMessages key loc).2 = false) →
        ∀ fuel, n + 1 < fuel →
          Translate s'.heap fuel t key subs = some (substitute g m subs)) := by
  obtain ⟨s0, errs, gt, h1, hinv0, hsrc0, hfb0, hc0, hheap0, hgl, hgf⟩ :=
    construction_alone load source fallbackLocale hG hpre
  obtain ⟨s1, h3, hstep, hinv⟩ := callAll_spec load calls s0 hinv0
  have hs' : factoryAfter load source fallbackLocale calls = some s1 := by
    simp only [factoryAfter, h1, h3]
  rw [hs'] at hs
  cases hs
  have hlocal0 : LocalG s0 0 fallbackLocale := by
    intro p tr hp
    have := (List.getElem?_eq_some_iff.mp hp).1
    rw [hheap0] at this
    simp only [List.length_singleton] at this
    exact Or.inl (by omega)
  have hlocal : LocalG s 0 fallbackLocale :=
    LocalG_step 0 fallbackLocale hstep hfb0 hc0 (by rw [hheap0]; simp) hlocal0
  have hfb : s.f.fallback = some 0 := by rw [hstep.fallback]; exact hfb0
  have hc : s.f.translators fallbackLocale = some 0 := hstep.mono _ _ hc0
  obtain ⟨s', t, e, hget, sp⟩ := GetTranslator_spec load s localeCode hinv
  have hinv' := hinv.step sp.step
  have hlocal' : LocalG s' 0 fallbackLocale :=
    LocalG_step 0 fallbackLocale sp.step hfb hc
      (lt_of_lt_of_le (by rw [hheap0]; simp) hstep.heap_length) hlocal
  have hfb' : s'.f.fallback = some 0 := by rw [sp.step.fallback]; exact hfb
  have hc' : s'.f.translators fallbackLocale = some 0 := sp.step.mono _ _ hc
  have hsrc' : s'.f.source = source := by rw [sp.step.source, hstep.source]; exact hsrc0
  obtain ⟨tr, htr, hloc⟩ := hinv'.cache _ _ sp.cached
  obtain ⟨gt', hgt', hgl'⟩ := hinv'.cache _ _ hc'
  obtain ⟨n0, hn0, hbefore⟩ := chain_of_LocalG s' 0 fallbackLocale hlocal' t tr htr
  have hn0pos : n0 ≠ 0 := by
    intro h0
    rw [h0] at hn0
    simp only [nthFallback, Option.some.injEq] at hn0
    rw [hn0, hgt'] at htr
    cases htr
    exact hL (hloc.symm.trans hgl')
  obtain ⟨n, rfl⟩ : ∃ n, n0 = n + 1 := ⟨n0 - 1, by omega⟩
  refine ⟨s', t, e, 0, n, hget, hfb', hc', hn0, ?_, ?_⟩
  · intro i hi u ut hu hut
    have := hbefore i (by omega) u ut hu hut
    rwa [hloc] at this
  · intro key m subs hm honly fuel hfuel
    refine Translate_found s'.heap key subs m 0 gt' hgt' ?_ (n + 1) t hn0 ?_ fuel hfuel
    · rw [(hinv'.entry 0 gt' hgt').1, hsrc', hgl']
      exact hm
    · intro i hi v vt hv hvt
      rw [(hinv'.entry v vt hvt).1, hsrc']
      exact honly _ (hbefore i hi v vt hv hvt).1

/-- An instance of `global_fallback_terminal`: global fallback `en` (no hyphen); the
chain of the Translator for `en-US-x1` reaches the global fallback, and `greeting`,
which only `en` has, is translated. -/
theorem global_fallback_terminal_witness :
    ∃ s' t e g n,
      GetTranslator exampleLoad (exampleStore "en" []) "en-US-x1" = some (s', t, e) ∧
      s'.f.fallback = some g ∧ nthFallback s'.heap t (n + 1) = some g ∧
      Translate s'.heap (n + 2) t "greeting" [] = some ("Hello \x7bname\x7d", []) := by
  obtain ⟨s', t, e, g, n, h1, h2, _, h4, _, h6⟩ :=
    global_fallback_terminal exampleLoad exampleSource "en" [] "en-US-x1"
      (exampleStore "en" []) (by decide) (by decide) rfl (by decide)
  refine ⟨s', t, e, g, n, h1, h2, h4, ?_⟩
  have := h6 "greeting" "Hello \x7bname\x7d" [] rfl
    (by intro loc hloc; simp [exampleSource, hloc]) (n + 2) (by omega)
  rw [this]
  rfl

/-- C4 (terminal global fallback) fails on the code.  `NewTranslatorFactory` calls
`GetTranslator` for the fallback code while `f.fallback` is still nil: with rule data
for `en` and `en-US` and the global fallback `en-US`, construction creates the
Translator for `en` (address 0) before the global fallback (address 1) exists, and
without fallback.  `GetTranslator("en")` returns it; its chain never reaches the global
fallback, and `colour`, which only the global-fallback locale `en-US` has, is not found
by `Translate` on `en`. -/
theorem global_fallback_terminal_counterexample :
    ∃ (s s' : Store Int) (errs e : List translatorError),
      NewTranslatorFactory exampleLoad exampleSource "en-US" = some (s, errs) ∧
      GetTranslator exampleLoad s "en" = some (s', 0, e) ∧
      s'.f.fallback = some 1 ∧ s'.f.translators "en-US" = some 1 ∧
      (∀ n, nthFallback s'.heap 0 n ≠ some 1) ∧
      exampleSource.GetMessages "colour" "en-US" = ("color", true) ∧
      (∀ loc, loc ≠ "en-US" → (exampleSource.GetMessages "colour" loc).2 = false) ∧
      (∀ fuel, Translate s'.heap (fuel + 1) 0 "colour" []
        = some ("", [⟨some 0, "key not found: colour"⟩])) := by
  refine ⟨_, _, _, _, rfl, rfl, rfl, rfl, ?_, rfl, ?_, ?_⟩
  · intro n
    cases n with
    | zero => decide
    | succ n => intro h; cases h
  · intro loc hloc
    simp [exampleSource, hloc]
  · intro fuel
    rfl

/-- The fallback of the global fallback.  For a non-empty code
`fallbackLocale`, `NewTranslatorFactory` installs as global fallback a Translator `gt`
of that locale, which `GetTranslator(fallbackLocale)` returns afterwards without
changing the store.  It has no fallback when no proper hyphen-prefix of the code has
rule data (in particular when the code has no hyphen); otherwise its fallback is the
Translator cached under the longest proper hyphen-prefix with rule data. -/
theorem global_fallback_has_no_fallback {Q : Type} (load : Loader Q) (source : Source)
    (fallbackLocale : String) (hG : fallbackLocale ≠ "") :
    ∃ s errs g, ∃ gt : Translator Q,
      NewTranslatorFactory load source fallbackLocale = some (s, errs) ∧
      s.f.fallback = some g ∧ GetTranslator load s fallbackLocale = some (s, g, []) ∧
      s.heap[g]? = some gt ∧ gt.locale = fallbackLocale ∧
      ((∀ p ∈ properPrefixes fallbackLocale, (source.GetRules p).2 = false) →
        gt.fallback = none) ∧
      (∀ p, (properPrefixes fallbackLocale).find? (fun p => (source.GetRules p).2) = some p →
        ∃ q, ∃ qt : Translator Q, gt.fallback = some q ∧ s.f.translators p = some q ∧
          s.heap[q]? = some qt ∧ qt.locale = p) := by
  obtain ⟨s0, errs, h1, hinv0, hsrc, _, hN⟩ :=
    NewTranslatorFactory_spec load source fallbackLocale
  obtain ⟨s00, g, _, sp, hs0⟩ := hN hG
  have hfb : s0.f.fallback = some g := by rw [hs0]
  have hc : s0.f.translators fallbackLocale = some g := by rw [hs0]; exact sp.cached
  have hheap : s0.heap = s00.heap := by rw [hs0]
  have htrs : s0.f.translators = s00.f.translators := by rw [hs0]
  obtain ⟨gt, h2, h3⟩ := hinv0.cache _ _ hc
  obtain ⟨tr, h4, _, _, h6, h7⟩ := sp.created rfl
  rw [← hheap, h2] at h4
  cases h4
  have hex := LocaleExists_eq
    ({ heap := [], f := { source := source, translators := fun _ => none,
                          fallback := none } } : Store Q) source rfl
  rw [expectedFallback, hex] at h6
  rw [hex] at h7
  have hglobal := GetTranslator_global load s0 g gt hfb h2 (by rw [h3]; exact hc)
  rw [h3] at hglobal
  refine ⟨s0, errs, g, gt, h1, hfb, hglobal, h2, h3, ?_, ?_⟩
  · intro hpre
    have hfind : (properPrefixes fallbackLocale).find? (fun p => (source.GetRules p).2)
        = none := by
      rw [List.find?_eq_none]
      intro p hp
      simp only [hpre p hp, Bool.false_eq_true, not_false_eq_true]
    rw [hfind] at h6
    exact h6
  · intro p hp
    rw [hp] at h6
    obtain ⟨q, hq⟩ := h7 p hp
    rw [← htrs] at hq
    obtain ⟨qt, h8, h9⟩ := hinv0.cache _ _ hq
    exact ⟨q, qt, h6.trans (by rw [← htrs]; exact hq), hq, h8, h9⟩

/-- An instance of `global_fallback_has_no_fallback`, the example of the
specification: rule data for `en` and `en-US`, global fallback `en`.  The global fallback has no fallback, and after
`GetTranslator("en-US-x1")` the heap holds `en` (no fallback), `en-US` (fallback `en`)
and `en-US-x1` (fallback `en-US`), the last being the Translator cached for
`en-US-x1`. -/
theorem global_fallback_has_no_fallback_witness :
    (∃ s errs g, ∃ gt : Translator Int,
      NewTranslatorFactory exampleLoad exampleSource "en" = some (s, errs) ∧
      s.f.fallback = some g ∧ s.heap[g]? = some gt ∧ gt.locale = "en" ∧
      gt.fallback = none) ∧
    (exampleStore "en" ["en-US-x1"]).heap.map (fun t => (t.locale, t.fallback))
      = [("en", none), ("en-US", some 0), ("en-US-x1", some 1)] ∧
    (exampleStore "en" ["en-US-x1"]).f.translators "en-US-x1" = some 2 ∧
    (exampleStore "en" ["en-US-x1"]).f.fallback = some 0 := by
  refine ⟨?_, by decide, by decide, by decide⟩
  obtain ⟨s, errs, g, gt, h1, h2, _, h4, h5, h6, _⟩ :=
    global_fallback_has_no_fallback exampleLoad exampleSource "en" (by decide)
  exact ⟨s, errs, g, gt, h1, h2, h4, h5, h6 (by decide)⟩

/-- C5 (the global fallback has no fallback) fails on the code.  The guard of
`getFallback` returns nil for the code of the global fallback, but while
`NewTranslatorFactory` builds the global fallback `f.fallback` is still nil and the
guard does not fire: with rule data for `en` and `en-US` and the fallback code `en-US`,
the Translator installed as global fallback (address 1, returned again by
`GetTranslator("en-US")`) has the Translator for `en` (address 0) as fallback. -/
theorem global_fallback_has_no_fallback_counterexample :
    ∃ (s : Store Int) (errs : List translatorError) (gt : Translator Int),
      NewTranslatorFactory exampleLoad exampleSource "en-US" = some (s, errs) ∧
      s.f.fallback = some 1 ∧ GetTranslator exampleLoad s "en-US" = some (s, 1, []) ∧
      s.heap[1]? = some gt ∧ gt.locale = "en-US" ∧ gt.fallback = some 0 ∧
      gt.fallback ≠ none :=
  ⟨_, _, _, rfl, rfl, rfl, rfl, rfl, rfl, by decide⟩

/-! ## Claims on Translate -/

/-- `Translate` reports the key as not found, on behalf of the last Translator of
the chain, when no Translator of the chain has the key. -/
theorem Translate_not_found {Q : Type} (heap : List (Translator Q)) (key : String)
    (subs : List (String × String)) (last : Nat) (lt : Translator Q)
    (hlt : heap[last]? = some lt) (hend : lt.fallback = none) (n : Nat) :
    ∀ t, nthFallback heap t n = some last →
      (∀ i, i ≤ n → ∀ (v : Nat) (vt : Translator Q), nthFallback heap t i = some v →
        heap[v]? = some vt → (vt.messages key vt.locale).2 = false) →
      ∀ fuel, n < fuel →
        Translate heap fuel t key subs
          = some ("", [⟨some last, "key not found: " ++ key⟩]) := by
  induction n with
  | zero =>
    intro t ht hmiss fuel hfuel
    simp only [nthFallback, Option.some.injEq] at ht
    subst ht
    obtain ⟨f, rfl⟩ : ∃ f, fuel = f + 1 := ⟨fuel - 1, by omega⟩
    exact Translate_end heap f t key subs lt hlt (hmiss 0 (le_refl _) t lt rfl hlt)
      (Or.inl hend)
  | succ n ih =>
    intro t ht hmiss fuel hfuel
    obtain ⟨f, rfl⟩ : ∃ f, fuel = f + 1 := ⟨fuel - 1, by omega⟩
    cases htr : heap[t]? with
    | none => rw [nthFallback_succ_none _ _ _ htr] at ht; cases ht
    | some tr =>
      have hm : (tr.messages key tr.locale).2 = false := hmiss 0 (by omega) t tr rfl htr
      rw [nthFallback_succ _ _ _ tr htr] at ht
      cases hf : tr.fallback with
      | none => rw [hf] at ht; cases ht
      | some fb =>
        rw [hf] at ht
        by_cases hne : fb = t
        · subst hne
          have hself := nthFallback_self heap fb tr htr hf n
          have hu : fb = last := Option.some.inj (hself.symm.trans ht)
          subst hu
          rw [htr] at hlt
          cases hlt
          rw [hf] at hend
          cases hend
        · rw [Translate_miss heap f t key subs tr fb htr hm hf hne]
          refine ih fb ht ?_ f (by omega)
          intro i hi v vt hv hvt
          refine hmiss (i + 1) (by omega) v vt ?_ hvt
          rw [nthFallback_succ _ _ _ tr htr, hf]
          exact hv

/-- C6 (Translate resolves to the nearest translation).  Let `u` be the Translator
reached from `t` after `n` fallback steps, let `u` have the key with message `m`, and
let no Translator met before `u` on the chain have the key.  Then `Translate` on `t`
returns what `substitute` of `u` returns on `m`, as soon as the fuel allows `n + 1`
Translators to be visited; so for `n = 0` (the own locale has the key) one visit is
enough and the fallback is not consulted.  With no substitutions the result is `m`
itself and the error list is empty. -/
theorem translate_nearest {Q : Type} (heap : List (Translator Q)) (t : Nat) (key : String)
    (subs : List (String × String)) (n u : Nat) (ut : Translator Q) (m : String)
    (hu : nthFallback heap t n = some u) (hut : heap[u]? = some ut)
    (hm : ut.messages key ut.locale = (m, true))
    (hbefore : ∀ i, i < n → ∀ (v : Nat) (vt : Translator Q), nthFallback heap t i = some v →
      heap[v]? = some vt → (vt.messages key vt.locale).2 = false) :
    (∀ fuel, n < fuel → Translate heap fuel t key subs = some (substitute u m subs)) ∧
    (∀ fuel, n < fuel → Translate heap fuel t key [] = some (m, [])) ∧
    (n = 0 → Translate heap 1 t key subs = some (substitute t m subs)) := by
  refine ⟨Translate_found heap key subs m u ut hut hm n t hu hbefore, ?_, ?_⟩
  · intro fuel hfuel
    rw [Translate_found heap key [] m u ut hut hm n t hu hbefore fuel hfuel]
    rfl
  · intro hn
    subst hn
    have hut' : t = u := by
      simp only [nthFallback, Option.some.injEq] at hu
      exact hu
    subst hut'
    exact Translate_found heap key subs m t ut hut hm 0 t hu hbefore 1 (by omega)

/-- Witness of C6: in the example factory (global fallback `en`, Translators for `en`,
`en-US`, `en-US-x1` at the addresses 0, 1, 2) the key `greeting` exists in `en` only;
`Translate` on `en-US-x1` resolves it two steps down the chain. -/
theorem translate_nearest_witness :
    Translate (exampleStore "en" ["en-US-x1"]).heap 3 2 "greeting" [("name", "World")]
      = some ("Hello World", []) ∧
    Translate (exampleStore "en" ["en-US-x1"]).heap 3 2 "greeting" []
      = some ("Hello \x7bname\x7d", []) := by
  have h := translate_nearest (exampleStore "en" ["en-US-x1"]).heap 2 "greeting"
    [("name", "World")] 2 0
    { messages := exampleSource.GetMessages, locale := "en",
      rules := (exampleLoad (exampleLoad ⟨none, ""⟩ [] false false).1 [] true true).1,
      fallback := none }
    "Hello \x7bname\x7d" rfl rfl rfl
    (by
      intro i hi v vt hv hvt
      have hi' : i = 0 ∨ i = 1 := by omega
      rcases hi' with rfl | rfl
      · cases hv; cases hvt; rfl
      · cases hv; cases hvt; rfl)
  exact ⟨(h.1 3 (by omega)).trans (by decide), h.2.1 3 (by omega)⟩

/-- C7 (Translate on a missing key).  Let `last` be the Translator reached from `t`
after `n` fallback steps, let it have no fallback, and let no Translator of the chain
(from `t` to `last`) have the key.  Then `Translate` on `t` returns the empty string
and exactly one error: `key not found` with the key, referring to `last`, whose
`Error()` text carries the locale of `last`. -/
theorem translate_missing_key {Q : Type} (heap : List (Translator Q)) (t : Nat)
    (key : String) (subs : List (String × String)) (n last : Nat) (lt : Translator Q)
    (hlast : nthFallback heap t n = some last) (hlt : heap[last]? = some lt)
    (hend : lt.fallback = none)
    (hmiss : ∀ i, i ≤ n → ∀ (v : Nat) (vt : Translator Q), nthFallback heap t i = some v →
      heap[v]? = some vt → (vt.messages key vt.locale).2 = false) :
    (∀ fuel, n < fuel →
      Translate heap fuel t key subs
        = some ("", [⟨some last, "key not found: " ++ key⟩])) ∧
    translatorError.Error heap ⟨some last, "key not found: " ++ key⟩
      = some ("translator error (locale: " ++ lt.locale ++ ") - "
          ++ ("key not found: " ++ key)) := by
  refine ⟨Translate_not_found heap key subs last lt hlt hend n t hlast hmiss, ?_⟩
  simp only [translatorError.Error, hlt]

/-- Witness of C7: in the example factory no locale has the key `missing.key`;
`Translate` on `en-US-x1` (address 2) reports it for `en` (address 0), the end of the
chain. -/
theorem translate_missing_key_witness :
    Translate (exampleStore "en" ["en-US-x1"]).heap 3 2 "missing.key" [("name", "World")]
      = some ("", [⟨some 0, "key not found: missing.key"⟩]) ∧
    translatorError.Error (exampleStore "en" ["en-US-x1"]).heap
        ⟨some 0, "key not found: missing.key"⟩
      = some "translator error (locale: en) - key not found: missing.key" := by
  have h := translate_missing_key (exampleStore "en" ["en-US-x1"]).heap 2 "missing.key"
    [("name", "World")] 2 0
    { messages := exampleSource.GetMessages, locale := "en",
      rules := (exampleLoad (exampleLoad ⟨none, ""⟩ [] false false).1 [] true true).1,
      fallback := none }
    rfl rfl rfl
    (by
      intro i hi v vt hv hvt
      have hi' : i = 0 ∨ i = 1 ∨ i = 2 := by omega
      rcases hi' with rfl | rfl | rfl
      · cases hv; cases hvt; rfl
      · cases hv; cases hvt; rfl
      · cases hv; cases hvt; rfl)
  exact ⟨h.1 3 (by omega), h.2.trans (by decide)⟩

/-! ## Claims on Pluralize -/

theorem Split_ne_nil (s sep : String) (hsep : sep.data ≠ []) : Split s sep ≠ [] := by
  simp only [Split, hsep, if_false, ne_eq, List.map_eq_nil_iff]
  exact splitFrom_ne_nil _ _ _

/-- The substitution of the single pair `n ↦ numberStr` that `Pluralize` performs. -/
theorem substitute_n (t : Nat) (str numberStr : String) :
    substitute t str [("n", numberStr)]
      = (Replace str "\x7bn\x7d" numberStr,
         if Index str "\x7bn\x7d" = -1 then
           [⟨some t, "substitution not found: " ++ str ++ ", " ++ numberStr⟩]
         else []) := by
  have hn : "\x7b" ++ "n" ++ "\x7d" = "\x7bn\x7d" := by decide
  simp only [substitute, List.foldl_cons, List.foldl_nil, hn, List.nil_append]

/-- `Pluralize` on a Translator that has the key and a plural rule function. -/
theorem Pluralize_own {Q : Type} (heap : List (Translator Q)) (fuel t : Nat) (key : String)
    (number : Q) (numberStr : String) (tr : Translator Q) (m : String) (rule : Q → Int)
    (ht : heap[t]? = some tr) (hm : tr.messages key tr.locale = (m, true))
    (hr : tr.rules.PluralRuleFunc = some rule) :
    Pluralize heap (fuel + 1) t key number numberStr =
      if (if rule number > ((Split m "|").length : Int) - 1
            then ((Split m "|").length : Int) - 1 else rule number) < 0 then none
      else
        match (Split m "|")[(if rule number > ((Split m "|").length : Int) - 1
            then ((Split m "|").length : Int) - 1 else rule number).toNat]? with
        | none => none
        | some part =>
          some ((substitute t part [("n", numberStr)]).1,
            (if rule number > ((Split m "|").length : Int) - 1 then
              [⟨some t, "too few plural variations: " ++ key⟩]
             else []) ++ (substitute t part [("n", numberStr)]).2) := by
  simp only [Pluralize, ht, hm, hr, Bool.not_true, Bool.false_eq_true, if_false]

theorem substitution_ne_too_few (x y : String) :
    "substitution not found: " ++ x ≠ "too few plural variations: " ++ y := by
  intro h
  have h1 : ("substitution not found: " ++ x).data.head? = some 's' := rfl
  have h2 : ("too few plural variations: " ++ y).data.head? = some 't' := rfl
  rw [h] at h1
  rw [h1] at h2
  exact absurd h2 (by decide)

theorem replaceFrom_ne_nil (old new : List Char) (hnew : new ≠ []) (c : Char)
    (cs : List Char) : replaceFrom old new 0 (c :: cs) ≠ [] := by
  simp only [replaceFrom]
  split
  · simp [hnew]
  · simp

/-- Replacing by a non-empty string in a non-empty string gives a non-empty string. -/
theorem Replace_ne_empty (str old new : String) (hold : old.data ≠ [])
    (hstr : str ≠ "") (hnew : new ≠ "") : Replace str old new ≠ "" := by
  have hnew' : new.data ≠ [] := fun h => hnew (String.ext h)
  simp only [Replace, hold, if_false]
  intro h
  have hd := congrArg String.data h
  simp only at hd
  cases hs : str.data with
  | nil => exact hstr (String.ext hs)
  | cons c cs =>
    rw [hs] at hd
    exact replaceFrom_ne_nil _ _ hnew' c cs hd

/-- A negative form index is not clamped: the variant access is out of range. -/
theorem Pluralize_negative {Q : Type} (heap : List (Translator Q)) (fuel t : Nat)
    (tr : Translator Q) (key m : String) (rule : Q → Int) (q : Q) (s : String)
    (ht : heap[t]? = some tr) (hm : tr.messages key tr.locale = (m, true))
    (hr : tr.rules.PluralRuleFunc = some rule) (h : rule q < 0) :
    Pluralize heap (fuel + 1) t key q s = none := by
  have hnc : ¬ rule q > ((Split m "|").length : Int) - 1 := by omega
  rw [Pluralize_own heap fuel t key q s tr m rule ht hm hr]
  simp only [hnc, if_false, h, if_true]

/-- C10 (plural index in range) fails on the code for a negative form index.  With the
rule function constantly `-1` and the message `{n} item|{n} items`, which the
own locale has (`Translate` returns it with the same fuel), the test
`form > len(parts)-1` is false, the index stays `-1`, and the access `parts[form]` is
out of range: `Pluralize` and `P` do not return. -/
theorem plural_index_negative_out_of_range :
    Translate (constantStore (-1)).heap 1 0 "item_count" []
      = some ("\x7bn\x7d item|\x7bn\x7d items", []) ∧
    Pluralize (constantStore (-1)).heap 1 0 "item_count" 1 "1" = none ∧
    P (constantStore (-1)).heap 1 0 "item_count" 1 "1" = none := by
  decide

/-! ## Claims on substitute -/

theorem indexFrom_eq_none_iff (sub s : List Char) (i : Nat) :
    indexFrom sub s i = none ↔ ¬ sub <:+: s := by
  induction s generalizing i with
  | nil =>
    simp only [indexFrom, List.infix_nil]
    cases sub with
    | nil => simp [List.isPrefixOf]
    | cons a l => simp [List.isPrefixOf]
  | cons c cs ih =>
    simp only [indexFrom, List.infix_cons_iff]
    by_cases h : sub.isPrefixOf (c :: cs) = true
    · simp only [h, if_true]
      have := List.isPrefixOf_iff_prefix.mp h
      simp [this]
    · simp only [h, if_false, Bool.false_eq_true]
      have hp : ¬ sub <+: c :: cs := fun hp => h (List.isPrefixOf_iff_prefix.mpr hp)
      rw [ih]
      simp [hp]

/-- `strings.Index` returns `-1` exactly when the text does not occur. -/
theorem Index_eq_neg_one_iff (s sub : String) : Index s sub = -1 ↔ occursIn sub s = false := by
  simp only [Index, occursIn, decide_eq_false_iff_not]
  rw [← indexFrom_eq_none_iff sub.data s.data 0]
  cases h : indexFrom sub.data s.data 0 with
  | none => simp
  | some i =>
    have hi : (i : Int) ≠ -1 := by omega
    simp [hi]

theorem substitute_foldl (t : Nat) (str : String) (pairs : List (String × String))
    (acc : String) (errs : List translatorError) :
    pairs.foldl
      (fun (acc : String × List translatorError) (p : String × String) =>
        ((Replace acc.1 ("\x7b" ++ p.1 ++ "\x7d") p.2,
          if Index str ("\x7b" ++ p.1 ++ "\x7d") = -1 then
            acc.2 ++ [⟨some t, "substitution not found: " ++ str ++ ", " ++ p.2⟩]
          else acc.2) : String × List translatorError))
      (acc, errs)
    = (pairs.foldl (fun acc p => Replace acc (placeholder p.1) p.2) acc,
       errs ++ (pairs.filter fun p => !occursIn (placeholder p.1) str).map fun p =>
         ⟨some t, "substitution not found: " ++ str ++ ", " ++ p.2⟩) := by
  induction pairs generalizing acc errs with
  | nil => simp
  | cons p ps ih =>
    rw [List.foldl_cons, ih]
    simp only [placeholder]
    by_cases h : Index str ("\x7b" ++ p.1 ++ "\x7d") = -1
    · have h' : occursIn ("\x7b" ++ p.1 ++ "\x7d") str = false :=
        (Index_eq_neg_one_iff _ _).mp h
      simp [h, h', List.filter_cons]
    · have h' : occursIn ("\x7b" ++ p.1 ++ "\x7d") str = true := by
        cases hb : occursIn ("\x7b" ++ p.1 ++ "\x7d") str with
        | true => rfl
        | false => exact absurd ((Index_eq_neg_one_iff _ _).mpr hb) h
      simp [h, h', List.filter_cons]

/-- The source's `substitute` computes what the specification says. -/
theorem substitute_eq_spec (t : Nat) (str : String) (pairs : List (String × String)) :
    substitute t str pairs = substituteSpec t str pairs := by
  have := substitute_foldl t str pairs str []
  simpa [substitute, substituteSpec] using this

theorem replaceFrom_absent (old new s : List Char) (h : ¬ old <:+: s) :
    replaceFrom old new 0 s = s := by
  induction s with
  | nil => rfl
  | cons c cs ih =>
    have hp : ¬ old.isPrefixOf (c :: cs) = true := fun hp =>
      h (List.isPrefixOf_iff_prefix.mp hp).isInfix
    have hc : ¬ old <:+: cs := fun hc => h (List.infix_cons hc)
    rw [replaceFrom, if_neg hp, ih hc]

/-- Replacing a text that does not occur changes nothing. -/
theorem Replace_absent (s old new : String) (hold : old.data ≠ [])
    (h : occursIn old s = false) : Replace s old new = s := by
  simp only [occursIn, decide_eq_false_iff_not] at h
  simp only [Replace, hold, if_false]
  exact String.ext (replaceFrom_absent _ _ _ h)

theorem placeholder_data_ne_nil (name : String) : (placeholder name).data ≠ [] := by
  simp [placeholder, String.data_append]

/-- C16 (the result of `substitute` can depend on the order of iteration).  For the
template `{a}` and the mapping `a ↦ {b}`, `b ↦ x`: applying `a` first gives `x`,
applying `b` first gives `{b}`; both orders record the same single error, for `b`,
which does not occur in the original template. -/
theorem substitute_order_dependent (t : Nat) :
    ∃ (template : String) (p1 p2 : String × String), p1.1 ≠ p2.1 ∧
      (substitute t template [p1, p2]).1 = "x" ∧
      (substitute t template [p2, p1]).1 = "\x7bb\x7d" ∧
      (substitute t template [p1, p2]).1 ≠ (substitute t template [p2, p1]).1 ∧
      (substitute t template [p1, p2]).2 = (substitute t template [p2, p1]).2 ∧
      (substitute t template [p1, p2]).2
        = [⟨some t, "substitution not found: \x7ba\x7d, x"⟩] :=
  ⟨"\x7ba\x7d", ("a", "\x7bb\x7d"), ("b", "x"), by decide, rfl, rfl,
    (by decide : ("x" : String) ≠ "\x7bb\x7d"), rfl, rfl⟩

/-! ## Claims on the wrappers and on Pluralize through a fallback -/

theorem Pluralize_miss {Q : Type} (heap : List (Translator Q)) (fuel t : Nat) (key : String)
    (q : Q) (s : String) (tr : Translator Q) (fb : Nat)
    (ht : heap[t]? = some tr) (hm : (tr.messages key tr.locale).2 = false)
    (hf : tr.fallback = some fb) (hne : fb ≠ t) :
    Pluralize heap (fuel + 1) t key q s = Pluralize heap fuel fb key q s := by
  cases hmsg : tr.messages key tr.locale with
  | mk m b =>
    rw [hmsg] at hm
    simp only at hm
    subst hm
    simp only [Pluralize, ht, hmsg, hf, ne_eq, hne, not_false_eq_true, if_true,
      Bool.not_false]

theorem Pluralize_end {Q : Type} (heap : List (Translator Q)) (fuel t : Nat) (key : String)
    (q : Q) (s : String) (tr : Translator Q)
    (ht : heap[t]? = some tr) (hm : (tr.messages key tr.locale).2 = false)
    (hf : tr.fallback = none ∨ tr.fallback = some t) :
    Pluralize heap (fuel + 1) t key q s
      = some ("", [⟨some t, "key not found: " ++ key⟩]) := by
  cases hmsg : tr.messages key tr.locale with
  | mk m b =>
    rw [hmsg] at hm
    simp only at hm
    subst hm
    rcases hf with hf | hf
    · simp only [Pluralize, ht, hmsg, hf, Bool.not_false, if_true]
    · simp only [Pluralize, ht, hmsg, hf, ne_eq, not_true_eq_false, if_false,
        Bool.not_false, if_true]

/-- On a Translator that has the key, `Pluralize` does not recurse: every positive
fuel gives the same result. -/
theorem Pluralize_own_fuel {Q : Type} (heap : List (Translator Q)) (fuel t : Nat)
    (key : String) (q : Q) (s : String) (tr : Translator Q) (m : String)
    (ht : heap[t]? = some tr) (hm : tr.messages key tr.locale = (m, true)) :
    Pluralize heap (fuel + 1) t key q s = Pluralize heap 1 t key q s := by
  simp only [Pluralize, ht, hm, Bool.not_true, Bool.false_eq_true, if_false]

/-- `Pluralize` on `t` is `Pluralize` on the first Translator of the chain that has the
key. -/
theorem Pluralize_found {Q : Type} (heap : List (Translator Q)) (key : String) (q : Q)
    (s : String) (m : String) (u : Nat) (ut : Translator Q)
    (hut : heap[u]? = some ut) (hm : ut.messages key ut.locale = (m, true)) (n : Nat) :
    ∀ t, nthFallback heap t n = some u →
      (∀ i, i < n → ∀ (v : Nat) (vt : Translator Q), nthFallback heap t i = some v →
        heap[v]? = some vt → (vt.messages key vt.locale).2 = false) →
      ∀ fuel, n < fuel → Pluralize heap fuel t key q s = Pluralize heap 1 u key q s := by
  induction n with
  | zero =>
    intro t ht _ fuel hfuel
    simp only [nthFallback, Option.some.injEq] at ht
    subst ht
    obtain ⟨f, rfl⟩ : ∃ f, fuel = f + 1 := ⟨fuel - 1, by omega⟩
    exact Pluralize_own_fuel heap f t key q s ut m hut hm
  | succ n ih =>
    intro t ht hbefore fuel hfuel
    obtain ⟨f, rfl⟩ : ∃ f, fuel = f + 1 := ⟨fuel - 1, by omega⟩
    cases htr : heap[t]? with
    | none => rw [nthFallback_succ_none _ _ _ htr] at ht; cases ht
    | some tr =>
      have hmiss : (tr.messages key tr.locale).2 = false := hbefore 0 (by omega) t tr rfl htr
      rw [nthFallback_succ _ _ _ tr htr] at ht
      cases hf : tr.fallback with
      | none => rw [hf] at ht; cases ht
      | some fb =>
        rw [hf] at ht
        by_cases hne : fb = t
        · subst hne
          have hself := nthFallback_self heap fb tr htr hf n
          have hu : fb = u := Option.some.inj (hself.symm.trans ht)
          subst hu
          rw [htr] at hut
          cases hut
          rw [hm] at hmiss
          cases hmiss
        · rw [Pluralize_miss heap f t key q s tr fb htr hmiss hf hne]
          refine ih fb ht ?_ f (by omega)
          intro i hi v vt hv hvt
          refine hbefore (i + 1) (by omega) v vt ?_ hvt
          rw [nthFallback_succ _ _ _ tr htr, hf]
          exact hv

/-- When no Translator of the chain has the key, `Pluralize` reports it for the last
one. -/
theorem Pluralize_not_found {Q : Type} (heap : List (Translator Q)) (key : String) (q : Q)
    (s : String) (last : Nat) (lt : Translator Q)
    (hlt : heap[last]? = some lt) (hend : lt.fallback = none) (n : Nat) :
    ∀ t, nthFallback heap t n = some last →
      (∀ i, i ≤ n → ∀ (v : Nat) (vt : Translator Q), nthFallback heap t i = some v →
        heap[v]? = some vt → (vt.messages key vt.locale).2 = false) →
      ∀ fuel, n < fuel →
        Pluralize heap fuel t key q s
          = some ("", [⟨some last, "key not found: " ++ key⟩]) := by
  induction n with
  | zero =>
    intro t ht hmiss fuel hfuel
    simp only [nthFallback, Option.some.injEq] at ht
    subst ht
    obtain ⟨f, rfl⟩ : ∃ f, fuel = f + 1 := ⟨fuel - 1, by omega⟩
    exact Pluralize_end heap f t key q s lt hlt (hmiss 0 (le_refl _) t lt rfl hlt)
      (Or.inl hend)
  | succ n ih =>
    intro t ht hmiss fuel hfuel
    obtain ⟨f, rfl⟩ : ∃ f, fuel = f + 1 := ⟨fuel - 1, by omega⟩
    cases htr : heap[t]? with
    | none => rw [nthFallback_succ_none _ _ _ htr] at ht; cases ht
    | some tr =>
      have hm : (tr.messages key tr.locale).2 = false := hmiss 0 (by omega) t tr rfl htr
      rw [nthFallback_succ _ _ _ tr htr] at ht
      cases hf : tr.fallback with
      | none => rw [hf] at ht; cases ht
      | some fb =>
        rw [hf] at ht
        by_cases hne : fb = t
        · subst hne
          have hself := nthFallback_self heap fb tr htr hf n
          have hu : fb = last := Option.some.inj (hself.symm.trans ht)
          subst hu
          rw [htr] at hlt
          cases hlt
          rw [hf] at hend
          cases hend
        · rw [Pluralize_miss heap f t key q s tr fb htr hm hf hne]
          refine ih fb ht ?_ f (by omega)
          intro i hi v vt hv hvt
          refine hmiss (i + 1) (by omega) v vt ?_ hvt
          rw [nthFallback_succ _ _ _ tr htr, hf]
          exact hv

theorem Tr_eq {Q : Type} (heap : List (Translator Q)) (fuel t : Nat) (key : String)
    (subs : List (String × String)) :
    Tr heap fuel t key subs
      = (Translate heap fuel t key subs).map fun r => if r.2 = [] then r.1 else key := by
  simp only [Tr]
  cases h : Translate heap fuel t key subs with
  | none => rfl
  | some r =>
    obtain ⟨a, b⟩ := r
    by_cases hb : b = [] <;> simp [hb]

theorem P_eq {Q : Type} (heap : List (Translator Q)) (fuel t : Nat) (key : String)
    (q : Q) (s : String) :
    P heap fuel t key q s
      = (Pluralize heap fuel t key q s).map fun r => if r.2 = [] then r.1 else key := by
  simp only [P]
  cases h : Pluralize heap fuel t key q s with
  | none => rfl
  | some r =>
    obtain ⟨a, b⟩ := r
    by_cases hb : b = [] <;> simp [hb]

/-- `Pluralize` on a Translator that has the key, for a form index that is not
negative: the variant at the (clamped) index exists and is returned with the
placeholder of `n` replaced. -/
theorem Pluralize_own_variant {Q : Type} (heap : List (Translator Q)) (t : Nat)
    (key : String) (q : Q) (s : String) (tr : Translator Q) (m : String) (rule : Q → Int)
    (ht : heap[t]? = some tr) (hm : tr.messages key tr.locale = (m, true))
    (hr : tr.rules.PluralRuleFunc = some rule) (h0 : 0 ≤ rule q) :
    ∃ variant,
      (Split m "|")[(if rule q > ((Split m "|").length : Int) - 1
          then ((Split m "|").length : Int) - 1 else rule q).toNat]? = some variant ∧
      ∀ fuel, Pluralize heap (fuel + 1) t key q s
        = some (Replace variant "\x7bn\x7d" s,
            (if rule q > ((Split m "|").length : Int) - 1 then
              [⟨some t, "too few plural variations: " ++ key⟩]
             else []) ++
            (if Index variant "\x7bn\x7d" = -1 then
              [⟨some t, "substitution not found: " ++ variant ++ ", " ++ s⟩]
             else [])) := by
  have hne : Split m "|" ≠ [] := Split_ne_nil m "|" (by decide)
  have hpos : 0 < (Split m "|").length := List.length_pos.mpr hne
  have hn0 : ¬ (if rule q > ((Split m "|").length : Int) - 1
      then ((Split m "|").length : Int) - 1 else rule q) < 0 := by
    split <;> omega
  have hlt : (if rule q > ((Split m "|").length : Int) - 1
      then ((Split m "|").length : Int) - 1 else rule q).toNat < (Split m "|").length := by
    split <;> omega
  refine ⟨(Split m "|")[(if rule q > ((Split m "|").length : Int) - 1
      then ((Split m "|").length : Int) - 1 else rule q).toNat],
    List.getElem?_eq_getElem hlt, ?_⟩
  intro fuel
  rw [Pluralize_own heap fuel t key q s tr m rule ht hm hr]
  simp only [hn0, if_false, List.getElem?_eq_getElem hlt, substitute_n]

/-- C12 (convenience wrappers return the key on any error).  For the Translator at
`t`: `Tr` is the string of `Translate` when `Translate` reports no error, and the key
otherwise; `T(key)` is `Tr(key, no substitutions)`; `P` is the string of `Pluralize`
when `Pluralize` reports no error, and the key otherwise (the wrappers return exactly
when the wrapped method does).  Hence `T` is the message of the first Translator of the
chain that has the key, verbatim, and it is the key when the chain ends without any
Translator having the key. -/
theorem wrappers_return_key {Q : Type} (heap : List (Translator Q)) (t : Nat)
    (key : String) :
    (∀ fuel subs, Tr heap fuel t key subs
      = (Translate heap fuel t key subs).map fun r => if r.2 = [] then r.1 else key) ∧
    (∀ fuel, T heap fuel t key = Tr heap fuel t key []) ∧
    (∀ fuel (q : Q) s, P heap fuel t key q s
      = (Pluralize heap fuel t key q s).map fun r => if r.2 = [] then r.1 else key) ∧
    (∀ (n u : Nat) (ut : Translator Q) (m : String), nthFallback heap t n = some u →
      heap[u]? = some ut → ut.messages key ut.locale = (m, true) →
      (∀ i, i < n → ∀ (v : Nat) (vt : Translator Q), nthFallback heap t i = some v →
        heap[v]? = some vt → (vt.messages key vt.locale).2 = false) →
      ∀ fuel, n < fuel → T heap fuel t key = some m) ∧
    (∀ (n last : Nat) (lt : Translator Q), nthFallback heap t n = some last →
      heap[last]? = some lt → lt.fallback = none →
      (∀ i, i ≤ n → ∀ (v : Nat) (vt : Translator Q), nthFallback heap t i = some v →
        heap[v]? = some vt → (vt.messages key vt.locale).2 = false) →
      ∀ fuel, n < fuel → T heap fuel t key = some key) := by
  refine ⟨fun fuel subs => Tr_eq heap fuel t key subs, fun _ => rfl,
    fun fuel q s => P_eq heap fuel t key q s, ?_, ?_⟩
  · intro n u ut m hu hut hm hbefore fuel hfuel
    simp only [T, Tr, Translate_found heap key [] m u ut hut hm n t hu hbefore fuel hfuel]
    rfl
  · intro n last lt hlast hlt hend hmiss fuel hfuel
    simp only [T, Tr, Translate_not_found heap key [] last lt hlt hend n t hlast hmiss
      fuel hfuel]
    rfl

/-- Witness of C12: in the example factory (Translators for `en`, `en-US`, `en-US-x1`
at the addresses 0, 1, 2) `T` on `en-US-x1` gives the message of `en` verbatim for
`greeting` and the key for `missing.key`; `Tr` with an unknown substitution name gives
the key; `P` gives the pluralized string. -/
theorem wrappers_return_key_witness :
    T (exampleStore "en" ["en-US-x1"]).heap 3 2 "greeting" = some "Hello \x7bname\x7d" ∧
    Tr (exampleStore "en" ["en-US-x1"]).heap 3 2 "greeting" [("name", "World")]
      = some "Hello World" ∧
    Tr (exampleStore "en" ["en-US-x1"]).heap 3 2 "greeting" [("nom", "World")]
      = some "greeting" ∧
    P (exampleStore "en" ["en-US-x1"]).heap 3 2 "item_count" 5 "5" = some "5 items" := by
  have h := wrappers_return_key (exampleStore "en" ["en-US-x1"]).heap 2 "greeting"
  have h' := wrappers_return_key (exampleStore "en" ["en-US-x1"]).heap 2 "item_count"
  refine ⟨?_, ?_, ?_, ?_⟩
  · exact h.2.2.2.1 2 0
      { messages := exampleSource.GetMessages, locale := "en",
        rules := (exampleLoad (exampleLoad ⟨none, ""⟩ [] false false).1 [] true true).1,
        fallback := none }
      "Hello \x7bname\x7d" rfl rfl rfl
      (by
        intro i hi v vt hv hvt
        have hi' : i = 0 ∨ i = 1 := by omega
        rcases hi' with rfl | rfl
        · cases hv; cases hvt; rfl
        · cases hv; cases hvt; rfl)
      3 (by omega)
  · exact (h.1 3 [("name", "World")]).trans (by decide)
  · exact (h.1 3 [("nom", "World")]).trans (by decide)
  · exact (h'.2.2.1 3 5 "5").trans (by decide)

/-- C19 (Pluralize resolved through a fallback uses the fallback's plural rule).  Let
`u` be the Translator reached from `t` after `n` fallback steps, let `u` have the key
with message `m`, and let no Translator met before `u` on the chain have the key.  Then
`Pluralize` on `t` is `Pluralize` on `u`, as soon as the fuel allows `n + 1` Translators
to be visited: the form index is the value of the plural rule function of `u` (the rule
function of `t` does not occur in the result), the variant is taken from `m`, and every
error refers to `u`, so that its `Error()` text carries the locale of `u`. -/
theorem pluralize_uses_fallback_rule {Q : Type} (heap : List (Translator Q)) (t : Nat)
    (key : String) (q : Q) (s : String) (n u : Nat) (ut : Translator Q) (m : String)
    (hu : nthFallback heap t n = some u) (hut : heap[u]? = some ut)
    (hm : ut.messages key ut.locale = (m, true))
    (hbefore : ∀ i, i < n → ∀ (v : Nat) (vt : Translator Q), nthFallback heap t i = some v →
      heap[v]? = some vt → (vt.messages key vt.locale).2 = false) :
    (∀ fuel, n < fuel → Pluralize heap fuel t key q s = Pluralize heap 1 u key q s) ∧
    (∀ rule, ut.rules.PluralRuleFunc = some rule → 0 ≤ rule q →
      ∃ variant,
        (Split m "|")[(if rule q > ((Split m "|").length : Int) - 1
            then ((Split m "|").length : Int) - 1 else rule q).toNat]? = some variant ∧
        ∀ fuel, n < fuel → Pluralize heap fuel t key q s
          = some (Replace variant "\x7bn\x7d" s,
              (if rule q > ((Split m "|").length : Int) - 1 then
                [⟨some u, "too few plural variations: " ++ key⟩]
               else []) ++
              (if Index variant "\x7bn\x7d" = -1 then
                [⟨some u, "substitution not found: " ++ variant ++ ", " ++ s⟩]
               else []))) ∧
    (∀ fuel res errs, n < fuel → Pluralize heap fuel t key q s = some (res, errs) →
      ∀ e ∈ errs, e.translator = some u ∧
        translatorError.Error heap e
          = some ("translator error (locale: " ++ ut.locale ++ ") - " ++ e.message)) := by
  have hfound := Pluralize_found heap key q s m u ut hut hm n t hu hbefore
  refine ⟨hfound, ?_, ?_⟩
  · intro rule hr h0
    obtain ⟨variant, hv, hmain⟩ := Pluralize_own_variant heap u key q s ut m rule hut hm hr h0
    exact ⟨variant, hv, fun fuel hfuel => (hfound fuel hfuel).trans (hmain 0)⟩
  · intro fuel res errs hfuel hp e he
    rw [hfound fuel hfuel] at hp
    have htag : e.translator = some u := by
      cases hr : ut.rules.PluralRuleFunc with
      | none =>
        simp only [Pluralize, hut, hm, hr, Bool.not_true, Bool.false_eq_true, if_false] at hp
        cases hp
      | some rule =>
        by_cases h0 : rule q < 0
        · rw [Pluralize_negative heap 0 u ut key m rule q s hut hm hr h0] at hp
          cases hp
        · obtain ⟨variant, _, hmain⟩ :=
            Pluralize_own_variant heap u key q s ut m rule hut hm hr (by omega)
          rw [hmain 0] at hp
          simp only [Option.some.injEq, Prod.mk.injEq] at hp
          obtain ⟨_, rfl⟩ := hp
          simp only [List.mem_append] at he
          rcases he with he | he
          · split at he
            · simp only [List.mem_singleton] at he
              rw [he]
            · simp at he
          · split at he
            · simp only [List.mem_singleton] at he
              rw [he]
            · simp at he
    refine ⟨htag, ?_⟩
    simp only [translatorError.Error, htag, hut]

/-- Witness of C19: `en-US` (address 1, rule function constantly 0) has no
`item_count` and falls back to `en` (address 0, rule function `1 ↦ 0`, else `1`).  For
the quantity 5 the rule of `en` selects the second variant; the rule of `en-US` would
select the first. -/
theorem pluralize_uses_fallback_rule_witness :
    Pluralize handHeap 2 1 "item_count" 5 "5" = Pluralize handHeap 1 0 "item_count" 5 "5" ∧
    Pluralize handHeap 2 1 "item_count" 5 "5" = some ("5 items", []) := by
  have h := pluralize_uses_fallback_rule handHeap 1 "item_count" 5 "5" 1 0
    { messages := handMessages, locale := "en",
      rules := ⟨some fun n => if n = 1 then 0 else 1, "ltr"⟩, fallback := none }
    "\x7bn\x7d item|\x7bn\x7d items" rfl rfl rfl
    (by
      intro i hi v vt hv hvt
      have hi' : i = 0 := by omega
      subst hi'
      cases hv; cases hvt; rfl)
  exact ⟨h.1 2 (by omega), (h.1 2 (by omega)).trans (by decide)⟩

/-- C20 (P hides a found variant that lacks the placeholder).  Let the Translator at
`t` have the key with message `m`.  Whenever the variant selected for the quantity (at
the form index, clamped from above) does not contain the placeholder of `n`,
`Pluralize` returns that variant unchanged together with the `substitution not found`
error, the last of its errors, and `P` returns the key instead of the variant.
Likewise `Translate` reports a `substitution not found` error and `Tr` returns the key
whenever the placeholder of some substitution name does not occur in `m`. -/
theorem wrappers_hide_missing_placeholder {Q : Type} (heap : List (Translator Q)) (t : Nat)
    (tr : Translator Q) (key m : String)
    (ht : heap[t]? = some tr) (hm : tr.messages key tr.locale = (m, true)) :
    (∀ (rule : Q → Int) (q : Q) (s variant : String),
      tr.rules.PluralRuleFunc = some rule → 0 ≤ rule q →
      (Split m "|")[(if rule q > ((Split m "|").length : Int) - 1
          then ((Split m "|").length : Int) - 1 else rule q).toNat]? = some variant →
      occursIn "\x7bn\x7d" variant = false →
      ∀ fuel,
        Pluralize heap (fuel + 1) t key q s
          = some (variant,
              (if rule q > ((Split m "|").length : Int) - 1 then
                [⟨some t, "too few plural variations: " ++ key⟩]
               else []) ++
              [⟨some t, "substitution not found: " ++ variant ++ ", " ++ s⟩]) ∧
        P heap (fuel + 1) t key q s = some key) ∧
    (∀ (subs : List (String × String)) (p : String × String), p ∈ subs →
      occursIn (placeholder p.1) m = false →
      ∀ fuel,
        (∃ res errs, Translate heap (fuel + 1) t key subs = some (res, errs) ∧
          (⟨some t, "substitution not found: " ++ m ++ ", " ++ p.2⟩ : translatorError)
            ∈ errs) ∧
        Tr heap (fuel + 1) t key subs = some key) := by
  constructor
  · intro rule q s variant hr h0 hv hno fuel
    obtain ⟨variant', hv', hmain⟩ :=
      Pluralize_own_variant heap t key q s tr m rule ht hm hr h0
    have hvv : variant' = variant := Option.some.inj (hv'.symm.trans hv)
    subst hvv
    have hidx : Index variant' "\x7bn\x7d" = -1 := (Index_eq_neg_one_iff _ _).mpr hno
    have hrep : Replace variant' "\x7bn\x7d" s = variant' :=
      Replace_absent _ _ _ (by decide) hno
    have hP : Pluralize heap (fuel + 1) t key q s
        = some (variant',
            (if rule q > ((Split m "|").length : Int) - 1 then
              [⟨some t, "too few plural variations: " ++ key⟩]
             else []) ++
            [⟨some t, "substitution not found: " ++ variant' ++ ", " ++ s⟩]) := by
      rw [hmain fuel, hrep, if_pos hidx]
    refine ⟨hP, ?_⟩
    rw [P_eq, hP]
    simp
  · intro subs p hp hno fuel
    have hT : Translate heap (fuel + 1) t key subs = some (substitute t m subs) := by
      simp only [Translate, ht, hm, if_true]
    have hmem : (⟨some t, "substitution not found: " ++ m ++ ", " ++ p.2⟩ : translatorError)
        ∈ (substitute t m subs).2 := by
      rw [substitute_eq_spec]
      simp only [substituteSpec, List.mem_map, List.mem_filter]
      exact ⟨p, ⟨hp, by simp [hno]⟩, rfl⟩
    refine ⟨⟨_, _, hT, hmem⟩, ?_⟩
    rw [Tr_eq, hT]
    have hne : (substitute t m subs).2 ≠ [] := List.ne_nil_of_mem hmem
    simp [hne]

/-- Witness of C20: the first variant of `one item|{n} items` has no
placeholder; for the quantity 1 `Pluralize` returns `one item` with the error and `P`
returns the key `cart`.  `Tr` returns the key `greeting` when the substitution name
`nom` has no placeholder in `Hello {name}`. -/
theorem wrappers_hide_missing_placeholder_witness :
    Pluralize handHeap 1 0 "cart" 1 "1"
      = some ("one item", [⟨some 0, "substitution not found: one item, 1"⟩]) ∧
    P handHeap 1 0 "cart" 1 "1" = some "cart" ∧
    P handHeap 1 0 "cart" 5 "5" = some "5 items" ∧
    Tr handHeap 1 0 "greeting" [("nom", "World")] = some "greeting" := by
  have h2 := wrappers_hide_missing_placeholder handHeap 0
    { messages := handMessages, locale := "en",
      rules := ⟨some fun n => if n = 1 then 0 else 1, "ltr"⟩, fallback := none }
    "greeting" "Hello \x7bname\x7d" rfl rfl
  have h := wrappers_hide_missing_placeholder handHeap 0
    { messages := handMessages, locale := "en",
      rules := ⟨some fun n => if n = 1 then 0 else 1, "ltr"⟩, fallback := none }
    "cart" "one item|\x7bn\x7d items" rfl rfl
  have h1 := h.1 (fun n => if n = 1 then 0 else 1) 1 "1" "one item" rfl (by decide)
    (by decide) (by decide) 0
  exact ⟨h1.1.trans (by decide), h1.2, by decide,
    (h2.2 [("nom", "World")] ("nom", "World") (List.mem_singleton.mpr rfl) (by decide) 0).2⟩

/-! ## Claims on the errors of the factory -/

theorem GetTranslatorFuel_miss_errors {Q : Type} (load : Loader Q) (fuel : Nat)
    (s s1 : Store Q) (localeCode : String) (fbp : Option Nat)
    (h1 : getFallback (GetTranslatorFuel load fuel) s localeCode = some (s1, fbp))
    (h2 : s1.f.translators localeCode = none) :
    ∃ s2 t, GetTranslatorFuel load (fuel + 1) s localeCode =
      some (s2, t, creationErrors load s1.f.source localeCode) := by
  simp only [GetTranslatorFuel, h1, h2, creationErrors]
  exact ⟨_, _, rfl⟩

/-- The store after `getFallback` has no cache entry whose code is as long as the
argument, beyond those of the store before. -/
theorem getFallback_bound {Q : Type} (load : Loader Q) (fuel : Nat) (s s1 : Store Q)
    (localeCode : String) (fbp : Option Nat) (hlen : localeCode.length < fuel + 1)
    (hinv : Inv s)
    (h1 : getFallback (GetTranslatorFuel load fuel) s localeCode = some (s1, fbp)) :
    Step s s1 ∧ ∀ k, s.f.translators k = none → s1.f.translators k ≠ none →
      k.length < localeCode.length := by
  obtain ⟨s1', fbp', hgf, hfb⟩ := getFallback_spec (GetTranslatorFuel load fuel) s localeCode
    hinv (fun fb hfb => GetTranslatorFuel_spec load fuel s fb (by omega) hinv)
  rw [h1] at hgf
  simp only [Option.some.injEq, Prod.mk.injEq] at hgf
  obtain ⟨rfl, rfl⟩ := hgf
  cases hfb with
  | isGlobal g gt h1 h2 h3 h4 h5 =>
    subst h4
    exact ⟨Step.refl _, fun k hk hk1 => absurd hk hk1⟩
  | default h1 h2 h4 h5 =>
    subst h4
    exact ⟨Step.refl _, fun k hk hk1 => absurd hk hk1⟩
  | shorter p t e h1 h2 h3 h5 =>
    refine ⟨h3.step, fun k hk hk1 => ?_⟩
    have := h3.bound k hk hk1
    have := properPrefixes_length _ _ (List.mem_of_find?_eq_some h2)
    omega

/-- On a code that is not cached, `GetTranslator` returns the errors it records for the
code itself. -/
theorem GetTranslatorFuel_errors {Q : Type} (load : Loader Q) (fuel : Nat) (s : Store Q)
    (localeCode : String) (hlen : localeCode.length < fuel) (hinv : Inv s)
    (hL : s.f.translators localeCode = none) :
    ∃ s' t, GetTranslatorFuel load fuel s localeCode =
      some (s', t, creationErrors load s.f.source localeCode) := by
  obtain ⟨f, rfl⟩ : ∃ f, fuel = f + 1 := ⟨fuel - 1, by omega⟩
  obtain ⟨s1, fbp, hgf, _⟩ := getFallback_spec (GetTranslatorFuel load f) s localeCode
    hinv (fun fb hfb => GetTranslatorFuel_spec load f s fb (by omega) hinv)
  obtain ⟨hstep, hbound⟩ := getFallback_bound load f s s1 localeCode fbp hlen hinv hgf
  have hc : s1.f.translators localeCode = none := by
    cases h : s1.f.translators localeCode with
    | none => rfl
    | some t0 =>
      have := hbound localeCode hL (by rw [h]; simp)
      omega
  have := GetTranslatorFuel_miss_errors load f s s1 localeCode fbp hgf hc
  rwa [hstep.source] at this

theorem creationErrors_eq {Q : Type} (load : Loader Q) (source : Source)
    (localeCode : String) :
    creationErrors load source localeCode
      = (if (source.GetRules "root").2 then []
          else [⟨none, "could not find root (COMMON_DATA)"⟩]) ++
        (load ⟨none, ""⟩ (source.GetRules "root").1 false false).2 ++
        (if (source.GetRules localeCode).2 then []
          else [⟨none, "could not find rules and messages for locale " ++ localeCode⟩]) ++
        (load (load ⟨none, ""⟩ (source.GetRules "root").1 false false).1
          (source.GetRules localeCode).1 true true).2 := by
  simp only [creationErrors, COMMON_DATA]
  by_cases h1 : (source.GetRules "root").2 = true <;>
    by_cases h2 : (source.GetRules localeCode).2 = true <;>
    simp [h1, h2]

theorem root_ne_locale_error (x : String) :
    "could not find root (COMMON_DATA)" ≠ "could not find rules and messages for locale " ++ x := by
  intro h
  have h1 : ("could not find root (COMMON_DATA)" : String).data[16]? = some 'o' := rfl
  have h2 : ("could not find rules and messages for locale " ++ x).data[16]? = some 'u' := rfl
  rw [h] at h1
  rw [h1] at h2
  exact absurd h2 (by decide)

/-- C13 (GetTranslator is best-effort).  In every store `s` of a factory and for every
code `localeCode` that is not cached, `GetTranslator(localeCode)` returns a Translator
whose locale is the code and which is cached under the code afterwards, whatever the
source knows about the code.  The returned error list is, in this order: the
missing-root error if and only if `GetRules("root")` reports not found, the errors of
loading the root rules, the missing-locale error if and only if `GetRules(localeCode)`
reports not found, the errors of loading the rules of the locale.  So when rule
loading reports no error, the list contains the missing-root error exactly when the
root is missing, the missing-locale error exactly when the locale is missing, and
nothing else. -/
theorem get_translator_best_effort {Q : Type} (load : Loader Q) (source : Source)
    (fallbackLocale : String) (calls : List String) (localeCode : String) (s : Store Q)
    (hs : factoryAfter load source fallbackLocale calls = some s)
    (hL : s.f.translators localeCode = none) :
    ∃ s' t errs, ∃ tr : Translator Q,
      GetTranslator load s localeCode = some (s', t, errs) ∧
      s'.heap[t]? = some tr ∧ tr.locale = localeCode ∧
      s'.f.translators localeCode = some t ∧
      errs = (if (source.GetRules "root").2 then []
               else [⟨none, "could not find root (COMMON_DATA)"⟩]) ++
             (load ⟨none, ""⟩ (source.GetRules "root").1 false false).2 ++
             (if (source.GetRules localeCode).2 then []
               else [⟨none, "could not find rules and messages for locale " ++ localeCode⟩]) ++
             (load (load ⟨none, ""⟩ (source.GetRules "root").1 false false).1
               (source.GetRules localeCode).1 true true).2 ∧
      ((∀ r d a b, (load r d a b).2 = []) →
        ((⟨none, "could not find root (COMMON_DATA)"⟩ : translatorError) ∈ errs ↔
          (source.GetRules "root").2 = false) ∧
        ((⟨none, "could not find rules and messages for locale " ++ localeCode⟩ :
            translatorError) ∈ errs ↔ (source.GetRules localeCode).2 = false) ∧
        ∀ e ∈ errs, e = ⟨none, "could not find root (COMMON_DATA)"⟩ ∨
          e = ⟨none, "could not find rules and messages for locale " ++ localeCode⟩) := by
  obtain ⟨hinv, hsrc, _, _⟩ := factoryAfter_facts load source fallbackLocale calls s hs
  obtain ⟨s', t, e, hget, sp⟩ := GetTranslator_spec load s localeCode hinv
  obtain ⟨tr, h1, h2, _⟩ := sp.created hL
  obtain ⟨s'', t', herr⟩ := GetTranslatorFuel_errors load (localeCode.length + 1) s localeCode
    (Nat.lt_succ_self _) hinv hL
  have herr : GetTranslator load s localeCode
      = some (s'', t', creationErrors load s.f.source localeCode) := herr
  rw [hget] at herr
  simp only [Option.some.injEq, Prod.mk.injEq] at herr
  obtain ⟨_, _, he⟩ := herr
  rw [hsrc, creationErrors_eq] at he
  refine ⟨s', t, e, tr, hget, h1, h2, sp.cached, he, ?_⟩
  intro hload
  rw [he]
  simp only [hload, List.append_nil]
  have hne := root_ne_locale_error localeCode
  by_cases hr : (source.GetRules "root").2 = true <;>
    by_cases hl : (source.GetRules localeCode).2 = true <;>
    simp [hr, hl, hne, hne.symm]

/-- Witness of C13: the example source has rule data for the root but none for `fr`;
`GetTranslator("fr")` returns a Translator for `fr` and the missing-locale error. -/
theorem get_translator_best_effort_witness :
    ∃ s' t, ∃ tr : Translator Int,
      GetTranslator exampleLoad (exampleStore "en" []) "fr"
        = some (s', t, [⟨none, "could not find rules and messages for locale fr"⟩]) ∧
      s'.heap[t]? = some tr ∧ tr.locale = "fr" ∧ s'.f.translators "fr" = some t := by
  obtain ⟨s', t, errs, tr, h1, h2, h3, h4, h5, _⟩ :=
    get_translator_best_effort exampleLoad exampleSource "en" [] "fr"
      (exampleStore "en" []) rfl rfl
  have h6 : errs = [⟨none, "could not find rules and messages for locale fr"⟩] :=
    h5.trans (by decide)
  subst h6
  exact ⟨s', t, tr, h1, h2, h3, h4⟩

/-- C15 (factory construction).  `NewTranslatorFactory(source, "")` returns the fresh
factory: no Translator, an empty cache, no global fallback, and an empty error list.
For every non-empty code `G`, `NewTranslatorFactory(source, G)` returns a factory whose
global fallback is a Translator of locale `G`, the one cached under `G`, whatever the
source knows about `G`; the Translators and the cache are those left by
`GetTranslator(G)` on the fresh factory, and the errors returned are the errors of that
call, which are the errors recorded for `G` itself. -/
theorem factory_construction {Q : Type} (load : Loader Q) (source : Source) :
    NewTranslatorFactory load source "" = some (emptyStore source, []) ∧
    (emptyStore source : Store Q).heap = [] ∧
    (∀ k, (emptyStore source : Store Q).f.translators k = none) ∧
    (emptyStore source : Store Q).f.fallback = none ∧
    ∀ G, G ≠ "" →
      ∃ s errs s0 g, ∃ gt : Translator Q,
        NewTranslatorFactory load source G = some (s, errs) ∧
        s.f.fallback = some g ∧ s.heap[g]? = some gt ∧ gt.locale = G ∧
        s.f.translators G = some g ∧ s.f.source = source ∧
        GetTranslator load (emptyStore source) G = some (s0, g, errs) ∧
        s.heap = s0.heap ∧ s.f.translators = s0.f.translators ∧
        errs = creationErrors load source G := by
  refine ⟨by simp [NewTranslatorFactory, emptyStore], rfl, fun _ => rfl, rfl, ?_⟩
  intro G hG
  obtain ⟨s, errs, h1, hinv, hsrc, _, hN⟩ := NewTranslatorFactory_spec load source G
  obtain ⟨s0, g, h2, sp, hs⟩ := hN hG
  have hc : s.f.translators G = some g := by rw [hs]; exact sp.cached
  obtain ⟨gt, h3, h4⟩ := hinv.cache _ _ hc
  obtain ⟨s'', t', herr⟩ := GetTranslatorFuel_errors load (G.length + 1)
    (emptyStore source) G (Nat.lt_succ_self _) (Inv_empty source) rfl
  have herr : GetTranslator load (emptyStore source) G
      = some (s'', t', creationErrors load source G) := herr
  have h2 : GetTranslator load (emptyStore source) G = some (s0, g, errs) := h2
  rw [h2] at herr
  simp only [Option.some.injEq, Prod.mk.injEq] at herr
  exact ⟨s, errs, s0, g, gt, h1, by rw [hs], h3, h4, hc, hsrc, h2, by rw [hs], by rw [hs],
    herr.2.2⟩

/-- Witness of C15: construction over the example source with the code `fr`, for which
the source has no rule data, gives a factory whose global fallback is the Translator
for `fr`, with the missing-locale error. -/
theorem factory_construction_witness :
    ∃ s g, ∃ gt : Translator Int,
      NewTranslatorFactory exampleLoad exampleSource "fr"
        = some (s, [⟨none, "could not find rules and messages for locale fr"⟩]) ∧
      s.f.fallback = some g ∧ s.heap[g]? = some gt ∧ gt.locale = "fr" ∧
      s.f.translators "fr" = some g := by
  obtain ⟨s, errs, s0, g, gt, h1, h2, h3, h4, h5, _, _, _, _, h6⟩ :=
    (factory_construction exampleLoad exampleSource).2.2.2.2 "fr" (by decide)
  have h7 : errs = [⟨none, "could not find rules and messages for locale fr"⟩] :=
    h6.trans (by decide)
  subst h7
  exact ⟨s, g, gt, h1, h2, h3, h4, h5⟩

/-! ## The log erased -/

theorem getFallbackLoopTrace_erase {Q : Type}
    (rec' : Store Q → String → Option ((Store Q × Nat × List translatorError) × List Event))
    (rec : Store Q → String → Option (Store Q × Nat × List translatorError))
    (h : ∀ s c, (rec' s c).map Prod.fst = rec s c)
    (sep : String) (parts : List String) (s : Store Q) (fallback : Option Nat) (n : Nat) :
    (getFallbackLoopTrace rec' sep parts s fallback n).map Prod.fst
      = getFallbackLoop rec sep parts s fallback n := by
  induction n with
  | zero => rfl
  | succ n ih =>
    simp only [getFallbackLoopTrace, getFallbackLoop]
    by_cases hx : LocaleExists s.f (Join (List.take (n + 1) parts) sep) = true
    · simp only [hx, if_true]
      rw [← h s (Join (List.take (n + 1) parts) sep)]
      cases rec' s (Join (List.take (n + 1) parts) sep) with
      | none => rfl
      | some r => rfl
    · simp only [hx, if_false, Bool.false_eq_true]
      rw [← ih]
      cases getFallbackLoopTrace rec' sep parts s fallback n with
      | none => rfl
      | some r => rfl

theorem getFallbackTrace_erase {Q : Type}
    (rec' : Store Q → String → Option ((Store Q × Nat × List translatorError) × List Event))
    (rec : Store Q → String → Option (Store Q × Nat × List translatorError))
    (h : ∀ s c, (rec' s c).map Prod.fst = rec s c) (s : Store Q) (localeCode : String) :
    (getFallbackTrace rec' s localeCode).map Prod.fst = getFallback rec s localeCode := by
  simp only [getFallbackTrace, getFallback]
  cases s.f.fallback with
  | none => exact getFallbackLoopTrace_erase rec' rec h _ _ _ _ _
  | some g =>
    simp only
    cases s.heap[g]? with
    | none => rfl
    | some gt =>
      simp only
      by_cases hl : localeCode = gt.locale
      · simp only [hl, if_true, Option.map_some']
      · simp only [hl, if_false]
        exact getFallbackLoopTrace_erase rec' rec h _ _ _ _ _

/-- Forgetting the log gives the method as embedded without log. -/
theorem GetTranslatorTraceFuel_erase {Q : Type} (load : Loader Q) (fuel : Nat) :
    ∀ (s : Store Q) (localeCode : String),
      (GetTranslatorTraceFuel load fuel s localeCode).map Prod.fst
        = GetTranslatorFuel load fuel s localeCode := by
  induction fuel with
  | zero => intro s localeCode; rfl
  | succ fuel ih =>
    intro s localeCode
    have hfb := getFallbackTrace_erase (GetTranslatorTraceFuel load fuel)
      (GetTranslatorFuel load fuel) ih s localeCode
    simp only [GetTranslatorTraceFuel, GetTranslatorFuel]
    rw [← hfb]
    cases getFallbackTrace (GetTranslatorTraceFuel load fuel) s localeCode with
    | none => rfl
    | some r =>
      obtain ⟨⟨s1, fbp⟩, ev⟩ := r
      simp only [Option.map_some']
      cases s1.f.translators localeCode with
      | none => rfl
      | some t => rfl

theorem GetTranslatorTrace_erase {Q : Type} (load : Loader Q) (s : Store Q)
    (localeCode : String) :
    (GetTranslatorTrace load s localeCode).map Prod.fst = GetTranslator load s localeCode :=
  GetTranslatorTraceFuel_erase load _ s localeCode

/-! ## The cache is closed under first prefixes with rule data -/

theorem LocaleExists_congr {Q : Type} {s s' : Store Q} (h : s'.f.source = s.f.source) :
    LocaleExists s'.f = LocaleExists s.f := by
  funext p
  simp only [LocaleExists, h]

/-- After `getFallback` the store is the one before, or the one left by the call
of `GetTranslator` for the first proper prefix with rule data. -/
theorem getFallback_cases {Q : Type}
    (rec : Store Q → String → Option (Store Q × Nat × List translatorError))
    (s s1 : Store Q) (localeCode : String) (fbp : Option Nat)
    (h : getFallback rec s localeCode = some (s1, fbp)) :
    s1 = s ∨ ∃ p t e, (properPrefixes localeCode).find? (LocaleExists s.f) = some p ∧
      rec s p = some (s1, t, e) := by
  have hcont : ∀ fb0, getFallbackLoop rec "-" (Split localeCode "-") s fb0
      ((Split localeCode "-").length - 1) = some (s1, fbp) →
      s1 = s ∨ ∃ p t e, (properPrefixes localeCode).find? (LocaleExists s.f) = some p ∧
        rec s p = some (s1, t, e) := by
    intro fb0 h
    rw [getFallbackLoop_eq] at h
    change (match (properPrefixes localeCode).find? (LocaleExists s.f) with
      | none => some (s, fb0)
      | some fb =>
        match rec s fb with
        | some (s', t, _) => some (s', some t)
        | none => none) = some (s1, fbp) at h
    cases hf : (properPrefixes localeCode).find? (LocaleExists s.f) with
    | none =>
      rw [hf] at h
      simp only [Option.some.injEq, Prod.mk.injEq] at h
      exact Or.inl h.1.symm
    | some p =>
      rw [hf] at h
      simp only at h
      cases hr : rec s p with
      | none => rw [hr] at h; cases h
      | some r =>
        obtain ⟨s', t, e⟩ := r
        rw [hr] at h
        simp only [Option.some.injEq, Prod.mk.injEq] at h
        exact Or.inr ⟨p, t, e, rfl, by rw [hr, h.1]⟩
  unfold getFallback at h
  cases hg : s.f.fallback with
  | none =>
    rw [hg] at h
    exact hcont _ h
  | some g =>
    rw [hg] at h
    simp only at h
    cases hh : s.heap[g]? with
    | none => rw [hh] at h; cases h
    | some gt =>
      rw [hh] at h
      simp only at h
      by_cases hl : localeCode = gt.locale
      · rw [if_pos hl] at h
        simp only [Option.some.injEq, Prod.mk.injEq] at h
        exact Or.inl h.1.symm
      · rw [if_neg hl] at h
        exact hcont _ h

theorem GetTranslatorFuel_closed {Q : Type} (load : Loader Q) (fuel : Nat) :
    ∀ (s : Store Q) (localeCode : String), localeCode.length < fuel → Inv s → Closed s →
      ∀ s' t e, GetTranslatorFuel load fuel s localeCode = some (s', t, e) → Closed s' := by
  induction fuel with
  | zero => intro s localeCode h; omega
  | succ fuel ih =>
    intro s localeCode hlen hinv hcl s' t e hget
    obtain ⟨s1, fbp, hgf, _⟩ := getFallback_spec (GetTranslatorFuel load fuel) s localeCode
      hinv (fun fb hfb => GetTranslatorFuel_spec load fuel s fb (by omega) hinv)
    obtain ⟨hstep1, hbound⟩ := getFallback_bound load fuel s s1 localeCode fbp hlen hinv hgf
    have hcl1 : Closed s1 := by
      rcases getFallback_cases _ s s1 localeCode fbp hgf with h | ⟨p, tp, ep, hp, hrec⟩
      · rw [h]; exact hcl
      · have := properPrefixes_length _ _ (List.mem_of_find?_eq_some hp)
        exact ih s p (by omega) hinv hcl s1 tp ep hrec
    cases hc : s1.f.translators localeCode with
    | some t1 =>
      rw [GetTranslatorFuel_hit load fuel s s1 localeCode fbp t1 hgf hc] at hget
      simp only [Option.some.injEq, Prod.mk.injEq] at hget
      rw [← hget.1]
      exact hcl1
    | none =>
      obtain ⟨s2, t2, e2, hget2, sp⟩ := GetTranslatorFuel_spec load (fuel + 1) s localeCode
        hlen hinv
      rw [hget] at hget2
      simp only [Option.some.injEq, Prod.mk.injEq] at hget2
      obtain ⟨hs2, ht2, he2⟩ := hget2
      subst hs2 ht2 he2
      have hsnone : s.f.translators localeCode = none := by
        cases h : s.f.translators localeCode with
        | none => rfl
        | some t0 => rw [hstep1.mono _ _ h] at hc; cases hc
      obtain ⟨rules, e', hmiss⟩ := GetTranslatorFuel_miss load fuel s s1 localeCode fbp hgf hc
      rw [hget] at hmiss
      simp only [Option.some.injEq, Prod.mk.injEq] at hmiss
      obtain ⟨hs', _, _⟩ := hmiss
      intro k p hk hfind
      by_cases hkL : k = localeCode
      · subst hkL
        obtain ⟨tr, _, _, _, _, h5⟩ := sp.created hsnone
        rw [LocaleExists_congr sp.step.source] at hfind
        obtain ⟨q, hq⟩ := h5 p hfind
        rw [hq]
        simp
      · have hsrc : s'.f.source = s1.f.source := by rw [hs']
        rw [LocaleExists_congr hsrc] at hfind
        have hk1 : s1.f.translators k ≠ none := by
          rw [hs'] at hk
          simpa [hkL] using hk
        have hp1 := hcl1 k p hk1 hfind
        rw [hs']
        by_cases hpL : p = localeCode
        · simp [hpL]
        · simpa [hpL] using hp1

theorem callAll_closed {Q : Type} (load : Loader Q) (calls : List String) :
    ∀ s : Store Q, Inv s → Closed s → ∀ s', callAll load s calls = some s' → Closed s' := by
  induction calls with
  | nil =>
    intro s _ hcl s' h
    simp only [callAll, Option.some.injEq] at h
    rw [← h]
    exact hcl
  | cons c cs ih =>
    intro s hinv hcl s' h
    obtain ⟨s1, t, e, h1, sp⟩ := GetTranslator_spec load s c hinv
    simp only [callAll, h1] at h
    exact ih s1 (hinv.step sp.step)
      (GetTranslatorFuel_closed load _ s c (Nat.lt_succ_self _) hinv hcl s1 t e h1) s' h

theorem Closed_empty {Q : Type} (source : Source) : Closed (emptyStore source : Store Q) :=
  fun _ _ hk _ => absurd rfl hk

/-- Every store of a factory in use is closed under first prefixes with rule data. -/
theorem factoryAfter_closed {Q : Type} (load : Loader Q) (source : Source)
    (fallbackLocale : String) (calls : List String) (s : Store Q)
    (hs : factoryAfter load source fallbackLocale calls = some s) : Closed s := by
  obtain ⟨s0, errs, h1, hinv0, _, hE, hN⟩ := NewTranslatorFactory_spec load source fallbackLocale
  have hcl0 : Closed s0 := by
    by_cases hG : fallbackLocale = ""
    · rw [(hE hG).1]
      exact Closed_empty source
    · obtain ⟨s00, g, h2, _, hs0⟩ := hN hG
      have hcl00 : Closed s00 := GetTranslatorFuel_closed load _ (emptyStore source)
        fallbackLocale (Nat.lt_succ_self _) (Inv_empty source) (Closed_empty source) s00 g errs h2
      rw [hs0]
      exact fun k p hk hf => hcl00 k p hk hf
  simp only [factoryAfter, h1] at hs
  exact callAll_closed load calls s0 hinv0 hcl0 s hs

/-! ## A cache hit -/

theorem getFallbackLoopTrace_eq {Q : Type}
    (rec : Store Q → String → Option ((Store Q × Nat × List translatorError) × List Event))
    (sep : String) (parts : List String) (s : Store Q) (fallback : Option Nat) (n : Nat) :
    getFallbackLoopTrace rec sep parts s fallback n =
      match ((List.range n).reverse.map fun i => Join (parts.take (i + 1)) sep).find?
          (LocaleExists s.f) with
      | none => some ((s, fallback),
          ((List.range n).reverse.map fun i => Join (parts.take (i + 1)) sep).map
            Event.rulesQuery)
      | some fb =>
        match rec s fb with
        | some ((s', t, _), ev) => some ((s', some t),
            ((((List.range n).reverse.map fun i => Join (parts.take (i + 1)) sep).takeWhile
              fun c => !LocaleExists s.f c).map Event.rulesQuery) ++ Event.rulesQuery fb :: ev)
        | none => none := by
  induction n with
  | zero => simp [getFallbackLoopTrace]
  | succ n ih =>
    rw [getFallbackLoopTrace, List.range_succ, List.reverse_append, List.reverse_singleton,
      List.singleton_append, List.map_cons, List.find?_cons, List.takeWhile_cons]
    by_cases h : LocaleExists s.f (Join (List.take (n + 1) parts) sep) = true
    · simp only [h, if_true, Bool.not_true, Bool.false_eq_true, if_false, List.map_nil,
        List.nil_append]
    · simp only [h, if_false, Bool.false_eq_true, Bool.not_false, if_true]
      rw [ih]
      cases ((List.range n).reverse.map fun i => Join (parts.take (i + 1)) sep).find?
          (LocaleExists s.f) with
      | none => simp only [List.map_cons]
      | some fb =>
        simp only
        cases rec s fb with
        | none => rfl
        | some r => simp only [List.map_cons, List.cons_append]

theorem getFallbackTrace_global {Q : Type}
    (rec : Store Q → String → Option ((Store Q × Nat × List translatorError) × List Event))
    (s : Store Q) (localeCode : String) (g : Nat) (gt : Translator Q)
    (h1 : s.f.fallback = some g) (h2 : s.heap[g]? = some gt) (h3 : localeCode = gt.locale) :
    getFallbackTrace rec s localeCode = some ((s, none), []) := by
  simp only [getFallbackTrace, h1, h2, h3, if_true]

theorem getFallbackTrace_loop {Q : Type}
    (rec : Store Q → String → Option ((Store Q × Nat × List translatorError) × List Event))
    (s : Store Q) (localeCode : String) (hinv : Inv s) (hng : notGlobal s localeCode) :
    getFallbackTrace rec s localeCode =
      match (properPrefixes localeCode).find? (LocaleExists s.f) with
      | none => some ((s, s.f.fallback), (properPrefixes localeCode).map Event.rulesQuery)
      | some fb =>
        match rec s fb with
        | some ((s', t, _), ev) => some ((s', some t),
            (((properPrefixes localeCode).takeWhile fun c => !LocaleExists s.f c).map
              Event.rulesQuery) ++ Event.rulesQuery fb :: ev)
        | none => none := by
  have hcont := getFallbackLoopTrace_eq rec "-" (Split localeCode "-") s s.f.fallback
    ((Split localeCode "-").length - 1)
  unfold getFallbackTrace
  cases hg : s.f.fallback with
  | none =>
    rw [hg] at hcont
    exact hcont
  | some g =>
    rw [hg] at hcont
    obtain ⟨gt, h1, _⟩ := hinv.global g hg
    simp only [h1]
    rw [if_neg (hng g gt hg h1)]
    exact hcont

theorem GetTranslatorTraceFuel_of_hit {Q : Type} (load : Loader Q) (fuel : Nat)
    (s s1 : Store Q) (localeCode : String) (fbp : Option Nat) (ev : List Event) (t : Nat)
    (h1 : getFallbackTrace (GetTranslatorTraceFuel load fuel) s localeCode
      = some ((s1, fbp), ev))
    (h2 : s1.f.translators localeCode = some t) :
    GetTranslatorTraceFuel load (fuel + 1) s localeCode
      = some ((s1, t, []), Event.call localeCode :: ev) := by
  simp only [GetTranslatorTraceFuel, h1, h2]

/-- On a cached code, in a well-formed and closed store, `GetTranslator` returns the
cached Translator and leaves the store as it is; after the call itself, its log holds
calls for proper prefixes of the code only, all of them cached, and queries of the
rules of proper prefixes only. -/
theorem GetTranslatorTraceFuel_hit {Q : Type} (load : Loader Q) (fuel : Nat) :
    ∀ (s : Store Q) (localeCode : String) (t : Nat), localeCode.length < fuel → Inv s →
      Closed s → s.f.translators localeCode = some t →
      ∃ ev, GetTranslatorTraceFuel load fuel s localeCode
          = some ((s, t, []), Event.call localeCode :: ev) ∧
        (∀ e ∈ ev,
          (∃ c, e = Event.call c ∧ c ∈ properPrefixes localeCode ∧
            s.f.translators c ≠ none) ∨
          (∃ c, e = Event.rulesQuery c ∧ c ∈ properPrefixes localeCode)) ∧
        (∀ (g : Nat) (gt : Translator Q), s.f.fallback = some g → s.heap[g]? = some gt →
          localeCode = gt.locale → ev = []) := by
  induction fuel with
  | zero => intro s localeCode t h; omega
  | succ fuel ih =>
    intro s localeCode t hlen hinv hcl hL
    have hLc : s.f.translators localeCode ≠ none := by rw [hL]; simp
    by_cases hG : ∃ (g : Nat) (gt : Translator Q), s.f.fallback = some g ∧
        s.heap[g]? = some gt ∧ localeCode = gt.locale
    · obtain ⟨g, gt, h1, h2, h3⟩ := hG
      refine ⟨[],
        GetTranslatorTraceFuel_of_hit load fuel s s localeCode none [] t
          (getFallbackTrace_global _ s localeCode g gt h1 h2 h3) hL, ?_, fun _ _ _ _ _ => rfl⟩
      intro e he
      simp at he
    · have hng : notGlobal s localeCode := fun g gt h1 h2 h3 => hG ⟨g, gt, h1, h2, h3⟩
      have hloop := getFallbackTrace_loop (GetTranslatorTraceFuel load fuel) s localeCode
        hinv hng
      have habs : ∀ (ev : List Event) (g : Nat) (gt : Translator Q), s.f.fallback = some g →
          s.heap[g]? = some gt → localeCode = gt.locale → ev = [] :=
        fun _ g gt h1 h2 h3 => absurd ⟨g, gt, h1, h2, h3⟩ hG
      cases hf : (properPrefixes localeCode).find? (LocaleExists s.f) with
      | none =>
        rw [hf] at hloop
        refine ⟨_, GetTranslatorTraceFuel_of_hit load fuel s s localeCode _ _ t hloop hL, ?_,
          habs _⟩
        intro e he
        simp only [List.mem_map] at he
        obtain ⟨c, hc, he⟩ := he
        exact Or.inr ⟨c, he.symm, hc⟩
      | some p =>
        rw [hf] at hloop
        have hpm : p ∈ properPrefixes localeCode := List.mem_of_find?_eq_some hf
        have hplen := properPrefixes_length _ _ hpm
        have hpc := hcl localeCode p hLc hf
        obtain ⟨tp, htp⟩ : ∃ tp, s.f.translators p = some tp := by
          cases h : s.f.translators p with
          | none => exact absurd h hpc
          | some tp => exact ⟨tp, rfl⟩
        obtain ⟨evp, hrec, hevp, _⟩ := ih s p tp (by omega) hinv hcl htp
        simp only [hrec] at hloop
        refine ⟨_, GetTranslatorTraceFuel_of_hit load fuel s s localeCode _ _ t hloop hL, ?_,
          habs _⟩
        intro e he
        simp only [List.mem_cons, List.mem_append, List.mem_map] at he
        rcases he with ⟨c, hc, he⟩ | he | he | he
        · exact Or.inr ⟨c, he.symm, (List.takeWhile_prefix _).subset hc⟩
        · exact Or.inr ⟨p, he, hpm⟩
        · exact Or.inl ⟨p, he, hpm, hpc⟩
        · rcases hevp e he with ⟨c, h1, h2, h3⟩ | ⟨c, h1, h2⟩
          · exact Or.inl ⟨c, h1, properPrefixes_trans localeCode p c hpm h2, h3⟩
          · exact Or.inr ⟨c, h1, properPrefixes_trans localeCode p c hpm h2⟩

/-! ## Claims on a cache hit -/

/-- C18 (a cache hit leaves the factory unchanged).  In every store `s` of a factory
built by `NewTranslatorFactory` and used for any sequence of `GetTranslator` calls, and
for every code cached in `s`, `GetTranslator` returns the cached Translator with no
error and the store it leaves is `s` itself: the same Translators (each with its
fallback), the same cache, the same global fallback.  The source is a pair of functions,
so its answers are deterministic; `getFallback` runs before the cache lookup, and what
it calls are cache hits in turn. -/
theorem cache_hit_leaves_factory_unchanged {Q : Type} (load : Loader Q) (source : Source)
    (fallbackLocale : String) (calls : List String) (localeCode : String) (s : Store Q)
    (t : Nat) (hs : factoryAfter load source fallbackLocale calls = some s)
    (hL : s.f.translators localeCode = some t) :
    GetTranslator load s localeCode = some (s, t, []) := by
  obtain ⟨hinv, _⟩ := factoryAfter_facts load source fallbackLocale calls s hs
  have hcl := factoryAfter_closed load source fallbackLocale calls s hs
  obtain ⟨ev, h, _⟩ := GetTranslatorTraceFuel_hit load (localeCode.length + 1) s localeCode t
    (Nat.lt_succ_self _) hinv hcl hL
  have h' : GetTranslatorTrace load s localeCode
      = some ((s, t, []), Event.call localeCode :: ev) := h
  rw [← GetTranslatorTrace_erase, h']
  rfl

/-- Witness of C18: in the example factory after `GetTranslator("en-US-x1")`, the code
`en-US-x1` is cached at address 2 and a second call leaves the store as it is. -/
theorem cache_hit_leaves_factory_unchanged_witness :
    (exampleStore "en" ["en-US-x1"]).f.translators "en-US-x1" = some 2 ∧
    GetTranslator exampleLoad (exampleStore "en" ["en-US-x1"]) "en-US-x1"
      = some (exampleStore "en" ["en-US-x1"], 2, []) :=
  ⟨rfl, cache_hit_leaves_factory_unchanged exampleLoad exampleSource "en" ["en-US-x1"]
    "en-US-x1" (exampleStore "en" ["en-US-x1"]) 2 rfl rfl⟩

/-- C14 as worded fails: `getFallback` runs before the cache lookup.  In the example
factory after `GetTranslator("en-US-x1")`, a second `GetTranslator("en-US-x1")` is a
cache hit, and yet it queries the rules of `en-US` and of `en` and calls
`GetTranslator` for `en-US` and for `en`. -/
theorem cache_hit_short_circuits_counterexample :
    (exampleStore "en" ["en-US-x1"]).f.translators "en-US-x1" = some 2 ∧
    (GetTranslatorTrace exampleLoad (exampleStore "en" ["en-US-x1"]) "en-US-x1").map Prod.snd
      = some [Event.call "en-US-x1", Event.rulesQuery "en-US", Event.call "en-US",
          Event.rulesQuery "en", Event.call "en"] :=
  ⟨rfl, by decide⟩

/-- C14, amended (what a cache hit does).  The source is a pair of functions: it
answers `GetRules` the same way at every call.  For such a source, in every store `s`
of a factory and for every code cached in `s`, `GetTranslator` returns the cached
Translator with no error and leaves the store as it is; it records no error and
allocates nothing.  Its log
starts with the call itself; every other event is a query of the rules of a proper
hyphen-prefix of the code, or a call of `GetTranslator` for a proper hyphen-prefix that
is cached: the fallback is recomputed, by cache hits only.  For the code of the global
fallback the log is the call alone. -/
theorem cache_hit_work {Q : Type} (load : Loader Q) (source : Source)
    (fallbackLocale : String) (calls : List String) (localeCode : String) (s : Store Q)
    (t : Nat) (hs : factoryAfter load source fallbackLocale calls = some s)
    (hL : s.f.translators localeCode = some t) :
    ∃ ev, GetTranslatorTrace load s localeCode
        = some ((s, t, []), Event.call localeCode :: ev) ∧
      (∀ e ∈ ev,
        (∃ c, e = Event.call c ∧ c ∈ properPrefixes localeCode ∧ s.f.translators c ≠ none) ∨
        (∃ c, e = Event.rulesQuery c ∧ c ∈ properPrefixes localeCode)) ∧
      recordedErrors (Event.call localeCode :: ev) = [] ∧
      allocatedCodes (Event.call localeCode :: ev) = [] ∧
      (fallbackLocale ≠ "" → localeCode = fallbackLocale → ev = []) := by
  obtain ⟨hinv, _, _, hN⟩ := factoryAfter_facts load source fallbackLocale calls s hs
  have hcl := factoryAfter_closed load source fallbackLocale calls s hs
  obtain ⟨ev, h, hev, hg⟩ := GetTranslatorTraceFuel_hit load (localeCode.length + 1) s
    localeCode t (Nat.lt_succ_self _) hinv hcl hL
  have hnone : ∀ l : List Event,
      (∀ e ∈ l, (∃ c, e = Event.call c ∧ c ∈ properPrefixes localeCode ∧
          s.f.translators c ≠ none) ∨
        (∃ c, e = Event.rulesQuery c ∧ c ∈ properPrefixes localeCode)) →
      recordedErrors l = [] ∧ allocatedCodes l = [] := by
    intro l
    induction l with
    | nil => intro _; exact ⟨rfl, rfl⟩
    | cons a l ih =>
      intro hl
      obtain ⟨h1, h2⟩ := ih (fun e he => hl e (List.mem_cons_of_mem _ he))
      rcases hl a (List.mem_cons_self _ _) with ⟨c, rfl, _⟩ | ⟨c, rfl, _⟩
      · exact ⟨h1, h2⟩
      · exact ⟨h1, h2⟩
  refine ⟨ev, h, hev, (hnone ev hev).1, (hnone ev hev).2, ?_⟩
  intro hG hLG
  obtain ⟨g, gt, h1, _, h3, h4⟩ := hN hG
  exact hg g gt h1 h3 (by rw [h4, hLG])

/-- Witness of C14, amended: in the example factory after `GetTranslator("en-US-x1")`
the second call for `en-US-x1` records and allocates nothing, and the call for `en`,
the code of the global fallback, does nothing beyond the cache lookup. -/
theorem cache_hit_work_witness :
    (∃ ev, GetTranslatorTrace exampleLoad (exampleStore "en" ["en-US-x1"]) "en-US-x1"
        = some ((exampleStore "en" ["en-US-x1"], 2, []), Event.call "en-US-x1" :: ev) ∧
      recordedErrors (Event.call "en-US-x1" :: ev) = [] ∧
      allocatedCodes (Event.call "en-US-x1" :: ev) = []) ∧
    GetTranslatorTrace exampleLoad (exampleStore "en" ["en-US-x1"]) "en"
      = some ((exampleStore "en" ["en-US-x1"], 0, []), [Event.call "en"]) := by
  obtain ⟨ev, h1, _, h3, h4, _⟩ := cache_hit_work exampleLoad exampleSource "en"
    ["en-US-x1"] "en-US-x1" (exampleStore "en" ["en-US-x1"]) 2 rfl rfl
  obtain ⟨ev', h1', _, _, _, h5⟩ := cache_hit_work exampleLoad exampleSource "en"
    ["en-US-x1"] "en" (exampleStore "en" ["en-US-x1"]) 0 rfl rfl
  rw [h5 (by decide) rfl] at h1'
  exact ⟨⟨ev, h1, h3, h4⟩, h1'⟩

/-! ## Claims on the errors of fallback resolution -/

theorem recordedErrors_append (a b : List Event) :
    recordedErrors (a ++ b) = recordedErrors a ++ recordedErrors b :=
  List.filterMap_append _ _ _

theorem allocatedCodes_append (a b : List Event) :
    allocatedCodes (a ++ b) = allocatedCodes a ++ allocatedCodes b :=
  List.filterMap_append _ _ _

theorem recordedErrors_map (l : List translatorError) :
    recordedErrors (l.map Event.recorded) = l := by
  induction l with
  | nil => rfl
  | cons a l ih =>
    have : recordedErrors (Event.recorded a :: l.map Event.recorded)
        = a :: recordedErrors (l.map Event.recorded) := rfl
    rw [List.map_cons, this, ih]

theorem allocatedCodes_map (l : List translatorError) :
    allocatedCodes (l.map Event.recorded) = [] := by
  induction l with
  | nil => rfl
  | cons a l ih =>
    have : allocatedCodes (Event.recorded a :: l.map Event.recorded)
        = allocatedCodes (l.map Event.recorded) := rfl
    rw [List.map_cons, this, ih]

/-- On a code that is not cached after `getFallback`, `GetTranslator` returns the
errors it records for the code itself; its log records the errors of `getFallback`
before them. -/
theorem GetTranslatorTraceFuel_miss {Q : Type} (load : Loader Q) (fuel : Nat)
    (s s1 : Store Q) (localeCode : String) (fbp : Option Nat) (evfb : List Event)
    (h1 : getFallbackTrace (GetTranslatorTraceFuel load fuel) s localeCode
      = some ((s1, fbp), evfb))
    (h2 : s1.f.translators localeCode = none) :
    ∃ s2 t ev, GetTranslatorTraceFuel load (fuel + 1) s localeCode
        = some ((s2, t, creationErrors load s1.f.source localeCode), ev) ∧
      recordedErrors ev = recordedErrors evfb ++ creationErrors load s1.f.source localeCode ∧
      allocatedCodes ev = allocatedCodes evfb ++ [localeCode] := by
  simp only [GetTranslatorTraceFuel, h1, h2, creationErrors]
  refine ⟨_, _, _, rfl, ?_, ?_⟩
  · have hc : ∀ l : List Event, recordedErrors (Event.call localeCode :: l)
        = recordedErrors l := fun _ => rfl
    have hq : ∀ c, recordedErrors [Event.rulesQuery c] = [] := fun _ => rfl
    have ha : ∀ c, recordedErrors [Event.allocated c] = [] := fun _ => rfl
    simp only [hc, recordedErrors_append, recordedErrors_map, hq, ha, List.append_nil,
      List.append_assoc]
    by_cases hr : (s1.f.source.GetRules COMMON_DATA).2 = true <;>
      by_cases hl : (s1.f.source.GetRules localeCode).2 = true <;>
      simp [hr, hl]
  · have hc : ∀ l : List Event, allocatedCodes (Event.call localeCode :: l)
        = allocatedCodes l := fun _ => rfl
    have hq : ∀ c, allocatedCodes [Event.rulesQuery c] = [] := fun _ => rfl
    have ha : ∀ c, allocatedCodes [Event.allocated c] = [c] := fun _ => rfl
    simp only [hc, allocatedCodes_append, allocatedCodes_map, hq, ha, List.append_nil,
      List.nil_append, List.append_assoc]

/-- C17 (errors of fallback resolution are accumulated) fails on the code: the errors
of the calls that `getFallback` makes are dropped (`fallback, _ = f.GetTranslator(fb)`).  Over a source without root rules whose rule data for `en` the loader
rejects, `GetTranslator("en-US")` on the fresh factory allocates the Translators for
`en` and for `en-US`; the missing-root error is recorded twice and the loader error
once, and the call returns one missing-root error only. -/
theorem fallback_errors_accumulated_counterexample :
    NewTranslatorFactory strictLoad brokenSource "" = some (emptyStore brokenSource, []) ∧
    (emptyStore brokenSource : Store Int).f.translators "en-US" = none ∧
    ∃ s t errs ev,
      GetTranslatorTrace strictLoad (emptyStore brokenSource) "en-US"
        = some ((s, t, errs), ev) ∧
      GetTranslator strictLoad (emptyStore brokenSource) "en-US" = some (s, t, errs) ∧
      allocatedCodes ev = ["en", "en-US"] ∧
      recordedErrors ev = [⟨none, "could not find root (COMMON_DATA)"⟩,
        ⟨none, "invalid rule data"⟩, ⟨none, "could not find root (COMMON_DATA)"⟩] ∧
      errs = [⟨none, "could not find root (COMMON_DATA)"⟩] ∧
      (⟨none, "invalid rule data"⟩ : translatorError) ∈ recordedErrors ev ∧
      (⟨none, "invalid rule data"⟩ : translatorError) ∉ errs :=
  ⟨rfl, rfl, _, _, _, _, rfl, rfl, by decide, by decide, rfl, by decide, by decide⟩

/-- The errors `GetTranslator` returns are those of the code itself.  In every store
`s` of a factory and for every code that is not cached, `GetTranslator` returns exactly
the errors it records for the code itself: the missing-root error, the errors of
loading the root rules, the missing-locale error, the errors of loading the rules of
the locale.  Whatever `getFallback` records before, in the calls that create the
Translators of shorter prefixes, is in the log of the call and not in the list
returned. -/
theorem own_errors_returned {Q : Type} (load : Loader Q) (source : Source)
    (fallbackLocale : String) (calls : List String) (localeCode : String) (s : Store Q)
    (hs : factoryAfter load source fallbackLocale calls = some s)
    (hL : s.f.translators localeCode = none) :
    ∃ s' t errs ev s1 fbp evfb,
      GetTranslatorTrace load s localeCode = some ((s', t, errs), ev) ∧
      GetTranslator load s localeCode = some (s', t, errs) ∧
      getFallbackTrace (GetTranslatorTraceFuel load localeCode.length) s localeCode
        = some ((s1, fbp), evfb) ∧
      errs = creationErrors load source localeCode ∧
      recordedErrors ev = recordedErrors evfb ++ errs ∧
      allocatedCodes ev = allocatedCodes evfb ++ [localeCode] := by
  obtain ⟨hinv, hsrc, _, _⟩ := factoryAfter_facts load source fallbackLocale calls s hs
  obtain ⟨s1, fbp, hgf, _⟩ := getFallback_spec (GetTranslatorFuel load localeCode.length) s
    localeCode hinv
    (fun fb hfb => GetTranslatorFuel_spec load localeCode.length s fb (by omega) hinv)
  obtain ⟨hstep, hbound⟩ := getFallback_bound load localeCode.length s s1 localeCode fbp
    (Nat.lt_succ_self _) hinv hgf
  have hc : s1.f.translators localeCode = none := by
    cases h : s1.f.translators localeCode with
    | none => rfl
    | some t0 =>
      have := hbound localeCode hL (by rw [h]; simp)
      omega
  have her := getFallbackTrace_erase (GetTranslatorTraceFuel load localeCode.length)
    (GetTranslatorFuel load localeCode.length)
    (GetTranslatorTraceFuel_erase load localeCode.length) s localeCode
  rw [hgf] at her
  cases hfbt : getFallbackTrace (GetTranslatorTraceFuel load localeCode.length) s localeCode with
  | none => rw [hfbt] at her; cases her
  | some r =>
    obtain ⟨⟨s1', fbp'⟩, evfb⟩ := r
    rw [hfbt] at her
    simp only [Option.map_some', Option.some.injEq, Prod.mk.injEq] at her
    obtain ⟨hs1, hfbp⟩ := her
    subst hs1 hfbp
    obtain ⟨s2, t, ev, hget, hrec, hall⟩ := GetTranslatorTraceFuel_miss load localeCode.length
      s s1' localeCode fbp' evfb hfbt hc
    rw [hstep.source, hsrc] at hget hrec
    have hget' : GetTranslatorTrace load s localeCode
        = some ((s2, t, creationErrors load source localeCode), ev) := hget
    refine ⟨s2, t, _, ev, s1', fbp', evfb, hget', ?_, rfl, rfl, hrec, hall⟩
    rw [← GetTranslatorTrace_erase, hget']
    rfl

/-- An instance of `own_errors_returned`: over the source without root rules,
`GetTranslator("en-US")` on the fresh factory returns the one missing-root error
recorded for `en-US` itself. -/
theorem own_errors_returned_witness :
    ∃ s' t ev dropped,
      GetTranslatorTrace strictLoad (emptyStore brokenSource) "en-US"
        = some ((s', t, [⟨none, "could not find root (COMMON_DATA)"⟩]), ev) ∧
      recordedErrors ev = dropped ++ [⟨none, "could not find root (COMMON_DATA)"⟩] := by
  obtain ⟨s', t, errs, ev, s1, fbp, evfb, h1, _, _, h4, h5, _⟩ :=
    own_errors_returned strictLoad brokenSource "" [] "en-US" (emptyStore brokenSource)
      rfl rfl
  have h6 : errs = [⟨none, "could not find root (COMMON_DATA)"⟩] := h4.trans (by decide)
  subst h6
  exact ⟨s', t, ev, recordedErrors evfb, h1, h5⟩

/-! ## What `strings.Replace` computes -/

theorem replaceFrom_skip (old new : List Char) (x b : List Char) :
    replaceFrom old new x.length (x ++ b) = replaceFrom old new 0 b := by
  induction x with
  | nil => rfl
  | cons c x ih =>
    simp only [List.length_cons, List.cons_append, replaceFrom]
    exact ih

/-- At the first occurrence of `old`, `replaceFrom` copies what precedes it, puts `new`
and goes on behind the occurrence. -/
theorem replaceFrom_first (old new : List Char) (hold : old ≠ []) (b : List Char) :
    ∀ a : List Char, ¬ old <:+: a ++ old.dropLast →
      replaceFrom old new 0 (a ++ old ++ b) = a ++ new ++ replaceFrom old new 0 b := by
  intro a
  induction a with
  | nil =>
    intro _
    obtain ⟨c, cs, rfl⟩ : ∃ c cs, old = c :: cs := by
      cases old with
      | nil => exact absurd rfl hold
      | cons c cs => exact ⟨c, cs, rfl⟩
    have hp : (c :: cs).isPrefixOf (c :: (cs ++ b)) = true :=
      List.isPrefixOf_iff_prefix.mpr ⟨b, rfl⟩
    have hrf : replaceFrom (c :: cs) new 0 (c :: (cs ++ b))
        = new ++ replaceFrom (c :: cs) new cs.length (cs ++ b) := by
      rw [replaceFrom, if_pos hp]
      rfl
    rw [List.nil_append, List.nil_append, List.cons_append, hrf, replaceFrom_skip]
  | cons c a ih =>
    intro h
    have hsplit : old.dropLast ++ [old.getLast hold] = old := List.dropLast_append_getLast hold
    have hnp : ¬ old.isPrefixOf (c :: a ++ old ++ b) = true := by
      intro hp
      have hp := List.isPrefixOf_iff_prefix.mp hp
      have hq : (c :: a ++ old.dropLast) <+: (c :: a ++ old ++ b) := by
        refine ⟨[old.getLast hold] ++ b, ?_⟩
        rw [← List.append_assoc, List.append_assoc (c :: a), hsplit]
      have hlen : old.length ≤ (c :: a ++ old.dropLast).length := by
        simp only [List.length_append, List.length_cons, List.length_dropLast]
        omega
      exact h (List.prefix_of_prefix_length_le hp hq hlen).isInfix
    have hrec : ¬ old <:+: a ++ old.dropLast := fun hi =>
      h (List.infix_cons hi)
    have := ih hrec
    simp only [List.cons_append] at hnp ⊢
    rw [replaceFrom, if_neg hnp]
    simp only [List.append_assoc] at this ⊢
    rw [this]

/-- `strings.Replace` at the first occurrence of a non-empty `old`: when `old` does not
occur in `a` followed by `old` without its last character, the occurrence behind `a`
is the first one; it is replaced and the replacement goes on in `b`. -/
theorem Replace_first (a old b new : String) (hold : old.data ≠ [])
    (h : occursIn old (a ++ ⟨old.data.dropLast⟩) = false) :
    Replace (a ++ old ++ b) old new = a ++ new ++ Replace b old new := by
  simp only [occursIn, decide_eq_false_iff_not, String.data_append] at h
  simp only [Replace, hold, if_false]
  apply String.ext
  simp only [String.data_append]
  exact replaceFrom_first old.data new.data hold b.data a.data h

/-- The two equations that determine `Replace(·, "{n}", s)`: at the first occurrence of
the placeholder, and without occurrence. -/
theorem Replace_n_first (a b s : String) (h : occursIn "\x7bn\x7d" (a ++ "\x7bn") = false) :
    Replace (a ++ "\x7bn\x7d" ++ b) "\x7bn\x7d" s = a ++ s ++ Replace b "\x7bn\x7d" s :=
  Replace_first a "\x7bn\x7d" b s (by decide) h

theorem placeholder_dropLast (name : String) :
    (⟨(placeholder name).data.dropLast⟩ : String) = "\x7b" ++ name := by
  apply String.ext
  simp only [placeholder, String.data_append]
  exact List.dropLast_concat

theorem Replace_placeholder_first (name value a b : String)
    (h : occursIn (placeholder name) (a ++ ("\x7b" ++ name)) = false) :
    Replace (a ++ placeholder name ++ b) (placeholder name) value
      = a ++ value ++ Replace b (placeholder name) value := by
  refine Replace_first a (placeholder name) b value (placeholder_data_ne_nil name) ?_
  rw [placeholder_dropLast]
  exact h

/-- A text in which `old` occurs splits at the first occurrence of `old`. -/
theorem first_occurrence (old : List Char) (hold : old ≠ []) :
    ∀ s : List Char, old <:+: s →
      ∃ a b, s = a ++ old ++ b ∧ ¬ old <:+: a ++ old.dropLast := by
  have hsplit : old.dropLast ++ [old.getLast hold] = old := List.dropLast_append_getLast hold
  have hlen : old.dropLast.length < old.length := by
    have := List.length_pos.mpr hold
    simp only [List.length_dropLast]
    omega
  intro s
  induction s with
  | nil =>
    intro h
    exact absurd (List.eq_nil_of_infix_nil h) hold
  | cons c cs ih =>
    intro h
    by_cases hp : old <+: c :: cs
    · obtain ⟨b, hb⟩ := hp
      refine ⟨[], b, by simpa using hb.symm, ?_⟩
      intro hi
      have := hi.length_le
      simp only [List.nil_append] at this
      omega
    · have hcs : old <:+: cs := by
        rcases List.infix_cons_iff.mp h with h | h
        · exact absurd h hp
        · exact h
      obtain ⟨a, b, hs, hno⟩ := ih hcs
      refine ⟨c :: a, b, by simp [hs], ?_⟩
      intro hi
      rcases List.infix_cons_iff.mp hi with hpre | hin
      · apply hp
        have hpre : old <+: c :: (a ++ old.dropLast) := hpre
        refine hpre.trans ⟨[old.getLast hold] ++ b, ?_⟩
        have h2 : a ++ old.dropLast ++ ([old.getLast hold] ++ b) = a ++ old ++ b := by
          rw [← List.append_assoc, List.append_assoc a, hsplit]
        rw [hs, List.cons_append, h2]
      · exact hno hin

/-- The equations `Replace_absent` and `Replace_first` determine `Replace` for a
non-empty `old`: a function that satisfies them is `Replace`. -/
theorem Replace_unique (old new : String) (hold : old.data ≠ []) (f : String → String)
    (habs : ∀ v, occursIn old v = false → f v = v)
    (hocc : ∀ a b, occursIn old (a ++ ⟨old.data.dropLast⟩) = false →
      f (a ++ old ++ b) = a ++ new ++ f b) :
    ∀ v, f v = Replace v old new := by
  suffices h : ∀ n, ∀ v : String, v.data.length ≤ n → f v = Replace v old new from
    fun v => h v.data.length v (le_refl _)
  intro n
  induction n with
  | zero =>
    intro v hv
    have hnil : v.data = [] := List.length_eq_zero.mp (Nat.le_zero.mp hv)
    have hno : occursIn old v = false := by
      simp only [occursIn, decide_eq_false_iff_not, hnil]
      intro h
      exact hold (List.eq_nil_of_infix_nil h)
    rw [habs v hno, Replace_absent v old new hold hno]
  | succ n ih =>
    intro v hv
    cases ho : occursIn old v with
    | false => rw [habs v ho, Replace_absent v old new hold ho]
    | true =>
      simp only [occursIn, decide_eq_true_eq] at ho
      obtain ⟨a, b, hs, hno⟩ := first_occurrence old.data hold v.data ho
      have hv' : v = (⟨a⟩ : String) ++ old ++ ⟨b⟩ := by
        apply String.ext
        simp only [String.data_append]
        exact hs
      have hno' : occursIn old ((⟨a⟩ : String) ++ ⟨old.data.dropLast⟩) = false := by
        simp only [occursIn, decide_eq_false_iff_not, String.data_append]
        exact hno
      have hb : (⟨b⟩ : String).data.length ≤ n := by
        have := congrArg List.length hs
        have hpos := List.length_pos.mpr hold
        simp only [List.length_append] at this
        simp only
        omega
      rw [hv', hocc _ _ hno', Replace_first _ _ _ _ hold hno', ih ⟨b⟩ hb]

/-! ## Claims on Pluralize with the replacement spelt out -/

/-- C8 (Pluralize picks the variant of the plural form).  Let the Translator at `t`
have the key with message `m` and the plural rule function `rule`, and let
`form = rule q` satisfy `0 ≤ form < len(split(m, "|"))`.  Then the variant number
`form` exists and `Pluralize(key, q, s)` returns it with every occurrence of the
placeholder of `n` replaced by `s`; the only error it can report is the `substitution
not found` error of a variant without the placeholder, so there is no `too few plural
variations` error, and no error at all when the variant contains the placeholder.
The replacement is spelt out by two equations, which determine it (`Replace_unique`):
a text without the placeholder is left as it is, and in `a ++ "{n}" ++ b`, where the
placeholder behind `a` is the first occurrence, the result is `a`, then `s`, then the
replacement in `b`; so every occurrence is replaced, from the left. -/
theorem pluralize_picks_variant {Q : Type} (heap : List (Translator Q)) (t : Nat)
    (tr : Translator Q) (key m : String) (rule : Q → Int) (q : Q) (s : String)
    (ht : heap[t]? = some tr) (hm : tr.messages key tr.locale = (m, true))
    (hr : tr.rules.PluralRuleFunc = some rule)
    (h0 : 0 ≤ rule q) (h1 : rule q < ((Split m "|").length : Int)) :
    ∃ variant, (Split m "|")[(rule q).toNat]? = some variant ∧
      (∀ fuel, Pluralize heap (fuel + 1) t key q s
        = some (Replace variant "\x7bn\x7d" s,
            if Index variant "\x7bn\x7d" = -1 then
              [⟨some t, "substitution not found: " ++ variant ++ ", " ++ s⟩]
            else [])) ∧
      (∀ fuel res errs, Pluralize heap (fuel + 1) t key q s = some (res, errs) →
        ∀ e ∈ errs, e.message ≠ "too few plural variations: " ++ key) ∧
      (Index variant "\x7bn\x7d" ≠ -1 →
        ∀ fuel, Pluralize heap (fuel + 1) t key q s
          = some (Replace variant "\x7bn\x7d" s, [])) ∧
      (occursIn "\x7bn\x7d" variant = true →
        ∀ fuel, Pluralize heap (fuel + 1) t key q s
          = some (Replace variant "\x7bn\x7d" s, [])) ∧
      (∀ v : String, occursIn "\x7bn\x7d" v = false → Replace v "\x7bn\x7d" s = v) ∧
      (∀ a b : String, occursIn "\x7bn\x7d" (a ++ "\x7bn") = false →
        Replace (a ++ "\x7bn\x7d" ++ b) "\x7bn\x7d" s
          = a ++ s ++ Replace b "\x7bn\x7d" s) := by
  have hlt : (rule q).toNat < (Split m "|").length := by omega
  have hnc : ¬ rule q > ((Split m "|").length : Int) - 1 := by omega
  have hn0 : ¬ rule q < 0 := by omega
  have hmain : ∀ fuel, Pluralize heap (fuel + 1) t key q s
      = some (Replace (Split m "|")[(rule q).toNat] "\x7bn\x7d" s,
          if Index (Split m "|")[(rule q).toNat] "\x7bn\x7d" = -1 then
            [⟨some t, "substitution not found: " ++ (Split m "|")[(rule q).toNat] ++ ", "
              ++ s⟩]
          else []) := by
    intro fuel
    rw [Pluralize_own heap fuel t key q s tr m rule ht hm hr]
    simp only [hnc, if_false, hn0, List.getElem?_eq_getElem hlt, substitute_n,
      List.nil_append]
  refine ⟨(Split m "|")[(rule q).toNat], List.getElem?_eq_getElem hlt, hmain, ?_, ?_, ?_,
    fun v hv => Replace_absent v _ s (by decide) hv, fun a b h => Replace_n_first a b s h⟩
  · intro fuel res errs hp e he
    rw [hmain fuel] at hp
    simp only [Option.some.injEq, Prod.mk.injEq] at hp
    obtain ⟨_, rfl⟩ := hp
    split at he
    · simp only [List.mem_singleton] at he
      rw [he]
      simp only [String.append_assoc]
      exact substitution_ne_too_few _ _
    · simp at he
  · intro hidx fuel
    rw [hmain fuel, if_neg hidx]
  · intro hocc fuel
    have hidx : Index (Split m "|")[(rule q).toNat] "\x7bn\x7d" ≠ -1 := by
      intro h
      rw [(Index_eq_neg_one_iff _ _).mp h] at hocc
      cases hocc
    rw [hmain fuel, if_neg hidx]

/-- Witness of C8, the example of the specification: the message
`{n} item|{n} items` of `item_count` with the rule function `1 ↦ 0`, else `1`; and the
message `{n} of {n} item|{n} of {n} items`, in which both occurrences of the
placeholder are replaced. -/
theorem pluralize_picks_variant_witness :
    Pluralize (exampleStore "en" []).heap 1 0 "item_count" 1 "1" = some ("1 item", []) ∧
    Pluralize (exampleStore "en" []).heap 1 0 "item_count" 5 "5" = some ("5 items", []) ∧
    Pluralize (pluralStore 1).heap 1 0 "ratio" 5 "5" = some ("5 of 5 items", []) := by
  refine ⟨?_, ?_, ?_⟩
  · obtain ⟨v, hv, hmain, _⟩ := pluralize_picks_variant (exampleStore "en" []).heap 0
      { messages := exampleSource.GetMessages, locale := "en",
        rules := (exampleLoad (exampleLoad ⟨none, ""⟩ [] false false).1 [] true true).1,
        fallback := none }
      "item_count" "\x7bn\x7d item|\x7bn\x7d items" (fun n => if n = 1 then 0 else 1) 1 "1"
      rfl rfl rfl (by decide) (by decide)
    have hv' : v = "\x7bn\x7d item" := Option.some.inj (hv.symm.trans (by decide))
    subst hv'
    exact (hmain 0).trans (by decide)
  · obtain ⟨v, hv, hmain, _⟩ := pluralize_picks_variant (exampleStore "en" []).heap 0
      { messages := exampleSource.GetMessages, locale := "en",
        rules := (exampleLoad (exampleLoad ⟨none, ""⟩ [] false false).1 [] true true).1,
        fallback := none }
      "item_count" "\x7bn\x7d item|\x7bn\x7d items" (fun n => if n = 1 then 0 else 1) 5 "5"
      rfl rfl rfl (by decide) (by decide)
    have hv' : v = "\x7bn\x7d items" := Option.some.inj (hv.symm.trans (by decide))
    subst hv'
    exact (hmain 0).trans (by decide)
  · obtain ⟨v, hv, hmain, _⟩ := pluralize_picks_variant (pluralStore 1).heap 0
      { messages := pluralSource.GetMessages, locale := "en",
        rules := (constantLoad 1 (constantLoad 1 ⟨none, ""⟩ [] false false).1 [] true true).1,
        fallback := none }
      "ratio" "\x7bn\x7d of \x7bn\x7d item|\x7bn\x7d of \x7bn\x7d items" (fun _ => 1) 5 "5"
      rfl rfl rfl (by decide) (by decide)
    have hv' : v = "\x7bn\x7d of \x7bn\x7d items" :=
      Option.some.inj (hv.symm.trans (by decide))
    subst hv'
    exact (hmain 0).trans (by decide)

/-- C9 as worded fails: the clamped result can be the empty string.  The message `a|`
has the two variants `a` and the empty string; with the rule function constantly `5`
the form index is clamped to the last variant, and `Pluralize` returns the empty
string, with the `too few plural variations` error first. -/
theorem pluralize_clamps_counterexample :
    (pluralStore 5).heap.map (fun t => (t.locale, t.fallback)) = [("en", none)] ∧
    pluralSource.GetMessages "tail" "en" = ("a|", true) ∧
    Split "a|" "|" = ["a", ""] ∧
    ((Split "a|" "|").length : Int) ≤ 5 ∧
    Pluralize (pluralStore 5).heap 1 0 "tail" 7 "7"
      = some ("", [⟨some 0, "too few plural variations: tail"⟩,
          ⟨some 0, "substitution not found: , 7"⟩]) := by
  decide

/-- C9, amended (Pluralize clamps a too-large form index).  Let the Translator at `t`
have the key with message `m` and the plural rule function `rule`, and let
`rule q ≥ len(split(m, "|"))`.  Then `Pluralize(key, q, s)` returns the last variant
with every occurrence of the placeholder of `n` replaced by `s`: the best-effort
string, which is not empty when the last variant and `s` are not empty, and is the
empty string when the last variant is.  Its error list starts with the `too few plural
variations` error that names the key and refers to `t` (its `Error()` text carries the
locale of `t`); what follows, at most the `substitution not found` error, is no such
error.  The replacement is spelt out by the two equations that determine it
(`Replace_unique`): a text without the placeholder is left as it is, and in
`a ++ "{n}" ++ b`, where the placeholder behind `a` is the first occurrence, the result
is `a`, then `s`, then the replacement in `b`. -/
theorem pluralize_clamps {Q : Type} (heap : List (Translator Q)) (t : Nat)
    (tr : Translator Q) (key m : String) (rule : Q → Int) (q : Q) (s : String)
    (ht : heap[t]? = some tr) (hm : tr.messages key tr.locale = (m, true))
    (hr : tr.rules.PluralRuleFunc = some rule)
    (h : ((Split m "|").length : Int) ≤ rule q) :
    ∃ last rest, (Split m "|").getLast? = some last ∧
      (∀ fuel, Pluralize heap (fuel + 1) t key q s
        = some (Replace last "\x7bn\x7d" s,
            ⟨some t, "too few plural variations: " ++ key⟩ :: rest)) ∧
      rest = (if Index last "\x7bn\x7d" = -1 then
          [⟨some t, "substitution not found: " ++ last ++ ", " ++ s⟩] else []) ∧
      (∀ e ∈ rest, e.message ≠ "too few plural variations: " ++ key) ∧
      translatorError.Error heap ⟨some t, "too few plural variations: " ++ key⟩
        = some ("translator error (locale: " ++ tr.locale ++ ") - "
            ++ ("too few plural variations: " ++ key)) ∧
      (last ≠ "" → s ≠ "" → Replace last "\x7bn\x7d" s ≠ "") ∧
      (last = "" → Replace last "\x7bn\x7d" s = "") ∧
      (∀ v : String, occursIn "\x7bn\x7d" v = false → Replace v "\x7bn\x7d" s = v) ∧
      (∀ a b : String, occursIn "\x7bn\x7d" (a ++ "\x7bn") = false →
        Replace (a ++ "\x7bn\x7d" ++ b) "\x7bn\x7d" s
          = a ++ s ++ Replace b "\x7bn\x7d" s) := by
  have hne : Split m "|" ≠ [] := Split_ne_nil m "|" (by decide)
  have hpos : 0 < (Split m "|").length := List.length_pos.mpr hne
  have hc : rule q > ((Split m "|").length : Int) - 1 := by omega
  have hn0 : ¬ (((Split m "|").length : Int) - 1 < 0) := by omega
  have hidx : (((Split m "|").length : Int) - 1).toNat = (Split m "|").length - 1 := by
    omega
  have hlt : (Split m "|").length - 1 < (Split m "|").length := by omega
  refine ⟨(Split m "|")[(Split m "|").length - 1], _, ?_, ?_, rfl, ?_, ?_, ?_, ?_,
    fun v hv => Replace_absent v _ s (by decide) hv, fun a b h => Replace_n_first a b s h⟩
  · rw [List.getLast?_eq_getElem?, List.getElem?_eq_getElem hlt]
  · intro fuel
    rw [Pluralize_own heap fuel t key q s tr m rule ht hm hr]
    simp only [hc, if_true, hn0, if_false, hidx, List.getElem?_eq_getElem hlt, substitute_n,
      List.singleton_append]
  · intro e he
    split at he
    · simp only [List.mem_singleton] at he
      rw [he]
      simp only [String.append_assoc]
      exact substitution_ne_too_few _ _
    · simp at he
  · simp only [translatorError.Error, ht]
  · intro h1 h2
    exact Replace_ne_empty _ _ _ (by decide) h1 h2
  · intro h1
    rw [h1]
    rfl

/-- Witness of C9, amended: the rule function returns the form 3 for messages of two
variants; the last variant is used, both occurrences of the placeholder in
`{n} of {n} items` are replaced, and the error is reported. -/
theorem pluralize_clamps_witness :
    Pluralize (constantStore 3).heap 1 0 "item_count" 7 "7"
      = some ("7 items", [⟨some 0, "too few plural variations: item_count"⟩]) ∧
    translatorError.Error (constantStore 3).heap
        ⟨some 0, "too few plural variations: item_count"⟩
      = some "translator error (locale: en) - too few plural variations: item_count" ∧
    Pluralize (pluralStore 3).heap 1 0 "ratio" 7 "7"
      = some ("7 of 7 items", [⟨some 0, "too few plural variations: ratio"⟩]) := by
  obtain ⟨last, rest, hlast, hmain, hrest, _, herr, _⟩ :=
    pluralize_clamps (constantStore 3).heap 0
      { messages := exampleSource.GetMessages, locale := "en",
        rules := (constantLoad 3 (constantLoad 3 ⟨none, ""⟩ [] false false).1 [] true true).1,
        fallback := none }
      "item_count" "\x7bn\x7d item|\x7bn\x7d items" (fun _ => 3) 7 "7"
      rfl rfl rfl (by decide)
  have hl : last = "\x7bn\x7d items" := Option.some.inj (hlast.symm.trans (by decide))
  subst hl
  subst hrest
  obtain ⟨last', rest', hlast', hmain', hrest', _⟩ :=
    pluralize_clamps (pluralStore 3).heap 0
      { messages := pluralSource.GetMessages, locale := "en",
        rules := (constantLoad 3 (constantLoad 3 ⟨none, ""⟩ [] false false).1 [] true true).1,
        fallback := none }
      "ratio" "\x7bn\x7d of \x7bn\x7d item|\x7bn\x7d of \x7bn\x7d items" (fun _ => 3) 7 "7"
      rfl rfl rfl (by decide)
  have hl' : last' = "\x7bn\x7d of \x7bn\x7d items" :=
    Option.some.inj (hlast'.symm.trans (by decide))
  subst hl'
  subst hrest'
  exact ⟨(hmain 0).trans (by decide), herr.trans (by decide), (hmain' 0).trans (by decide)⟩

/-! ## The postcondition of substitute with the replacement spelt out -/

/-- C11 (postcondition of `substitute`).  For every template and every list of pairs
(the pairs of the mapping in the order of iteration): `substitute` returns what the
specification says (`substituteSpec`: the successive replacement of the placeholders in
that order, and one `substitution not found` error for exactly the pairs whose
placeholder does not occur in the original template); for another order of the same
pairs the errors are the same up to their order, so their number is the same; for a
single pair the result is the template with the placeholder replaced, with an error
iff the placeholder does not occur; for no pair the template is returned with no
error; and the two examples of the specification hold.  Each replacement is spelt out
by the two equations that determine it (`Replace_unique`): a text without the
placeholder is left as it is, and in `a ++ "{name}" ++ b`, where the placeholder behind
`a` is the first occurrence, the result is `a`, then the value, then the replacement in
`b`; so all occurrences are replaced, from the left, as in the template
`{a}-{b}-{a}`. -/
theorem substitute_postcondition (t : Nat) (template : String)
    (pairs : List (String × String)) :
    substitute t template pairs = substituteSpec t template pairs ∧
    (∀ pairs' : List (String × String), pairs'.Perm pairs →
      (substitute t template pairs').2.Perm (substitute t template pairs).2 ∧
      (substitute t template pairs').2.length = (substitute t template pairs).2.length) ∧
    (∀ name value : String, substitute t template [(name, value)]
      = (Replace template (placeholder name) value,
         if occursIn (placeholder name) template then []
         else [⟨some t, "substitution not found: " ++ template ++ ", " ++ value⟩])) ∧
    substitute t template [] = (template, []) ∧
    substitute t "Hello \x7bname\x7d" [("name", "World")] = ("Hello World", []) ∧
    substitute t "Hello \x7bname\x7d" [("place", "X")]
      = ("Hello \x7bname\x7d",
         [⟨some t, "substitution not found: Hello \x7bname\x7d, X"⟩]) ∧
    (∀ name value v : String, occursIn (placeholder name) v = false →
      Replace v (placeholder name) value = v) ∧
    (∀ name value a b : String,
      occursIn (placeholder name) (a ++ ("\x7b" ++ name)) = false →
      Replace (a ++ placeholder name ++ b) (placeholder name) value
        = a ++ value ++ Replace b (placeholder name) value) ∧
    substitute t "\x7ba\x7d-\x7bb\x7d-\x7ba\x7d" [("a", "x"), ("b", "y")] = ("x-y-x", []) ∧
    substitute t "\x7ba\x7d-\x7bb\x7d-\x7ba\x7d" [("b", "y"), ("a", "x")]
      = ("x-y-x", []) := by
  refine ⟨substitute_eq_spec t template pairs, ?_, ?_, rfl, rfl, rfl,
    fun name value v hv => Replace_absent v _ value (placeholder_data_ne_nil name) hv,
    fun name value a b h => Replace_placeholder_first name value a b h, rfl, rfl⟩
  · intro pairs' hperm
    rw [substitute_eq_spec, substitute_eq_spec]
    have hp : ((pairs'.filter fun p => !occursIn (placeholder p.1) template).map
        fun p => (⟨some t, "substitution not found: " ++ template ++ ", " ++ p.2⟩ :
          translatorError)).Perm
        ((pairs.filter fun p => !occursIn (placeholder p.1) template).map
          fun p => ⟨some t, "substitution not found: " ++ template ++ ", " ++ p.2⟩) :=
      (hperm.filter _).map _
    exact ⟨hp, hp.length_eq⟩
  · intro name value
    rw [substitute_eq_spec]
    cases h : occursIn (placeholder name) template <;>
      simp [substituteSpec, h]

end I18n
